import Mathlib

/-!
Verification of the dynamic weighted-graph shortest-path engine
(`traffic_routing_system.py`): a mutable road-network graph (`TrafficGraph`)
with dict-of-dict adjacency, a lazy-heap Dijkstra solver, an A* solver
without a staleness re-check, in-place weight mutation (`update_traffic`),
and predecessor-map path reconstruction.

Modelling conventions:
* Node identifiers are strings, as in the source; Python string comparison
  (used by `heapq` to break ties between equal priorities) is code-point
  lexicographic and is modelled by `nodeLtb`.
* Edge weights are Python floats in the source.  Every arithmetic the engine
  performs on them is addition and order comparison, so weights are modelled
  over an arbitrary decidable linearly ordered additive commutative monoid
  `W`; the demonstration scenario uses integer weights, for which float
  arithmetic is exact, so the concrete runs instantiate `W := Int`.
  `float('inf')` is modelled by `⊤ : WithTop W`.
* Python dicts are insertion-ordered association lists: assignment to an
  existing key overwrites in place, assignment to a fresh key appends, and
  iteration follows list order (`dlookup` / `dset`).
* `heapq` with `(priority, node)` tuples pops the unique smallest tuple under
  lexicographic comparison (distinct tuples never tie, duplicate tuples are
  interchangeable), so the priority queue is modelled as a list from which
  `popMin` removes the minimum under the same lexicographic order.
* A `KeyError` (dict subscript on a missing key) is modelled by the `.exn`
  outcome; the loops are written with explicit fuel and a `.fuelOut` outcome,
  and the fuel passed by the top-level entry points is proved sufficient on
  well-formed graphs, so `.fuelOut` never arises there.
* `graph.heuristic` computes `math.hypot` (a real square root) of coordinate
  differences, an irrational number; the A* solver is therefore parametrised
  by the heuristic function `h : Node → Node → W` it consults.  The source
  heuristic is everywhere nonnegative and zero on the diagonal, which is the
  side condition the A* theorems assume where they need it.
-/

namespace Traffic

abbrev Node := String

/-- Python string comparison on char lists: code-point lexicographic. -/
def charsLtb : List Char → List Char → Bool
  | [], [] => false
  | [], _ :: _ => true
  | _ :: _, [] => false
  | a :: as, b :: bs =>
    if a.toNat < b.toNat then true
    else if b.toNat < a.toNat then false
    else charsLtb as bs

/-- Python `<` on node identifiers (strings). -/
def nodeLtb (a b : Node) : Bool := charsLtb a.data b.data

theorem charsLtb_irrefl : ∀ l : List Char, charsLtb l l = false := by
  intro l
  induction l with
  | nil => rfl
  | cons a as ih => simp [charsLtb, ih]

theorem charsLtb_asymm : ∀ {l₁ l₂ : List Char},
    charsLtb l₁ l₂ = true → charsLtb l₂ l₁ = false := by
  intro l₁
  induction l₁ with
  | nil => intro l₂ h; cases l₂ <;> simp_all [charsLtb]
  | cons a as ih =>
    intro l₂ h
    cases l₂ with
    | nil => simp [charsLtb] at h
    | cons b bs =>
      by_cases hab : a.toNat < b.toNat
      · have hba : ¬ b.toNat < a.toNat := by omega
        simp [charsLtb, hab, hba]
      · by_cases hba : b.toNat < a.toNat
        · simp [charsLtb, hab, hba] at h
        · simp only [charsLtb, if_neg hab, if_neg hba] at h
          simp [charsLtb, hab, hba, ih h]

theorem charsLtb_conn : ∀ {l₁ l₂ : List Char},
    charsLtb l₁ l₂ = false → charsLtb l₂ l₁ = false → l₁ = l₂ := by
  intro l₁
  induction l₁ with
  | nil => intro l₂ h _; cases l₂ <;> simp_all [charsLtb]
  | cons a as ih =>
    intro l₂ h h'
    cases l₂ with
    | nil => simp [charsLtb] at h'
    | cons b bs =>
      by_cases hab : a.toNat < b.toNat
      · simp [charsLtb, hab] at h
      · by_cases hba : b.toNat < a.toNat
        · simp [charsLtb, hba, hab] at h'
        · simp only [charsLtb, if_neg hab, if_neg hba] at h h'
          have hv : a.toNat = b.toNat := by omega
          have hc : a = b := Char.ext (UInt32.toNat.inj hv)
          rw [hc, ih h h']

theorem charsLtb_negtrans : ∀ (l₁ l₂ l₃ : List Char),
    charsLtb l₁ l₂ = false → charsLtb l₂ l₃ = false → charsLtb l₁ l₃ = false := by
  intro l₁
  induction l₁ with
  | nil =>
    intro l₂ l₃ h h'
    cases l₂ with
    | nil => cases l₃ with
      | nil => rfl
      | cons c cs => simp [charsLtb] at h'
    | cons b bs => simp [charsLtb] at h
  | cons a as ih =>
    intro l₂ l₃ h h'
    cases l₂ with
    | nil =>
      cases l₃ with
      | nil => rfl
      | cons c cs => simp [charsLtb] at h'
    | cons b bs =>
      cases l₃ with
      | nil => simp [charsLtb]
      | cons c cs =>
        by_cases hab : a.toNat < b.toNat
        · simp [charsLtb, hab] at h
        · by_cases hbc : b.toNat < c.toNat
          · simp [charsLtb, hbc] at h'
          · by_cases hac : a.toNat < c.toNat
            · exact absurd (by omega : a.toNat < b.toNat ∨ b.toNat < c.toNat)
                (by simp [hab, hbc])
            · by_cases hca : c.toNat < a.toNat
              · simp [charsLtb, hac, hca]
              · have hba : ¬ b.toNat < a.toNat := by omega
                have hcb : ¬ c.toNat < b.toNat := by omega
                simp only [charsLtb, if_neg hab, if_neg hba] at h
                simp only [charsLtb, if_neg hbc, if_neg hcb] at h'
                simp only [charsLtb, if_neg hac, if_neg hca]
                exact ih bs cs h h'

theorem nodeLtb_asymm {a b : Node} (h : nodeLtb a b = true) : nodeLtb b a = false :=
  charsLtb_asymm h

theorem nodeLtb_conn {a b : Node} (h : nodeLtb a b = false) (h' : nodeLtb b a = false) :
    a = b := by
  have := charsLtb_conn h h'
  cases a; cases b; simpa using congrArg String.mk this

theorem nodeLtb_negtrans {a b c : Node} (h : nodeLtb a b = false)
    (h' : nodeLtb b c = false) : nodeLtb a c = false :=
  charsLtb_negtrans _ _ _ h h'

/-! ## Python dicts as insertion-ordered association lists -/

/-- Dict lookup: first entry with the given key, if any. -/
def dlookup {β : Type} : List (Node × β) → Node → Option β
  | [], _ => none
  | (k, b) :: rest, n => if k = n then some b else dlookup rest n

/-- Dict assignment `m[n] = b`: overwrite in place, or append a fresh key. -/
def dset {β : Type} : List (Node × β) → Node → β → List (Node × β)
  | [], n, b => [(n, b)]
  | (k, c) :: rest, n, b => if k = n then (n, b) :: rest else (k, c) :: dset rest n b

/-- The keys of a dict, in insertion order. -/
def keysOf {β : Type} (m : List (Node × β)) : List Node := m.map Prod.fst

theorem dlookup_dset_self {β : Type} (m : List (Node × β)) (n : Node) (b : β) :
    dlookup (dset m n b) n = some b := by
  induction m with
  | nil => simp [dset, dlookup]
  | cons e rest ih =>
    obtain ⟨k, c⟩ := e
    by_cases h : k = n
    · simp [dset, dlookup, h]
    · simp [dset, dlookup, h, ih]

theorem dlookup_dset_ne {β : Type} (m : List (Node × β)) (n n' : Node) (b : β)
    (h : n ≠ n') : dlookup (dset m n b) n' = dlookup m n' := by
  induction m with
  | nil => simp [dset, dlookup, h]
  | cons e rest ih =>
    obtain ⟨k, c⟩ := e
    by_cases hk : k = n
    · subst hk; simp [dset, dlookup, h]
    · by_cases hk' : k = n'
      · subst hk'; simp [dset, dlookup, hk, ih]
      · simp [dset, dlookup, hk, hk', ih]

theorem keysOf_nil {β : Type} : keysOf ([] : List (Node × β)) = [] := rfl

theorem keysOf_cons {β : Type} (k : Node) (c : β) (m : List (Node × β)) :
    keysOf ((k, c) :: m) = k :: keysOf m := rfl

theorem keysOf_dset {β : Type} (m : List (Node × β)) (n : Node) (b : β) :
    keysOf (dset m n b) = if n ∈ keysOf m then keysOf m else keysOf m ++ [n] := by
  induction m with
  | nil => simp [dset, keysOf]
  | cons e rest ih =>
    obtain ⟨k, c⟩ := e
    by_cases h : k = n
    · subst h; simp [dset, keysOf_cons]
    · have hnk : ¬ n = k := fun hh => h hh.symm
      simp only [dset, if_neg h, keysOf_cons, List.mem_cons, hnk, false_or]
      rw [ih]
      by_cases hm : n ∈ keysOf rest
      · simp [hm]
      · simp [hm]

theorem dlookup_isSome_iff_mem_keys {β : Type} (m : List (Node × β)) (n : Node) :
    (dlookup m n).isSome = true ↔ n ∈ keysOf m := by
  induction m with
  | nil => simp [dlookup, keysOf]
  | cons e rest ih =>
    obtain ⟨k, c⟩ := e
    by_cases h : k = n
    · subst h; simp [dlookup, keysOf]
    · have : ¬ n = k := fun hh => h hh.symm
      simp [dlookup, keysOf, h, this, ih]

theorem dlookup_mem {β : Type} {m : List (Node × β)} {n : Node} {b : β}
    (h : dlookup m n = some b) : (n, b) ∈ m := by
  induction m with
  | nil => simp [dlookup] at h
  | cons e rest ih =>
    obtain ⟨k, c⟩ := e
    by_cases hk : k = n
    · subst hk
      simp [dlookup] at h
      simp [h]
    · simp [dlookup, hk] at h
      exact List.mem_cons_of_mem _ (ih h)

/-! ## The graph store -/

/-- `TrafficGraph`: node set, dict-of-dict adjacency, coordinate dict.
Mirrors `TrafficGraph.__init__`'s three fields (`nodes`, `graph`,
`coordinates`); the Python node set is modelled as a duplicate-free list. -/
structure TrafficGraph (W : Type) where
  nodes : List Node
  graph : List (Node × List (Node × W))
  coordinates : List (Node × (Int × Int))
deriving DecidableEq

variable {W : Type}

/-- The warning printed by `add_edge` when an endpoint is unknown. -/
def warningMsg (u v : Node) : String :=
  "Warning: Node " ++ u ++ " or " ++ v ++ " not found."

/-- The banner printed unconditionally by `update_traffic`. -/
def updateBanner (u v : Node) : String :=
  "[DYNAMIC UPDATE]: Road " ++ u ++ " <-> " ++ v ++ " traffic increased!"

/-- `TrafficGraph.add_edge`: adds or updates the directed edge `u → v` when
both endpoints are adjacency keys, otherwise prints a warning and leaves the
graph unchanged.  The returned list holds the printed lines. -/
def add_edge (g : TrafficGraph W) (u v : Node) (w : W) :
    TrafficGraph W × List String :=
  match dlookup g.graph u, dlookup g.graph v with
  | some adj, some _ => ({ g with graph := dset g.graph u (dset adj v w) }, [])
  | _, _ => (g, [warningMsg u v])

/-- One conditional block of `update_traffic`:
`if y in self.graph.get(x, {}): self.graph[x][y] = new_weight`. -/
def updateDir (g : TrafficGraph W) (x y : Node) (neww : W) : TrafficGraph W :=
  match dlookup g.graph x with
  | none => g
  | some adj =>
    if (dlookup adj y).isSome then
      { g with graph := dset g.graph x (dset adj y neww) }
    else g

/-- `TrafficGraph.update_traffic`: sets the weight of `u → v` if that edge
exists, and, when `direction = "both"`, also of `v → u` if that reverse edge
exists.  Always prints its banner; creates no edges. -/
def update_traffic (g : TrafficGraph W) (u v : Node) (neww : W)
    (direction : String) : TrafficGraph W × List String :=
  let g1 := updateDir g u v neww
  let g2 := if direction = "both" then updateDir g1 v u neww else g1
  (g2, [updateBanner u v])

/-- `TrafficGraph.get_neighbors`: the `(neighbor, weight)` items of `node`'s
adjacency dict, in insertion order; empty for an unknown node. -/
def get_neighbors (g : TrafficGraph W) (n : Node) : List (Node × W) :=
  (dlookup g.graph n).getD []

/-- Adjacency dict with every node mapped to an empty inner dict, as built by
`TrafficGraph.__init__` before the edge loop. -/
def emptyAdj (ns : List Node) : List (Node × List (Node × W)) :=
  ns.map (fun n => (n, []))

/-- The constructor's edge loop: each listed edge is inserted in both
directions via `add_edge`; printed warnings accumulate. -/
def addEdgesBoth (gw : TrafficGraph W × List String) :
    List (Node × Node × W) → TrafficGraph W × List String
  | [] => gw
  | (u, v, w) :: rest =>
    let r1 := add_edge gw.1 u v w
    let r2 := add_edge r1.1 v u w
    addEdgesBoth (r2.1, gw.2 ++ r1.2 ++ r2.2) rest

/-- `TrafficGraph.__init__`: dedup the node list (Python builds a set), give
every node an empty adjacency dict, then insert each edge bidirectionally. -/
def mkGraph (ns : List Node) (edges : List (Node × Node × W))
    (coords : List (Node × (Int × Int))) : TrafficGraph W × List String :=
  addEdgesBoth (⟨ns.dedup, emptyAdj ns.dedup, coords⟩, []) edges

/-! ## The priority queue (`heapq` with `(priority, node)` tuples) -/

/-- A frontier entry `(priority, node)`.  Priorities live in `WithTop W`
(Python floats with `float('inf')`); in every actual run only finite
priorities are pushed. -/
abbrev Entry (W : Type) := WithTop W × Node

variable {W : Type}

/-- Python tuple comparison `(p₁, n₁) < (p₂, n₂)`: priority first, node
string as tie-break. -/
def entryLtb [LinearOrder W] (a b : Entry W) : Bool :=
  decide (a.1 < b.1) || (decide (a.1 = b.1) && nodeLtb a.2 b.2)

theorem entryLtb_eq_false_iff [LinearOrder W] (a b : Entry W) :
    entryLtb a b = false ↔ b.1 ≤ a.1 ∧ (a.1 = b.1 → nodeLtb a.2 b.2 = false) := by
  simp only [entryLtb, Bool.or_eq_false_iff, Bool.and_eq_false_iff,
    decide_eq_false_iff_not, not_lt]
  constructor
  · rintro ⟨h1, h2 | h2⟩
    · exact ⟨h1, fun he => absurd he h2⟩
    · exact ⟨h1, fun _ => h2⟩
  · rintro ⟨h1, h2⟩
    by_cases he : a.1 = b.1
    · exact ⟨h1, Or.inr (h2 he)⟩
    · exact ⟨h1, Or.inl he⟩

theorem entryLtb_asymm [LinearOrder W] {a b : Entry W}
    (h : entryLtb a b = true) : entryLtb b a = false := by
  simp only [entryLtb, Bool.or_eq_true, Bool.and_eq_true, decide_eq_true_eq] at h
  rw [entryLtb_eq_false_iff]
  rcases h with h | ⟨he, hn⟩
  · exact ⟨le_of_lt h, fun he => absurd he (ne_of_gt h)⟩
  · exact ⟨le_of_eq he, fun _ => nodeLtb_asymm hn⟩

theorem entryLtb_negtrans [LinearOrder W] {a b c : Entry W}
    (h : entryLtb a b = false) (h' : entryLtb b c = false) :
    entryLtb a c = false := by
  rw [entryLtb_eq_false_iff] at h h' ⊢
  obtain ⟨h1, h2⟩ := h
  obtain ⟨h1', h2'⟩ := h'
  refine ⟨le_trans h1' h1, fun he => ?_⟩
  have hba : b.1 = a.1 := le_antisymm h1 ((le_of_eq he).trans h1')
  exact nodeLtb_negtrans (h2 hba.symm) (h2' (hba.trans he))

/-- `heapq.heappop`: remove and return the smallest entry.  Between equal
priorities the node string decides; identical duplicates are
interchangeable, so this is extensionally the binary-heap pop. -/
def popMin [LinearOrder W] : List (Entry W) → Option (Entry W × List (Entry W))
  | [] => none
  | e :: rest =>
    match popMin rest with
    | none => some (e, [])
    | some (m, r) => if entryLtb m e then some (m, e :: r) else some (e, rest)

theorem popMin_eq_none_iff [LinearOrder W] (l : List (Entry W)) :
    popMin l = none ↔ l = [] := by
  cases l with
  | nil => simp [popMin]
  | cons e rest =>
    simp only [popMin]
    cases h : popMin rest with
    | none => simp
    | some p =>
      obtain ⟨m, r⟩ := p
      by_cases hlt : entryLtb m e <;> simp [hlt]

theorem popMin_perm [LinearOrder W] {l : List (Entry W)} {m : Entry W}
    {r : List (Entry W)} (h : popMin l = some (m, r)) : l.Perm (m :: r) := by
  induction l generalizing m r with
  | nil => simp [popMin] at h
  | cons e rest ih =>
    simp only [popMin] at h
    cases hr : popMin rest with
    | none =>
      rw [hr] at h
      have : rest = [] := (popMin_eq_none_iff rest).mp hr
      subst this
      simp only [Option.some.injEq, Prod.mk.injEq] at h
      obtain ⟨he, hrr⟩ := h
      subst he; subst hrr
      rfl
    | some p =>
      obtain ⟨m', r'⟩ := p
      rw [hr] at h
      by_cases hlt : entryLtb m' e
      · simp only [hlt, if_pos] at h
        simp only [Option.some.injEq, Prod.mk.injEq] at h
        obtain ⟨hm, hrr⟩ := h
        subst hm; subst hrr
        exact ((ih hr).cons e).trans (List.Perm.swap _ _ _)
      · simp only [hlt, if_neg, Bool.false_eq_true, not_false_iff] at h
        simp only [Option.some.injEq, Prod.mk.injEq] at h
        obtain ⟨hm, hrr⟩ := h
        subst hm; subst hrr
        rfl

theorem popMin_mem [LinearOrder W] {l : List (Entry W)} {m : Entry W}
    {r : List (Entry W)} (h : popMin l = some (m, r)) : m ∈ l :=
  (popMin_perm h).mem_iff.mpr (List.mem_cons_self m r)

theorem popMin_min [LinearOrder W] {l : List (Entry W)} {m : Entry W}
    {r : List (Entry W)} (h : popMin l = some (m, r)) :
    ∀ x ∈ l, entryLtb x m = false := by
  induction l generalizing m r with
  | nil => simp [popMin] at h
  | cons e rest ih =>
    simp only [popMin] at h
    cases hr : popMin rest with
    | none =>
      rw [hr] at h
      have : rest = [] := (popMin_eq_none_iff rest).mp hr
      subst this
      simp only [Option.some.injEq, Prod.mk.injEq] at h
      obtain ⟨he, _⟩ := h
      subst he
      intro x hx
      simp only [List.mem_singleton] at hx
      subst hx
      exact (entryLtb_eq_false_iff x x).mpr ⟨le_refl _, fun _ => charsLtb_irrefl _⟩
    | some p =>
      obtain ⟨m', r'⟩ := p
      rw [hr] at h
      by_cases hlt : entryLtb m' e
      · simp only [hlt, if_pos, Option.some.injEq, Prod.mk.injEq] at h
        obtain ⟨hm, _⟩ := h
        subst hm
        intro x hx
        rcases List.mem_cons.mp hx with hx | hx
        · subst hx; exact entryLtb_asymm hlt
        · exact ih hr x hx
      · simp only [hlt, if_neg, Bool.false_eq_true, not_false_iff,
          Option.some.injEq, Prod.mk.injEq] at h
        obtain ⟨hm, _⟩ := h
        subst hm
        intro x hx
        rcases List.mem_cons.mp hx with hx | hx
        · subst hx
          exact (entryLtb_eq_false_iff x x).mpr ⟨le_refl _, fun _ => charsLtb_irrefl _⟩
        · exact entryLtb_negtrans (ih hr x hx)
            (Bool.eq_false_iff.mpr (fun hh => hlt hh))

/-- The key fact used by the solvers: a popped entry's priority is a lower
bound for every entry in the queue it was popped from. -/
theorem popMin_le_prio [LinearOrder W] {l : List (Entry W)} {m : Entry W}
    {r : List (Entry W)} (h : popMin l = some (m, r)) :
    ∀ x ∈ l, m.1 ≤ x.1 := fun x hx =>
  ((entryLtb_eq_false_iff x m).mp (popMin_min h x hx)).1

/-! ## Outcomes -/

/-- The observable outcome of running a solver: a normal return (`done`), an
uncaught `KeyError` (`exn`), or exhaustion of the loop fuel (`fuelOut`, never
produced with the fuel supplied by the entry points on well-formed inputs). -/
inductive RunRes (β : Type) where
  | done : β → RunRes β
  | exn : RunRes β
  | fuelOut : RunRes β
deriving DecidableEq

/-- The value a solver returns: `(path or None, cost)`. -/
abbrev SPResult (W : Type) := Option (List Node) × WithTop W

/-! ## Path reconstruction -/

/-- `parents.get(current)`: `None` both for a missing key and for a stored
`None` value, exactly as in the source. -/
def parGet (par : List (Node × Option Node)) (n : Node) : Option Node :=
  match dlookup par n with
  | none => none
  | some o => o

/-- The `while current is not None` chase of `reconstruct_path`, building the
reversed path; fuelled, since a cyclic predecessor map would make the source
loop forever. -/
def reconstructAux (par : List (Node × Option Node)) :
    Nat → Node → Option (List Node)
  | 0, _ => none
  | fuel + 1, c =>
    match parGet par c with
    | none => some [c]
    | some p => (reconstructAux par fuel p).map (fun l => c :: l)

/-- `reconstruct_path`: follow predecessor links backward, then reverse. -/
def reconstruct_path (par : List (Node × Option Node)) (fuel : Nat)
    (c : Node) : Option (List Node) :=
  (reconstructAux par fuel c).map List.reverse

/-! ## Dijkstra -/

/-- `{node: float('inf') for node in graph.nodes}` (also the initial
`g_score` / `f_score` of A*). -/
def initDist (ns : List Node) : List (Node × WithTop W) := ns.map (fun n => (n, ⊤))

/-- `{node: None for node in graph.nodes}`. -/
def initPar (ns : List Node) : List (Node × Option Node) := ns.map (fun n => (n, none))

variable [LinearOrderedAddCommMonoid W]

/-- The neighbor loop of `dijkstra`: relax every outgoing edge of the popped
node `u` whose recorded distance is `d`; `none` models the `KeyError` raised
when a neighbor is missing from `distances`. -/
def relaxD (u : Node) (d : WithTop W) :
    List (Node × W) → List (Node × WithTop W) → List (Node × Option Node) →
    List (Entry W) →
    Option (List (Node × WithTop W) × List (Node × Option Node) × List (Entry W))
  | [], dist, par, pq => some (dist, par, pq)
  | (v, w) :: rest, dist, par, pq =>
    match dlookup dist v with
    | none => none
    | some dv =>
      let distance := d + (w : WithTop W)
      if distance < dv then
        relaxD u d rest (dset dist v distance) (dset par v (some u))
          ((distance, v) :: pq)
      else
        relaxD u d rest dist par pq

/-- The `while priority_queue:` loop of `dijkstra`: pop the smallest entry,
skip it when stale, return on the goal, otherwise relax the neighbors. -/
def dijkstraLoop (g : TrafficGraph W) (endNode : Node) :
    Nat → List (Entry W) → List (Node × WithTop W) → List (Node × Option Node) →
    RunRes (SPResult W)
  | 0, _, _, _ => .fuelOut
  | fuel + 1, pq, dist, par =>
    match popMin pq with
    | none => .done (none, ⊤)
    | some ((d, u), pq') =>
      match dlookup dist u with
      | none => .exn
      | some du =>
        if du < d then dijkstraLoop g endNode fuel pq' dist par
        else if u = endNode then
          -- here `distances[end_node] = du` since `u = endNode`
          match reconstruct_path par (g.nodes.length + 1) endNode with
          | some p => .done (some p, du)
          | none => .fuelOut
        else
          match relaxD u d (get_neighbors g u) dist par pq' with
          | none => .exn
          | some (dist2, par2, pq2) => dijkstraLoop g endNode fuel pq2 dist2 par2

/-- Loop fuel supplied by the entry points; proved sufficient on well-formed
graphs with nonnegative weights (each loop iteration strictly decreases a
potential bounded by this number). -/
def searchFuel (g : TrafficGraph W) : Nat :=
  (g.nodes.length + 1) *
    (2 ^ (g.nodes.dedup.length + 1) *
      Nat.factorial (g.nodes.dedup.length + 1)) + 2

/-- `dijkstra(graph, start_node, end_node)`. -/
def dijkstra (g : TrafficGraph W) (startNode endNode : Node) : RunRes (SPResult W) :=
  dijkstraLoop g endNode (searchFuel g) [((0 : WithTop W), startNode)]
    (dset (initDist g.nodes) startNode 0) (initPar g.nodes)

/-! ## A* -/

/-- The neighbor loop of `a_star`: `tentative = g_score[current] + weight`;
on improvement record predecessor, `g_score`, `f_score`, and push
`(f_score[neighbor], neighbor)`. -/
def relaxA (h : Node → Node → W) (endNode u : Node) (gu : WithTop W) :
    List (Node × W) → List (Node × WithTop W) → List (Node × WithTop W) →
    List (Node × Option Node) → List (Entry W) →
    Option (List (Node × WithTop W) × List (Node × WithTop W) ×
      List (Node × Option Node) × List (Entry W))
  | [], gs, fs, par, pq => some (gs, fs, par, pq)
  | (v, w) :: rest, gs, fs, par, pq =>
    match dlookup gs v with
    | none => none
    | some gv =>
      let tentative := gu + (w : WithTop W)
      if tentative < gv then
        let fv := tentative + ((h v endNode : W) : WithTop W)
        relaxA h endNode u gu rest (dset gs v tentative) (dset fs v fv)
          (dset par v (some u)) ((fv, v) :: pq)
      else
        relaxA h endNode u gu rest gs fs par pq

/-- The `while priority_queue:` loop of `a_star`: pop the smallest entry by
`f`, return on the goal (no staleness re-check), otherwise relax. -/
def aStarLoop (g : TrafficGraph W) (h : Node → Node → W) (endNode : Node) :
    Nat → List (Entry W) → List (Node × WithTop W) → List (Node × WithTop W) →
    List (Node × Option Node) → RunRes (SPResult W)
  | 0, _, _, _, _ => .fuelOut
  | fuel + 1, pq, gs, fs, par =>
    match popMin pq with
    | none => .done (none, ⊤)
    | some ((_, u), pq') =>
      if u = endNode then
        match dlookup gs endNode, reconstruct_path par (g.nodes.length + 1) endNode with
        | some ge, some p => .done (some p, ge)
        | some _, none => .fuelOut
        | none, _ => .exn
      else
        match dlookup gs u with
        | none => .exn
        | some gu =>
          match relaxA h endNode u gu (get_neighbors g u) gs fs par pq' with
          | none => .exn
          | some (gs2, fs2, par2, pq2) => aStarLoop g h endNode fuel pq2 gs2 fs2 par2

/-- `a_star(graph, start_node, end_node)`, parametrised by the heuristic
function `h` the graph's `heuristic` method computes. -/
def a_star (g : TrafficGraph W) (h : Node → Node → W)
    (startNode endNode : Node) : RunRes (SPResult W) :=
  aStarLoop g h endNode (searchFuel g)
    [(((h startNode endNode : W) : WithTop W), startNode)]
    (dset (initDist g.nodes) startNode 0)
    (dset (initDist g.nodes) startNode ((h startNode endNode : W) : WithTop W))
    (initPar g.nodes)

/-! ## Edge observations and graph well-formedness -/

/-- The weight of the directed edge `u → v`, when present. -/
def edgeWeight (g : TrafficGraph W) (u v : Node) : Option W :=
  match dlookup g.graph u with
  | none => none
  | some adj => dlookup adj v

/-- Well-formedness established by the constructor and preserved by every
operation: the node list is duplicate-free, the adjacency keys are exactly
the nodes, every adjacency target is a node, and each inner dict is
duplicate-free. -/
def WFgraph (g : TrafficGraph W) : Prop :=
  g.nodes.Nodup ∧ keysOf g.graph = g.nodes ∧
    (∀ e ∈ g.graph, (∀ p ∈ e.2, p.1 ∈ g.nodes) ∧ (keysOf e.2).Nodup)

instance (g : TrafficGraph W) : Decidable (WFgraph g) := by
  unfold WFgraph; infer_instance

/-- All edge weights of the graph are nonnegative (the data-model
assumption of the engine). -/
def NonnegW [Preorder W] [Zero W] (g : TrafficGraph W) : Prop :=
  ∀ e ∈ g.graph, ∀ p ∈ e.2, 0 ≤ p.2

instance [Preorder W] [Zero W] [DecidableRel ((· ≤ ·) : W → W → Prop)]
    (g : TrafficGraph W) : Decidable (NonnegW g) := by
  unfold NonnegW; infer_instance

end Traffic

namespace Traffic

variable {W : Type}

theorem dlookup_dset {β : Type} (m : List (Node × β)) (k a : Node) (b : β) :
    dlookup (dset m k b) a = if k = a then some b else dlookup m a := by
  by_cases h : k = a
  · subst h; simp [dlookup_dset_self]
  · simp [h, dlookup_dset_ne m k a b h]

theorem mem_dset {β : Type} {m : List (Node × β)} {k : Node} {b : β}
    {e : Node × β} (h : e ∈ dset m k b) : e = (k, b) ∨ e ∈ m := by
  induction m with
  | nil => simpa [dset] using h
  | cons f rest ih =>
    obtain ⟨k', c⟩ := f
    by_cases hk : k' = k
    · subst hk
      simp only [dset, eq_self_iff_true, if_true, List.mem_cons] at h
      rcases h with h2 | h2
      · exact Or.inl h2
      · exact Or.inr (List.mem_cons_of_mem _ h2)
    · simp only [dset, if_neg hk, List.mem_cons] at h
      rcases h with h2 | h2
      · exact Or.inr (List.mem_cons.mpr (Or.inl h2))
      · rcases ih h2 with h3 | h3
        · exact Or.inl h3
        · exact Or.inr (List.mem_cons_of_mem _ h3)

theorem dlookup_isSome_exists {β : Type} {m : List (Node × β)} {n : Node}
    (h : (dlookup m n).isSome = true) : ∃ b, (n, b) ∈ m := by
  cases hl : dlookup m n with
  | none => rw [hl] at h; simp at h
  | some b => exact ⟨b, dlookup_mem hl⟩

/-- In a well-formed graph, adjacency membership of a key implies node
membership. -/
theorem WFgraph.key_mem_nodes {g : TrafficGraph W} (hg : WFgraph g) {u : Node}
    (h : (dlookup g.graph u).isSome = true) : u ∈ g.nodes := by
  rw [← hg.2.1]
  exact (dlookup_isSome_iff_mem_keys _ _).mp h

/-- An existing edge of a graph with nonnegative weights has a nonnegative
weight. -/
theorem NonnegW.edge_nonneg [Preorder W] [Zero W] {g : TrafficGraph W}
    (hNN : NonnegW g) {u v : Node} {w : W} (h : edgeWeight g u v = some w) :
    0 ≤ w := by
  unfold edgeWeight at h
  cases hl : dlookup g.graph u with
  | none => rw [hl] at h; simp at h
  | some adj =>
    rw [hl] at h
    exact hNN _ (dlookup_mem hl) _ (dlookup_mem h)

/-- In a well-formed graph, adjacency targets are nodes. -/
theorem WFgraph.target_mem_nodes {g : TrafficGraph W} (hg : WFgraph g)
    {u v : Node} (h : (edgeWeight g u v).isSome = true) : v ∈ g.nodes := by
  unfold edgeWeight at h
  cases hl : dlookup g.graph u with
  | none => rw [hl] at h; simp at h
  | some adj =>
    rw [hl] at h
    obtain ⟨w, hw⟩ := dlookup_isSome_exists h
    exact ((hg.2.2 _ (dlookup_mem hl)).1 _ hw)

/-- Overwriting an existing target inside an existing adjacency entry
preserves well-formedness. -/
theorem WFgraph.dset_inner {g : TrafficGraph W} (hg : WFgraph g) {u : Node}
    {adj : List (Node × W)} (hu : dlookup g.graph u = some adj) {v : Node}
    (hv : v ∈ g.nodes) (w : W) :
    WFgraph { g with graph := dset g.graph u (dset adj v w) } := by
  have humem : u ∈ keysOf g.graph :=
    (dlookup_isSome_iff_mem_keys _ _).mp (by simp [hu])
  refine ⟨hg.1, ?_, ?_⟩
  · rw [keysOf_dset, if_pos humem, hg.2.1]
  · intro e he
    rcases mem_dset he with he | he
    · subst he
      have hadj := hg.2.2 _ (dlookup_mem hu)
      constructor
      · intro p hp
        rcases mem_dset hp with hp | hp
        · subst hp; exact hv
        · exact hadj.1 _ hp
      · rw [keysOf_dset]
        by_cases hvk : v ∈ keysOf adj
        · simp [hvk, hadj.2]
        · simp only [hvk, if_neg, not_false_iff]
          exact List.nodup_append.mpr ⟨hadj.2, List.nodup_singleton v,
            by simpa using hvk⟩
    · exact hg.2.2 _ he

/-- `add_edge` preserves well-formedness. -/
theorem WFgraph.add_edge {g : TrafficGraph W} (hg : WFgraph g) (u v : Node)
    (w : W) : WFgraph (Traffic.add_edge g u v w).1 := by
  unfold Traffic.add_edge
  cases hu : dlookup g.graph u with
  | none => exact hg
  | some adj =>
    cases hv : dlookup g.graph v with
    | none => exact hg
    | some adj' =>
      exact hg.dset_inner hu (hg.key_mem_nodes (by simp [hv])) w

/-- `updateDir` preserves well-formedness. -/
theorem WFgraph.updateDir {g : TrafficGraph W} (hg : WFgraph g)
    (x y : Node) (w : W) : WFgraph (Traffic.updateDir g x y w) := by
  unfold Traffic.updateDir
  cases ha : dlookup g.graph x with
  | none => exact hg
  | some adj =>
    by_cases hb : (dlookup adj y).isSome
    · have hbmem : y ∈ g.nodes := by
        refine hg.target_mem_nodes (u := x) (v := y) ?_
        simp [edgeWeight, ha, hb]
      simp only [hb, if_pos]
      exact hg.dset_inner ha hbmem w
    · simp only [hb]
      simpa using hg

/-- `update_traffic` preserves well-formedness. -/
theorem WFgraph.update_traffic {g : TrafficGraph W} (hg : WFgraph g)
    (u v : Node) (w : W) (d : String) :
    WFgraph (Traffic.update_traffic g u v w d).1 := by
  unfold Traffic.update_traffic
  simp only []
  by_cases hd : d = "both"
  · rw [if_pos hd]
    exact (hg.updateDir u v w).updateDir v u w
  · rw [if_neg hd]
    exact hg.updateDir u v w

/-- Well-formedness of the constructor output, for any input. -/
theorem WFgraph.mkGraph (ns : List Node) (edges : List (Node × Node × W))
    (coords : List (Node × (Int × Int))) : WFgraph (Traffic.mkGraph ns edges coords).1 := by
  have base : WFgraph (⟨ns.dedup, emptyAdj ns.dedup, coords⟩ : TrafficGraph W) := by
    refine ⟨List.nodup_dedup ns, ?_, ?_⟩
    · simp only [keysOf, emptyAdj, List.map_map]
      have hid : (Prod.fst ∘ fun n : Node => (n, ([] : List (Node × W)))) = id := rfl
      rw [hid, List.map_id]
    · intro e he
      simp only [emptyAdj, List.mem_map] at he
      obtain ⟨n, _, hn⟩ := he
      subst hn
      simp [keysOf]
  unfold Traffic.mkGraph
  generalize hgw : ((⟨ns.dedup, emptyAdj ns.dedup, coords⟩ : TrafficGraph W), ([] : List String)) = gw
  have : WFgraph gw.1 := by rw [← hgw]; exact base
  clear hgw base
  induction edges generalizing gw with
  | nil => simpa [addEdgesBoth] using this
  | cons e rest ih =>
    obtain ⟨u, v, w⟩ := e
    exact ih _ ((this.add_edge u v w).add_edge v u w)

/-- `updateDir` on edge weights: an existing `x → y` edge is set to `w`,
everything else is untouched. -/
theorem updateDir_edgeWeight (g : TrafficGraph W) (x y : Node) (w : W)
    (a b : Node) :
    edgeWeight (updateDir g x y w) a b =
      if a = x ∧ b = y ∧ (edgeWeight g x y).isSome = true then some w
      else edgeWeight g a b := by
  unfold updateDir
  cases hx : dlookup g.graph x with
  | none =>
    have : (edgeWeight g x y).isSome = false := by simp [edgeWeight, hx]
    simp [this]
  | some adj =>
    by_cases hy : (dlookup adj y).isSome
    · have hsome : (edgeWeight g x y).isSome = true := by
        simp [edgeWeight, hx, hy]
      simp only [hy, if_pos, hsome, and_true]
      by_cases hax : a = x
      · subst hax
        simp only [edgeWeight, dlookup_dset, eq_self_iff_true, if_true, true_and]
        by_cases hby : b = y
        · subst hby; simp [dlookup_dset, hx]
        · have : ¬ (y = b) := fun hh => hby hh.symm
          simp [dlookup_dset, this, hby, hx]
      · have : ¬ (a = x ∧ b = y) := fun hh => hax hh.1
        have hxa : ¬ (x = a) := fun hh => hax hh.symm
        simp [edgeWeight, dlookup_dset, hxa, hax]
    · have : (edgeWeight g x y).isSome = false := by
        simp [edgeWeight, hx]
        simpa using hy
      simp [hy, this]

/-- `updateDir` never creates or deletes edges. -/
theorem updateDir_isSome (g : TrafficGraph W) (x y : Node) (w : W)
    (c e : Node) :
    (edgeWeight (updateDir g x y w) c e).isSome = (edgeWeight g c e).isSome := by
  rw [updateDir_edgeWeight]
  by_cases h1 : c = x ∧ e = y ∧ (edgeWeight g x y).isSome = true
  · obtain ⟨hc, he, hs⟩ := h1
    subst hc; subst he
    simp [hs]
  · simp [h1]

/-- Full characterisation of `update_traffic` on edge weights: an existing
`u → v` edge is set to `w`; with `direction = "both"` an existing `v → u`
edge is also set; every other edge (and every absent edge) is untouched. -/
theorem update_traffic_edgeWeight (g : TrafficGraph W) (u v : Node) (w : W)
    (d : String) (a b : Node) :
    edgeWeight (Traffic.update_traffic g u v w d).1 a b =
      if a = u ∧ b = v ∧ (edgeWeight g u v).isSome = true then some w
      else if d = "both" ∧ a = v ∧ b = u ∧ (edgeWeight g v u).isSome = true then some w
      else edgeWeight g a b := by
  unfold Traffic.update_traffic
  simp only []
  by_cases hd : d = "both"
  · rw [if_pos hd, updateDir_edgeWeight, updateDir_isSome, updateDir_edgeWeight]
    by_cases h2 : a = v ∧ b = u ∧ (edgeWeight g v u).isSome = true
    · rw [if_pos h2]
      by_cases h1 : a = u ∧ b = v ∧ (edgeWeight g u v).isSome = true
      · rw [if_pos h1]
      · rw [if_neg h1, if_pos ⟨hd, h2⟩]
    · rw [if_neg h2, if_neg (fun hh => h2 hh.2 :
        ¬ (d = "both" ∧ a = v ∧ b = u ∧ (edgeWeight g v u).isSome = true))]
  · rw [if_neg hd, updateDir_edgeWeight, if_neg (fun hh => hd hh.1 :
      ¬ (d = "both" ∧ a = v ∧ b = u ∧ (edgeWeight g v u).isSome = true))]

/-- `add_edge` on an unknown endpoint: prints the warning, mutates nothing. -/
theorem add_edge_fail (g : TrafficGraph W) (u v : Node) (w : W)
    (h : ¬ ((dlookup g.graph u).isSome = true ∧ (dlookup g.graph v).isSome = true)) :
    add_edge g u v w = (g, [warningMsg u v]) := by
  unfold add_edge
  cases hu : dlookup g.graph u with
  | none => rfl
  | some adj =>
    cases hv : dlookup g.graph v with
    | none => rfl
    | some adj' => exact absurd ⟨by simp [hu], by simp [hv]⟩ h

/-- `add_edge` on known endpoints prints nothing. -/
theorem add_edge_ok_silent (g : TrafficGraph W) (u v : Node) (w : W)
    (hu : (dlookup g.graph u).isSome = true) (hv : (dlookup g.graph v).isSome = true) :
    (add_edge g u v w).2 = [] := by
  unfold add_edge
  cases hu' : dlookup g.graph u with
  | none => rw [hu'] at hu; simp at hu
  | some adj =>
    cases hv' : dlookup g.graph v with
    | none => rw [hv'] at hv; simp at hv
    | some adj' => rfl

/-- `update_traffic` always prints exactly its banner, never a failure. -/
theorem update_traffic_output (g : TrafficGraph W) (u v : Node) (w : W)
    (d : String) : (update_traffic g u v w d).2 = [updateBanner u v] := rfl

/-- `updateDir` on an absent edge leaves the graph unchanged. -/
theorem updateDir_noop (g : TrafficGraph W) (x y : Node) (w : W)
    (h : edgeWeight g x y = none) : updateDir g x y w = g := by
  unfold updateDir
  cases hx : dlookup g.graph x with
  | none => rfl
  | some adj =>
    have h' : dlookup adj y = none := by
      unfold edgeWeight at h
      rw [hx] at h
      exact h
    simp [h']

/-- A forward-only `update_traffic` on an absent edge is a silent no-op. -/
theorem update_traffic_forward_noop (g : TrafficGraph W) (u v : Node) (w : W)
    (d : String) (h : edgeWeight g u v = none) (hd : d ≠ "both") :
    (update_traffic g u v w d).1 = g := by
  unfold update_traffic
  simp only []
  rw [if_neg hd]
  exact updateDir_noop g u v w h

/-- An `update_traffic` with both directed edges absent is a silent no-op. -/
theorem update_traffic_both_noop (g : TrafficGraph W) (u v : Node) (w : W)
    (d : String) (h : edgeWeight g u v = none) (h' : edgeWeight g v u = none) :
    (update_traffic g u v w d).1 = g := by
  unfold update_traffic
  simp only []
  rw [updateDir_noop g u v w h]
  by_cases hd : d = "both"
  · rw [if_pos hd, updateDir_noop g v u w h']
  · rw [if_neg hd]

/-! ## State-threaded reads (frame property)

The query-side operations of the source only ever read the graph.  To state
this as a theorem rather than a convention of the embedding, the loops are
replayed threading the graph value through every iteration exactly where
the source consults it; the threaded runs return the final graph, which is
proved to be the input, and the same result as the plain runs. -/

/-- `get_neighbors` as a state function: result plus the store it leaves. -/
def get_neighborsS (g : TrafficGraph W) (n : Node) :
    List (Node × W) × TrafficGraph W :=
  (get_neighbors g n, g)

variable [LinearOrderedAddCommMonoid W] in
/-- `dijkstraLoop` threading the graph through each iteration. -/
def dijkstraLoopS (endNode : Node) :
    Nat → TrafficGraph W → List (Entry W) → List (Node × WithTop W) →
    List (Node × Option Node) → RunRes (SPResult W) × TrafficGraph W
  | 0, g, _, _, _ => (.fuelOut, g)
  | fuel + 1, g, pq, dist, par =>
    match popMin pq with
    | none => (.done (none, ⊤), g)
    | some ((d, u), pq') =>
      match dlookup dist u with
      | none => (.exn, g)
      | some du =>
        if du < d then dijkstraLoopS endNode fuel g pq' dist par
        else if u = endNode then
          match reconstruct_path par (g.nodes.length + 1) endNode with
          | some p => (.done (some p, du), g)
          | none => (.fuelOut, g)
        else
          match get_neighborsS g u with
          | (ns, g') =>
            match relaxD u d ns dist par pq' with
            | none => (.exn, g')
            | some (dist2, par2, pq2) =>
              dijkstraLoopS endNode fuel g' pq2 dist2 par2

variable [LinearOrderedAddCommMonoid W] in
/-- `dijkstra` threading the graph. -/
def dijkstraS (g : TrafficGraph W) (startNode endNode : Node) :
    RunRes (SPResult W) × TrafficGraph W :=
  dijkstraLoopS endNode (searchFuel g) g [((0 : WithTop W), startNode)]
    (dset (initDist g.nodes) startNode 0) (initPar g.nodes)

variable [LinearOrderedAddCommMonoid W] in
/-- `aStarLoop` threading the graph through each iteration. -/
def aStarLoopS (h : Node → Node → W) (endNode : Node) :
    Nat → TrafficGraph W → List (Entry W) → List (Node × WithTop W) →
    List (Node × WithTop W) → List (Node × Option Node) →
    RunRes (SPResult W) × TrafficGraph W
  | 0, g, _, _, _, _ => (.fuelOut, g)
  | fuel + 1, g, pq, gs, fs, par =>
    match popMin pq with
    | none => (.done (none, ⊤), g)
    | some ((_, u), pq') =>
      if u = endNode then
        match dlookup gs endNode, reconstruct_path par (g.nodes.length + 1) endNode with
        | some ge, some p => (.done (some p, ge), g)
        | some _, none => (.fuelOut, g)
        | none, _ => (.exn, g)
      else
        match dlookup gs u with
        | none => (.exn, g)
        | some gu =>
          match get_neighborsS g u with
          | (ns, g') =>
            match relaxA h endNode u gu ns gs fs par pq' with
            | none => (.exn, g')
            | some (gs2, fs2, par2, pq2) =>
              aStarLoopS h endNode fuel g' pq2 gs2 fs2 par2

variable [LinearOrderedAddCommMonoid W] in
/-- `a_star` threading the graph. -/
def aStarS (g : TrafficGraph W) (h : Node → Node → W)
    (startNode endNode : Node) : RunRes (SPResult W) × TrafficGraph W :=
  aStarLoopS h endNode (searchFuel g) g
    [(((h startNode endNode : W) : WithTop W), startNode)]
    (dset (initDist g.nodes) startNode 0)
    (dset (initDist g.nodes) startNode ((h startNode endNode : W) : WithTop W))
    (initPar g.nodes)

variable [LinearOrderedAddCommMonoid W] in
theorem dijkstraLoopS_eq (endNode : Node) (fuel : Nat) (g : TrafficGraph W)
    (pq : List (Entry W)) (dist : List (Node × WithTop W))
    (par : List (Node × Option Node)) :
    dijkstraLoopS endNode fuel g pq dist par =
      (dijkstraLoop g endNode fuel pq dist par, g) := by
  induction fuel generalizing pq dist par with
  | zero => rfl
  | succ fuel ih =>
    simp only [dijkstraLoopS, dijkstraLoop]
    cases popMin pq with
    | none => rfl
    | some p =>
      obtain ⟨⟨d, u⟩, pq'⟩ := p
      dsimp only
      cases dlookup dist u with
      | none => rfl
      | some du =>
        by_cases hdu : du < d
        · simp only [if_pos hdu]
          exact ih pq' dist par
        · simp only [if_neg hdu]
          by_cases hu : u = endNode
          · simp only [if_pos hu]
            cases reconstruct_path par (g.nodes.length + 1) endNode with
            | none => rfl
            | some p => rfl
          · simp only [if_neg hu, get_neighborsS]
            cases relaxD u d (get_neighbors g u) dist par pq' with
            | none => rfl
            | some t =>
              obtain ⟨dist2, par2, pq2⟩ := t
              exact ih pq2 dist2 par2

variable [LinearOrderedAddCommMonoid W] in
theorem aStarLoopS_eq (h : Node → Node → W) (endNode : Node) (fuel : Nat)
    (g : TrafficGraph W) (pq : List (Entry W)) (gs fs : List (Node × WithTop W))
    (par : List (Node × Option Node)) :
    aStarLoopS h endNode fuel g pq gs fs par =
      (aStarLoop g h endNode fuel pq gs fs par, g) := by
  induction fuel generalizing pq gs fs par with
  | zero => rfl
  | succ fuel ih =>
    simp only [aStarLoopS, aStarLoop]
    cases popMin pq with
    | none => rfl
    | some p =>
      obtain ⟨⟨f, u⟩, pq'⟩ := p
      dsimp only
      by_cases hu : u = endNode
      · simp only [if_pos hu]
        cases dlookup gs endNode with
        | none => rfl
        | some ge =>
          cases reconstruct_path par (g.nodes.length + 1) endNode with
          | none => rfl
          | some p => rfl
      · simp only [if_neg hu]
        cases dlookup gs u with
        | none => rfl
        | some gu =>
          simp only [get_neighborsS]
          cases relaxA h endNode u gu (get_neighbors g u) gs fs par pq' with
          | none => rfl
          | some t =>
            obtain ⟨gs2, fs2, par2, pq2⟩ := t
            exact ih pq2 gs2 fs2 par2

/-! ## The demonstration network of `__main__` -/

/-- `NODES = {'A', ..., 'H'}`. -/
def demoNodes : List Node := ["A", "B", "C", "D", "E", "F", "G", "H"]

/-- `INITIAL_EDGES`. -/
def demoEdges : List (Node × Node × Int) :=
  [("A", "B", 10), ("A", "C", 1),
   ("B", "D", 5), ("B", "E", 2),
   ("C", "F", 7), ("C", "E", 3),
   ("D", "G", 4),
   ("E", "G", 1), ("E", "F", 2),
   ("F", "H", 15),
   ("G", "H", 5)]

/-- `COORDINATES`. -/
def demoCoords : List (Node × (Int × Int)) :=
  [("A", (0, 0)), ("B", (10, 10)), ("C", (0, 10)), ("D", (20, 10)),
   ("E", (10, 20)), ("F", (0, 25)), ("G", (20, 20)), ("H", (20, 30))]

/-- `city_graph = TrafficGraph(NODES, INITIAL_EDGES, COORDINATES)`. -/
def demoGraph : TrafficGraph Int := (mkGraph demoNodes demoEdges demoCoords).1

/-- The graph after `city_graph.update_traffic('C', 'E', 20)`. -/
def demoGraph2 : TrafficGraph Int := (update_traffic demoGraph "C" "E" 20 "both").1

/-- A two-node graph holding only the directed edge `B → A`, built through
the public interface: construction with no edges, then one `add_edge`. -/
def asymGraph : TrafficGraph Int :=
  (add_edge (mkGraph ["A", "B"] [] []).1 "B" "A" 5).1

/-- A two-node graph with one (bidirectionally inserted) edge `A - B` of
weight 2, used to instantiate general theorems on a concrete input. -/
def pairGraph : TrafficGraph Int := (mkGraph ["A", "B"] [("A", "B", 2)] []).1

/-- A two-node graph with no edges: its nodes are mutually unreachable. -/
def isoGraph : TrafficGraph Int := (mkGraph ["A", "B"] [] []).1

/-! ## Walks, costs, and the true shortest-path distance -/

section Paths

variable [LinearOrderedAddCommMonoid W]

/-- The weight of `u → v` as an element of `WithTop W`; `⊤` for a missing
edge. -/
def ewTop (g : TrafficGraph W) (u v : Node) : WithTop W :=
  match edgeWeight g u v with
  | none => ⊤
  | some w => (w : WithTop W)

/-- The cost of a node sequence: the sum of the weights of its consecutive
edges, `⊤` as soon as one is missing. -/
def costW (g : TrafficGraph W) : List Node → WithTop W
  | [] => 0
  | [_] => 0
  | x :: y :: rest => ewTop g x y + costW g (y :: rest)

/-- `p` is a walk from `s` to `v`: nonempty, with the right endpoints, all
consecutive edges present (finite cost). -/
def IsWalk (g : TrafficGraph W) (s v : Node) (p : List Node) : Prop :=
  p.head? = some s ∧ p.getLast? = some v ∧ costW g p ≠ ⊤

instance (g : TrafficGraph W) (s v : Node) (p : List Node) :
    Decidable (IsWalk g s v p) := by
  unfold IsWalk; infer_instance

/-- All consecutive pairs of `p` are edges of `g` (the spec's contiguity). -/
def Contig (g : TrafficGraph W) (p : List Node) : Prop :=
  List.Chain' (fun a b => (edgeWeight g a b).isSome = true) p

theorem costW_ne_top_iff_contig (g : TrafficGraph W) :
    ∀ p : List Node, costW g p ≠ ⊤ ↔ Contig g p := by
  intro p
  match p with
  | [] => simp [costW, Contig]
  | [x] => simp [costW, Contig]
  | x :: y :: rest =>
    have ih := costW_ne_top_iff_contig g (y :: rest)
    constructor
    · intro h
      have h1 : ewTop g x y ≠ ⊤ ∧ costW g (y :: rest) ≠ ⊤ := by
        constructor
        · intro hc; exact h (by simp [costW, hc])
        · intro hc; exact h (by simp [costW, hc])
      refine List.chain'_cons.mpr ⟨?_, ih.mp h1.2⟩
      unfold ewTop at h1
      cases he : edgeWeight g x y with
      | none => exact absurd (by rw [he] at h1; exact h1.1 rfl) (fun hh => hh)
      | some w => simp [he]
    · intro h
      have h2 := List.chain'_cons.mp h
      have hxy : ewTop g x y ≠ ⊤ := by
        unfold ewTop
        cases he : edgeWeight g x y with
        | none => rw [he] at h2; simp at h2
        | some w => simp
      have := ih.mpr h2.2
      simp only [costW, ne_eq, WithTop.add_eq_top, not_or]
      exact ⟨hxy, this⟩

theorem costW_nonneg (g : TrafficGraph W) (hNN : NonnegW g) :
    ∀ p : List Node, 0 ≤ costW g p := by
  intro p
  match p with
  | [] => simp [costW]
  | [x] => simp [costW]
  | x :: y :: rest =>
    have ih := costW_nonneg g hNN (y :: rest)
    have hew : (0 : WithTop W) ≤ ewTop g x y := by
      unfold ewTop
      cases he : edgeWeight g x y with
      | none => exact le_top
      | some w =>
        have h0 : (0 : WithTop W) ≤ (w : WithTop W) := by
          exact_mod_cast hNN.edge_nonneg he
        simpa using h0
    calc (0 : WithTop W) = 0 + 0 := by rw [add_zero]
      _ ≤ ewTop g x y + costW g (y :: rest) := add_le_add hew ih
      _ = costW g (x :: y :: rest) := rfl

theorem costW_append_cons (g : TrafficGraph W) :
    ∀ (p : List Node) (a : Node) (q : List Node),
      costW g (p ++ a :: q) = costW g (p ++ [a]) + costW g (a :: q) := by
  intro p
  induction p with
  | nil =>
    intro a q
    show costW g (a :: q) = costW g [a] + costW g (a :: q)
    simp [costW]
  | cons x p' ih =>
    intro a q
    cases p' with
    | nil =>
      cases q with
      | nil => simp [costW]
      | cons b q' =>
        show costW g (x :: a :: b :: q') = costW g [x, a] + costW g (a :: b :: q')
        simp only [costW, add_zero]
    | cons y p'' =>
      show ewTop g x y + costW g ((y :: p'') ++ a :: q) =
        ewTop g x y + costW g ((y :: p'') ++ [a]) + costW g (a :: q)
      rw [ih a q, add_assoc]

theorem costW_snoc (g : TrafficGraph W) :
    ∀ (p : List Node) (u v : Node), p.getLast? = some u →
      costW g (p ++ [v]) = costW g p + ewTop g u v := by
  intro p
  induction p with
  | nil => intro u v h; simp at h
  | cons x p' ih =>
    intro u v h
    cases p' with
    | nil =>
      have hx : x = u := by simpa using h
      show ewTop g x v + costW g [v] = costW g [x] + ewTop g u v
      rw [← hx]
      simp [costW]
    | cons y p'' =>
      rw [List.getLast?_cons_cons] at h
      show ewTop g x y + costW g ((y :: p'') ++ [v]) =
        ewTop g x y + costW g (y :: p'') + ewTop g u v
      rw [ih u v h, add_assoc]

/-- All the nodes along a walk lie in `s :: g.nodes` when the graph is
well-formed. -/
theorem walk_elems {g : TrafficGraph W} (hWF : WFgraph g) :
    ∀ (p : List Node) (s v : Node), IsWalk g s v p →
      ∀ x ∈ p, x ∈ s :: g.nodes := by
  intro p
  induction p with
  | nil => intro s v hw; simp [IsWalk] at hw
  | cons a p' ih =>
    intro s v hw x hx
    obtain ⟨hh, hl, hc⟩ := hw
    simp only [List.head?_cons, Option.some.injEq] at hh
    subst hh
    cases p' with
    | nil =>
      simp only [List.mem_singleton] at hx
      subst hx
      exact List.mem_cons_self _ _
    | cons b p'' =>
      have hcont := (costW_ne_top_iff_contig g _).mp hc
      have hedge : (edgeWeight g a b).isSome = true :=
        (List.chain'_cons.mp hcont).1
      have hbn : b ∈ g.nodes := hWF.target_mem_nodes hedge
      rcases List.mem_cons.mp hx with hx | hx
      · subst hx; exact List.mem_cons_self _ _
      · have hw' : IsWalk g b v (b :: p'') := by
          refine ⟨rfl, ?_, ?_⟩
          · rw [List.getLast?_cons_cons] at hl
            exact hl
          · intro hc'
            apply hc
            show ewTop g a b + costW g (b :: p'') = ⊤
            rw [hc']
            exact add_top _
        have := ih b v hw' x hx
        rcases List.mem_cons.mp this with hxx | hxx
        · subst hxx; exact List.mem_cons_of_mem _ hbn
        · exact List.mem_cons_of_mem _ hxx

theorem exists_dup_split {α : Type} :
    ∀ (l : List α), ¬ l.Nodup →
      ∃ (a : α) (l₁ l₂ l₃ : List α), l = l₁ ++ a :: (l₂ ++ a :: l₃) := by
  intro l
  induction l with
  | nil => intro h; exact absurd List.nodup_nil h
  | cons x xs ih =>
    intro h
    by_cases hx : x ∈ xs
    · obtain ⟨s, t, hst⟩ := List.append_of_mem hx
      exact ⟨x, [], s, t, by simp [hst]⟩
    · have hxs : ¬ xs.Nodup := by
        intro hnd
        exact h (List.nodup_cons.mpr ⟨hx, hnd⟩)
      obtain ⟨a, l₁, l₂, l₃, hl⟩ := ih hxs
      exact ⟨a, x :: l₁, l₂, l₃, by simp [hl]⟩

/-- Cycle removal: a non-simple walk can be shortened without increasing its
cost (weights nonnegative). -/
theorem IsWalk.shorten {g : TrafficGraph W} (hNN : NonnegW g) {s v : Node}
    {p : List Node} (hw : IsWalk g s v p) (hdup : ¬ p.Nodup) :
    ∃ q, IsWalk g s v q ∧ costW g q ≤ costW g p ∧ q.length < p.length := by
  obtain ⟨a, l₁, l₂, l₃, hl⟩ := exists_dup_split p hdup
  obtain ⟨hh, hlast, hc⟩ := hw
  refine ⟨l₁ ++ a :: l₃, ⟨?_, ?_, ?_⟩, ?_, ?_⟩
  · rw [← hh, hl]
    cases l₁ with
    | nil => rfl
    | cons z l₁' => rfl
  · rw [← hlast, hl]
    obtain ⟨z, hz⟩ : ∃ z, (a :: l₃).getLast? = some z := by
      cases hzz : (a :: l₃).getLast? with
      | none => exact absurd (List.getLast?_eq_none_iff.mp hzz) (by simp)
      | some z => exact ⟨z, rfl⟩
    have h1 : (l₁ ++ a :: l₃).getLast? = (a :: l₃).getLast? := by
      rw [List.getLast?_append, hz]
      rfl
    have h2 : (l₁ ++ a :: (l₂ ++ a :: l₃)).getLast? = (a :: l₃).getLast? := by
      rw [show a :: (l₂ ++ a :: l₃) = (a :: l₂) ++ (a :: l₃) from by simp,
        List.getLast?_append, List.getLast?_append, hz]
      rfl
    rw [h1, h2]
  · -- finite cost of the shortened walk
    have hcost : costW g p = costW g (l₁ ++ [a]) +
        (costW g ((a :: l₂) ++ [a]) + costW g (a :: l₃)) := by
      rw [hl, costW_append_cons g l₁ a (l₂ ++ a :: l₃)]
      congr 1
      rw [show a :: (l₂ ++ a :: l₃) = (a :: l₂) ++ a :: l₃ from by simp,
        costW_append_cons g (a :: l₂) a l₃]
    have hq : costW g (l₁ ++ a :: l₃) = costW g (l₁ ++ [a]) + costW g (a :: l₃) :=
      costW_append_cons g l₁ a l₃
    intro htop
    apply hc
    rw [hcost]
    rw [hq] at htop
    rcases WithTop.add_eq_top.mp htop with h | h
    · rw [h, top_add]
    · rw [h, add_top, add_top]
  · have hcost : costW g p = costW g (l₁ ++ [a]) +
        (costW g ((a :: l₂) ++ [a]) + costW g (a :: l₃)) := by
      rw [hl, costW_append_cons g l₁ a (l₂ ++ a :: l₃)]
      congr 1
      rw [show a :: (l₂ ++ a :: l₃) = (a :: l₂) ++ a :: l₃ from by simp,
        costW_append_cons g (a :: l₂) a l₃]
    rw [hcost, costW_append_cons g l₁ a l₃]
    refine add_le_add_left ?_ _
    exact le_add_of_nonneg_left (costW_nonneg g hNN _)
  · rw [hl]
    simp only [List.length_append, List.length_cons]
    omega

/-- The minimum cost over a list of candidate node sequences. -/
def minCost (g : TrafficGraph W) (l : List (List Node)) : WithTop W :=
  l.foldr (fun p acc => min (costW g p) acc) ⊤

theorem minCost_le (g : TrafficGraph W) {l : List (List Node)}
    {p : List Node} (hp : p ∈ l) : minCost g l ≤ costW g p := by
  induction l with
  | nil => simp at hp
  | cons q l' ih =>
    rcases List.mem_cons.mp hp with hp | hp
    · subst hp; exact min_le_left _ _
    · exact le_trans (min_le_right _ _) (ih hp)

theorem minCost_cases (g : TrafficGraph W) (l : List (List Node)) :
    minCost g l = ⊤ ∨ ∃ p ∈ l, minCost g l = costW g p := by
  induction l with
  | nil => exact Or.inl rfl
  | cons q l' ih =>
    have hm : minCost g (q :: l') = min (costW g q) (minCost g l') := rfl
    rcases le_total (costW g q) (minCost g l') with h | h
    · exact Or.inr ⟨q, List.mem_cons_self _ _, by rw [hm, min_eq_left h]⟩
    · rcases ih with h' | ⟨p, hp, hmc⟩
      · have hq : costW g q = ⊤ := top_le_iff.mp (h' ▸ h)
        exact Or.inr ⟨q, List.mem_cons_self _ _, by rw [hm, min_eq_right h, h', hq]⟩
      · exact Or.inr ⟨p, List.mem_cons_of_mem _ hp, by rw [hm, min_eq_right h, hmc]⟩

theorem le_minCost (g : TrafficGraph W) {l : List (List Node)} {c : WithTop W}
    (h : ∀ p ∈ l, c ≤ costW g p) : c ≤ minCost g l := by
  induction l with
  | nil => exact le_top
  | cons q l' ih =>
    exact le_min (h q (List.mem_cons_self _ _))
      (ih fun p hp => h p (List.mem_cons_of_mem _ hp))

/-- All ways to insert an element into a list; structurally recursive so
that concrete instances evaluate inside the kernel. -/
def insertAll {α : Type} (a : α) : List α → List (List α)
  | [] => [[a]]
  | b :: l => (a :: b :: l) :: (insertAll a l).map (fun q => b :: q)

/-- All permutations of a list, structurally recursive (unlike
`List.permutations`, which the kernel cannot evaluate). -/
def perms {α : Type} : List α → List (List α)
  | [] => [[]]
  | a :: l => (perms l).flatMap (insertAll a)

theorem mem_insertAll {α : Type} (a : α) :
    ∀ (l p : List α), p ∈ insertAll a l ↔
      ∃ l1 l2, l = l1 ++ l2 ∧ p = l1 ++ a :: l2 := by
  intro l
  induction l with
  | nil =>
    intro p
    simp only [insertAll, List.mem_singleton]
    constructor
    · intro h
      exact ⟨[], [], rfl, by simpa using h⟩
    · rintro ⟨l1, l2, h1, h2⟩
      obtain ⟨hl1, hl2⟩ := List.append_eq_nil.mp h1.symm
      subst hl1
      subst hl2
      simpa using h2
  | cons b l ih =>
    intro p
    simp only [insertAll, List.mem_cons, List.mem_map]
    constructor
    · rintro (h | ⟨q, hq, hpq⟩)
      · exact ⟨[], b :: l, rfl, h⟩
      · obtain ⟨l1, l2, h1, h2⟩ := (ih q).mp hq
        refine ⟨b :: l1, l2, ?_, ?_⟩
        · rw [List.cons_append, h1]
        · rw [← hpq, h2, List.cons_append]
    · rintro ⟨l1, l2, h1, h2⟩
      cases l1 with
      | nil =>
        simp only [List.nil_append] at h1 h2
        rw [← h1] at h2
        exact Or.inl h2
      | cons x l1' =>
        simp only [List.cons_append, List.cons.injEq] at h1 h2
        obtain ⟨hbx, hl⟩ := h1
        refine Or.inr ⟨l1' ++ a :: l2, (ih _).mpr ⟨l1', l2, hl, rfl⟩, ?_⟩
        rw [h2, hbx]

theorem perm_of_mem_insertAll {α : Type} {a : α} {l p : List α}
    (h : p ∈ insertAll a l) : p.Perm (a :: l) := by
  obtain ⟨l1, l2, h1, h2⟩ := (mem_insertAll a l p).mp h
  subst h1
  subst h2
  exact List.perm_middle

theorem mem_perms_of_perm {α : Type} :
    ∀ {l p : List α}, p.Perm l → p ∈ perms l := by
  intro l
  induction l with
  | nil =>
    intro p hp
    rw [hp.eq_nil]
    simp [perms]
  | cons a l ih =>
    intro p hp
    have ha : a ∈ p := hp.mem_iff.mpr (List.mem_cons_self a l)
    obtain ⟨p1, p2, hsplit⟩ := List.append_of_mem ha
    subst hsplit
    have hrest : (p1 ++ p2).Perm l := by
      have h1 : (a :: (p1 ++ p2)).Perm (a :: l) :=
        (List.perm_middle.symm).trans hp
      exact h1.cons_inv
    simp only [perms, List.mem_flatMap]
    exact ⟨p1 ++ p2, ih hrest, (mem_insertAll a _ _).mpr ⟨p1, p2, rfl, rfl⟩⟩

theorem perm_of_mem_perms {α : Type} :
    ∀ {l p : List α}, p ∈ perms l → p.Perm l := by
  intro l
  induction l with
  | nil =>
    intro p h
    simp only [perms, List.mem_singleton] at h
    rw [h]
  | cons a l ih =>
    intro p h
    simp only [perms, List.mem_flatMap] at h
    obtain ⟨q, hq, hpq⟩ := h
    exact (perm_of_mem_insertAll hpq).trans ((ih hq).cons a)

theorem length_insertAll {α : Type} (a : α) :
    ∀ l : List α, (insertAll a l).length = l.length + 1 := by
  intro l
  induction l with
  | nil => rfl
  | cons b l ih => simp [insertAll, ih]

theorem length_perms {α : Type} :
    ∀ l : List α, (perms l).length ≤ Nat.factorial l.length := by
  intro l
  induction l with
  | nil => simp [perms, Nat.factorial]
  | cons a l ih =>
    show ((perms l).flatMap (insertAll a)).length ≤ _
    rw [List.length_flatMap]
    have hb : ∀ x ∈ (perms l).map (fun q => (insertAll a q).length),
        x ≤ l.length + 1 := by
      intro x hx
      rw [List.mem_map] at hx
      obtain ⟨q, hq, hxe⟩ := hx
      rw [← hxe, length_insertAll]
      have := (perm_of_mem_perms hq).length_eq
      omega
    calc ((perms l).map (fun q => (insertAll a q).length)).sum
        ≤ ((perms l).map (fun q => (insertAll a q).length)).length *
          (l.length + 1) := List.sum_le_card_nsmul _ _ hb
      _ = (perms l).length * (l.length + 1) := by rw [List.length_map]
      _ ≤ Nat.factorial l.length * (l.length + 1) := Nat.mul_le_mul_right _ ih
      _ = Nat.factorial (l.length + 1) := by
          rw [Nat.factorial_succ, Nat.mul_comm]

/-- The node pool in which every walk from `s` lives (well-formed graphs). -/
def spPool (g : TrafficGraph W) (s : Node) : List Node := (s :: g.nodes).dedup

/-- All simple (duplicate-free) walks from `s` to `v`, by enumeration. -/
def spCandidates (g : TrafficGraph W) (s v : Node) : List (List Node) :=
  ((spPool g s).sublists.flatMap perms).filter
    (fun p => decide (IsWalk g s v p ∧ p.Nodup))

/-- The true shortest-walk distance from `s` to `v` (`⊤` when unreachable). -/
def spDist (g : TrafficGraph W) (s v : Node) : WithTop W :=
  minCost g (spCandidates g s v)

theorem mem_spCandidates {g : TrafficGraph W} {s v : Node} {p : List Node}
    (hw : IsWalk g s v p) (hnd : p.Nodup)
    (helems : ∀ x ∈ p, x ∈ s :: g.nodes) : p ∈ spCandidates g s v := by
  unfold spCandidates
  rw [List.mem_filter]
  refine ⟨?_, by simp [hw, hnd]⟩
  rw [List.mem_flatMap]
  have hsub : p ⊆ spPool g s := fun x hx => List.mem_dedup.mpr (helems x hx)
  obtain ⟨l', hperm, hsl⟩ := hnd.subperm hsub
  exact ⟨l', List.mem_sublists.mpr hsl, mem_perms_of_perm hperm.symm⟩

theorem spCandidates_spec {g : TrafficGraph W} {s v : Node} {p : List Node}
    (hp : p ∈ spCandidates g s v) : IsWalk g s v p ∧ p.Nodup := by
  unfold spCandidates at hp
  rw [List.mem_filter] at hp
  simpa using hp.2

/-- The shortest distance lower-bounds the cost of every walk. -/
theorem spDist_le_costW {g : TrafficGraph W} (hWF : WFgraph g)
    (hNN : NonnegW g) {s v : Node} {p : List Node} (hw : IsWalk g s v p) :
    spDist g s v ≤ costW g p := by
  have H : ∀ (n : Nat) (p : List Node), p.length ≤ n → IsWalk g s v p →
      spDist g s v ≤ costW g p := by
    intro n
    induction n with
    | zero =>
      intro p hl hw
      cases p with
      | nil => simp [IsWalk] at hw
      | cons a p' => simp at hl
    | succ n ih =>
      intro p hl hw
      by_cases hnd : p.Nodup
      · exact minCost_le g (mem_spCandidates hw hnd (walk_elems hWF p s v hw))
      · obtain ⟨q, hq, hle, hlt⟩ := hw.shorten hNN hnd
        exact le_trans (ih q (by omega) hq) hle
  exact H p.length p le_rfl hw

theorem spDist_attained {g : TrafficGraph W} {s v : Node}
    (h : spDist g s v ≠ ⊤) :
    ∃ p, IsWalk g s v p ∧ p.Nodup ∧ costW g p = spDist g s v := by
  rcases minCost_cases g (spCandidates g s v) with hc | ⟨p, hp, hc⟩
  · exact absurd hc h
  · obtain ⟨hw, hnd⟩ := spCandidates_spec hp
    exact ⟨p, hw, hnd, hc.symm⟩

theorem spDist_nonneg {g : TrafficGraph W} (hNN : NonnegW g) (s v : Node) :
    0 ≤ spDist g s v :=
  le_minCost g (fun p _ => costW_nonneg g hNN p)

theorem spDist_self {g : TrafficGraph W} (hNN : NonnegW g) (s : Node) :
    spDist g s s = 0 := by
  have hle : spDist g s s ≤ 0 := by
    have hw : IsWalk g s s [s] := ⟨rfl, rfl, by simp [costW]⟩
    have : [s] ∈ spCandidates g s s :=
      mem_spCandidates hw (List.nodup_singleton s)
        (fun x hx => by
          rw [List.mem_singleton.mp hx]
          exact List.mem_cons_self s _)
    have := minCost_le g this
    simpa [costW] using this
  exact le_antisymm hle (spDist_nonneg hNN s s)

/-- The triangle inequality of `spDist` along an edge. -/
theorem spDist_triangle {g : TrafficGraph W} (hWF : WFgraph g)
    (hNN : NonnegW g) {s u v : Node} {w : W} (he : edgeWeight g u v = some w) :
    spDist g s v ≤ spDist g s u + (w : WithTop W) := by
  by_cases hu : spDist g s u = ⊤
  · rw [hu, top_add]
    exact le_top
  · obtain ⟨p, hwp, hnd, hcp⟩ := spDist_attained hu
    obtain ⟨hh, hlast, hc⟩ := hwp
    have hw' : IsWalk g s v (p ++ [v]) := by
      refine ⟨?_, by simp, ?_⟩
      · cases p with
        | nil => simp at hh
        | cons a p' => simpa using hh
      · rw [costW_snoc g p u v hlast]
        intro htop
        rcases WithTop.add_eq_top.mp htop with h | h
        · exact hc h
        · unfold ewTop at h
          rw [he] at h
          exact (WithTop.coe_ne_top h)
    have := spDist_le_costW hWF hNN hw'
    rw [costW_snoc g p u v hlast, hcp] at this
    have hew : ewTop g u v = (w : WithTop W) := by unfold ewTop; rw [he]
    rwa [hew] at this

theorem ewTop_nonneg {g : TrafficGraph W} (hNN : NonnegW g) (u v : Node) :
    0 ≤ ewTop g u v := by
  unfold ewTop
  cases he : edgeWeight g u v with
  | none => exact le_top
  | some w =>
    have h0 : (0 : WithTop W) ≤ (w : WithTop W) := by
      exact_mod_cast hNN.edge_nonneg he
    simpa using h0

theorem costW_le_append {g : TrafficGraph W} (hNN : NonnegW g) :
    ∀ (B A : List Node), costW g A ≤ costW g (A ++ B) := by
  intro B
  induction B with
  | nil => intro A; simp
  | cons b B' ih =>
    intro A
    rw [costW_append_cons g A b B']
    have h1 : costW g A ≤ costW g (A ++ [b]) := by
      cases hA : A.getLast? with
      | none =>
        have : A = [] := by
          cases A with
          | nil => rfl
          | cons x A' => exact absurd hA (by simp [List.getLast?_eq_none_iff])
        subst this
        simp [costW]
      | some u =>
        rw [costW_snoc g A u b hA]
        exact le_add_of_nonneg_right (ewTop_nonneg hNN u b)
    exact le_trans h1 (le_add_of_nonneg_right (costW_nonneg g hNN _))

theorem dlookup_eq_of_mem_nodup {β : Type} :
    ∀ {m : List (Node × β)} {k : Node} {b : β},
      (k, b) ∈ m → (keysOf m).Nodup → dlookup m k = some b := by
  intro m
  induction m with
  | nil => intro k b h; simp at h
  | cons e rest ih =>
    intro k b h hnd
    obtain ⟨k', c⟩ := e
    rw [keysOf_cons] at hnd
    rcases List.mem_cons.mp h with h | h
    · injection h with h1 h2
      subst h1
      subst h2
      simp [dlookup]
    · have hk' : ¬ (k' = k) := by
        intro hkk
        subst hkk
        exact (List.nodup_cons.mp hnd).1
          (by simp only [keysOf, List.mem_map]; exact ⟨(k', b), h, rfl⟩)
      simp only [dlookup, if_neg hk']
      exact ih h (List.nodup_cons.mp hnd).2

/-- In a well-formed graph, adjacency items and edges coincide. -/
theorem mem_get_neighbors_iff {g : TrafficGraph W} (hWF : WFgraph g)
    {u v : Node} {w : W} :
    (v, w) ∈ get_neighbors g u ↔ edgeWeight g u v = some w := by
  unfold get_neighbors edgeWeight
  cases hu : dlookup g.graph u with
  | none => simp
  | some adj =>
    simp only [Option.getD_some]
    constructor
    · intro h
      exact dlookup_eq_of_mem_nodup h ((hWF.2.2 _ (dlookup_mem hu)).2)
    · intro h
      exact dlookup_mem h

/-- Splitting a list at an interior position `j`. -/
theorem take_drop_split {α : Type} (p : List α) (j : Nat) (hj : j < p.length) :
    p = p.take j ++ p.get ⟨j, hj⟩ :: p.drop (j + 1) := by
  conv_lhs => rw [← List.take_append_drop j p]
  congr 1
  rw [List.drop_eq_getElem_cons hj]
  rfl

theorem take_succ_eq_snoc {α : Type} (p : List α) (j : Nat) (hj : j < p.length) :
    p.take (j + 1) = p.take j ++ [p.get ⟨j, hj⟩] := by
  rw [← List.take_concat_get p j hj]
  simp [List.concat_eq_append]

/-- A popped entry's companions stay in the rest of the queue. -/
theorem popMin_mem_rest {l : List (Entry W)} {m : Entry W}
    {r : List (Entry W)} (h : popMin l = some (m, r)) :
    ∀ x ∈ l, x ≠ m → x ∈ r := by
  intro x hx hne
  rcases List.mem_cons.mp ((popMin_perm h).mem_iff.mp hx) with h' | h'
  · exact absurd h' hne
  · exact h'

/-! ## The termination potential -/

/-- The finite set of simple-walk costs from `s` to `v`. -/
def spcFin (g : TrafficGraph W) (s v : Node) : Finset (WithTop W) :=
  ((spCandidates g s v).map (costW g)).toFinset

theorem mem_spcFin {g : TrafficGraph W} (hWF : WFgraph g) {s v : Node}
    {p : List Node} (hw : IsWalk g s v p) (hnd : p.Nodup) :
    costW g p ∈ spcFin g s v := by
  unfold spcFin
  rw [List.mem_toFinset, List.mem_map]
  exact ⟨p, mem_spCandidates hw hnd (walk_elems hWF p s v hw), rfl⟩

theorem spcFin_card_le (g : TrafficGraph W) (s v : Node) :
    (spcFin g s v).card ≤
      2 ^ (spPool g s).length * Nat.factorial (spPool g s).length := by
  have h1 : (spcFin g s v).card ≤ ((spCandidates g s v).map (costW g)).length :=
    (spCandidates g s v).map (costW g) |>.toFinset_card_le
  rw [List.length_map] at h1
  have h2 : (spCandidates g s v).length ≤
      ((spPool g s).sublists.flatMap perms).length := by
    unfold spCandidates
    exact List.length_filter_le _ _
  have h3 : ((spPool g s).sublists.flatMap perms).length ≤
      2 ^ (spPool g s).length * Nat.factorial (spPool g s).length := by
    rw [List.length_flatMap]
    have hb : ∀ x ∈ ((spPool g s).sublists.map
        (fun l => (perms l).length)), x ≤ Nat.factorial (spPool g s).length := by
      intro x hx
      rw [List.mem_map] at hx
      obtain ⟨l, hl, hlen⟩ := hx
      rw [← hlen]
      exact le_trans (length_perms l)
        (Nat.factorial_le ((List.mem_sublists.mp hl).length_le))
    calc ((spPool g s).sublists.map (fun l => (perms l).length)).sum
        ≤ ((spPool g s).sublists.map (fun l => (perms l).length)).length *
          Nat.factorial (spPool g s).length := by
          exact List.sum_le_card_nsmul _ _ hb
      _ = 2 ^ (spPool g s).length * Nat.factorial (spPool g s).length := by
          rw [List.length_map, List.length_sublists]
  omega

/-- Per-node potential: how many candidate simple-walk costs still lie
strictly below the recorded distance. -/
def phiDist (g : TrafficGraph W) (s : Node)
    (dist : List (Node × WithTop W)) : Nat :=
  (dist.map (fun en => ((spcFin g s en.1).filter (fun c => c < en.2)).card)).sum

/-- A successful relaxation strictly decreases the distance potential. -/
theorem phiDist_dset {g : TrafficGraph W} {s : Node} :
    ∀ {dist : List (Node × WithTop W)}, (keysOf dist).Nodup →
      ∀ {v : Node} {dv c : WithTop W}, dlookup dist v = some dv → c < dv →
        c ∈ spcFin g s v →
        phiDist g s (dset dist v c) + 1 ≤ phiDist g s dist := by
  intro dist
  induction dist with
  | nil => intro _ v dv c h; simp [dlookup] at h
  | cons en rest ih =>
    intro hnd v dv c hv hlt hmem
    obtain ⟨k, dk⟩ := en
    rw [keysOf_cons] at hnd
    by_cases hk : k = v
    · subst hk
      simp only [dlookup, eq_self_iff_true, if_true, Option.some.injEq] at hv
      subst hv
      have hds : dset ((k, dk) :: rest) k c = (k, c) :: rest := by
        simp [dset]
      rw [hds]
      unfold phiDist
      simp only [List.map_cons, List.sum_cons]
      have hcard : ((spcFin g s k).filter (fun x => x < c)).card + 1 ≤
          ((spcFin g s k).filter (fun x => x < dk)).card := by
        have hss : (spcFin g s k).filter (fun x => x < c) ⊂
            (spcFin g s k).filter (fun x => x < dk) := by
          refine ⟨fun x hx => ?_, ?_⟩
          · rw [Finset.mem_filter] at hx ⊢
            exact ⟨hx.1, lt_trans hx.2 hlt⟩
          · intro hsub
            have hc1 : c ∈ (spcFin g s k).filter (fun x => x < dk) :=
              Finset.mem_filter.mpr ⟨hmem, hlt⟩
            have hc2 := hsub hc1
            rw [Finset.mem_filter] at hc2
            exact lt_irrefl c hc2.2
        have := Finset.card_lt_card hss
        omega
      omega
    · have hkv : ¬ (k = v) := hk
      simp only [dlookup, if_neg hkv] at hv
      have hds : dset ((k, dk) :: rest) v c = (k, dk) :: dset rest v c := by
        simp [dset, hkv]
      rw [hds]
      unfold phiDist
      simp only [List.map_cons, List.sum_cons]
      have := ih (List.nodup_cons.mp hnd).2 hv hlt hmem
      unfold phiDist at this
      omega

/-- `dset` on an existing key preserves the key list. -/
theorem keysOf_dset_mem {β : Type} {m : List (Node × β)} {k : Node}
    (hk : k ∈ keysOf m) (b : β) : keysOf (dset m k b) = keysOf m := by
  rw [keysOf_dset, if_pos hk]

/-! ## The Dijkstra loop invariant -/

/-- One distance map refines another: same keys, pointwise no larger. -/
def DistLe (dist2 dist : List (Node × WithTop W)) : Prop :=
  (∀ n c, dlookup dist n = some c →
    ∃ c', dlookup dist2 n = some c' ∧ c' ≤ c) ∧
  (∀ n, (dlookup dist2 n).isSome = (dlookup dist n).isSome)

theorem DistLe.refl (dist : List (Node × WithTop W)) : DistLe dist dist :=
  ⟨fun n c h => ⟨c, h, le_refl c⟩, fun _ => rfl⟩

theorem DistLe.trans {d1 d2 d3 : List (Node × WithTop W)}
    (h12 : DistLe d1 d2) (h23 : DistLe d2 d3) : DistLe d1 d3 := by
  refine ⟨fun n c h => ?_, fun n => (h12.2 n).trans (h23.2 n)⟩
  obtain ⟨c', hc', hle'⟩ := h23.1 n c h
  obtain ⟨c'', hc'', hle''⟩ := h12.1 n c' hc'
  exact ⟨c'', hc'', le_trans hle'' hle'⟩

theorem DistLe.dset {dist : List (Node × WithTop W)} {v : Node}
    {dv c : WithTop W} (hv : dlookup dist v = some dv) (hle : c ≤ dv) :
    DistLe (dset dist v c) dist := by
  constructor
  · intro n cn hn
    by_cases hnv : n = v
    · subst hnv
      rw [hn] at hv
      injection hv with hv
      exact ⟨c, by rw [dlookup_dset, if_pos rfl], hv ▸ hle⟩
    · exact ⟨cn, by rw [dlookup_dset, if_neg (fun hh => hnv hh.symm)]; exact hn,
        le_refl cn⟩
  · intro n
    by_cases hnv : v = n
    · subst hnv
      rw [dlookup_dset, if_pos rfl, hv]
      rfl
    · rw [dlookup_dset, if_neg hnv]

/-- All of `n`'s outgoing edges are relaxed relative to the distance map. -/
def DoneAt (g : TrafficGraph W) (dist : List (Node × WithTop W)) (n : Node)
    (dn : WithTop W) : Prop :=
  ∀ pr ∈ get_neighbors g n, ∃ dx, dlookup dist pr.1 = some dx ∧
    dx ≤ dn + (pr.2 : WithTop W)

/-- A supported witness: a simple walk from `s` to `n` of cost `c` such that
the recorded distance of the node at each position is at most the cost of the
walk's prefix up to that position. -/
def SupWitness (g : TrafficGraph W) (s : Node)
    (dist : List (Node × WithTop W)) (n : Node) (c : WithTop W) : Prop :=
  ∃ p, IsWalk g s n p ∧ p.Nodup ∧ costW g p = c ∧
    ∀ i : Fin p.length, ∃ cx, dlookup dist (p.get i) = some cx ∧
      cx ≤ costW g (p.take (i.1 + 1))

theorem SupWitness.mono {g : TrafficGraph W} {s : Node}
    {dist dist2 : List (Node × WithTop W)} {n : Node} {c : WithTop W}
    (hw : SupWitness g s dist n c) (hle : DistLe dist2 dist) :
    SupWitness g s dist2 n c := by
  obtain ⟨p, hwp, hnd, hc, hsup⟩ := hw
  refine ⟨p, hwp, hnd, hc, fun i => ?_⟩
  obtain ⟨cx, hcx, hcxle⟩ := hsup i
  obtain ⟨cx', hcx', hle'⟩ := hle.1 _ _ hcx
  exact ⟨cx', hcx', le_trans hle' hcxle⟩

/-- The prefix of a list costs no more than the whole (nonnegative
weights). -/
theorem costW_take_le {g : TrafficGraph W} (hNN : NonnegW g)
    (p : List Node) (k : Nat) : costW g (p.take k) ≤ costW g p := by
  conv_rhs => rw [← List.take_append_drop k p]
  exact costW_le_append hNN (p.drop k) (p.take k)

/-- The parent-map step relation: `a`'s recorded predecessor is `b`. -/
def parStep (par : List (Node × Option Node)) (a b : Node) : Prop :=
  parGet par a = some b

theorem parGet_dset (par : List (Node × Option Node)) (x : Node)
    (o : Option Node) (a : Node) :
    parGet (dset par x o) a = if x = a then o else parGet par a := by
  unfold parGet
  rw [dlookup_dset]
  by_cases h : x = a
  · simp [h]
  · simp [h]

/-- The loop invariant of `dijkstra` over the state `(pq, dist, par)`, for
start `s` and goal `e`. -/
structure DInv (g : TrafficGraph W) (s e : Node) (pq : List (Entry W))
    (dist : List (Node × WithTop W)) (par : List (Node × Option Node)) :
    Prop where
  keys : ∀ n, (dlookup dist n).isSome = true ↔ n ∈ s :: g.nodes
  keysnd : (keysOf dist).Nodup
  starts : dlookup dist s = some 0
  wit : ∀ n c, dlookup dist n = some c → c ≠ ⊤ → SupWitness g s dist n c
  pqdist : ∀ en ∈ pq, ∃ dn, dlookup dist en.2 = some dn ∧ dn ≤ en.1
  pqfin : ∀ en ∈ pq, en.1 ≠ ⊤
  doneq : ∀ n dn, dlookup dist n = some dn → dn ≠ ⊤ →
    (∃ c, (c, n) ∈ pq ∧ c ≤ dn) ∨ DoneAt g dist n dn
  goalp : ∀ de, dlookup dist e = some de → de ≠ ⊤ → ∃ c, (c, e) ∈ pq ∧ c = de
  parw : ∀ v u, parGet par v = some u → ∃ w dv du,
    edgeWeight g u v = some w ∧ dlookup dist v = some dv ∧
    dlookup dist u = some du ∧ du + (w : WithTop W) ≤ dv ∧ dv ≠ ⊤
  parS : parGet par s = none
  pardist : ∀ n dn, n ≠ s → dlookup dist n = some dn → dn ≠ ⊤ →
    (parGet par n).isSome = true
  acyc : ∀ v, ¬ Relation.TransGen (parStep par) v v

/-- The relaxation-phase invariant: as `DInv`, except that the expanded
node `u` is entitled to lack both a queue entry and relaxed edges while its
neighbor list is being traversed. -/
structure DInvR (g : TrafficGraph W) (s e u : Node) (pq : List (Entry W))
    (dist : List (Node × WithTop W)) (par : List (Node × Option Node)) :
    Prop where
  keys : ∀ n, (dlookup dist n).isSome = true ↔ n ∈ s :: g.nodes
  keysnd : (keysOf dist).Nodup
  starts : dlookup dist s = some 0
  wit : ∀ n c, dlookup dist n = some c → c ≠ ⊤ → SupWitness g s dist n c
  pqdist : ∀ en ∈ pq, ∃ dn, dlookup dist en.2 = some dn ∧ dn ≤ en.1
  pqfin : ∀ en ∈ pq, en.1 ≠ ⊤
  doneq : ∀ n dn, n ≠ u → dlookup dist n = some dn → dn ≠ ⊤ →
    (∃ c, (c, n) ∈ pq ∧ c ≤ dn) ∨ DoneAt g dist n dn
  goalp : ∀ de, dlookup dist e = some de → de ≠ ⊤ → ∃ c, (c, e) ∈ pq ∧ c = de
  parw : ∀ v u', parGet par v = some u' → ∃ w dv du',
    edgeWeight g u' v = some w ∧ dlookup dist v = some dv ∧
    dlookup dist u' = some du' ∧ du' + (w : WithTop W) ≤ dv ∧ dv ≠ ⊤
  parS : parGet par s = none
  pardist : ∀ n dn, n ≠ s → dlookup dist n = some dn → dn ≠ ⊤ →
    (parGet par n).isSome = true
  acyc : ∀ v, ¬ Relation.TransGen (parStep par) v v

/-- Distance values are nonnegative under the invariant's witness field. -/
theorem dist_nonneg_of_wit {g : TrafficGraph W} (hNN : NonnegW g) {s : Node}
    {dist : List (Node × WithTop W)}
    (hwit : ∀ n c, dlookup dist n = some c → c ≠ ⊤ → SupWitness g s dist n c)
    {n : Node} {c : WithTop W} (h : dlookup dist n = some c) : 0 ≤ c := by
  by_cases hc : c = ⊤
  · rw [hc]; exact le_top
  · obtain ⟨p, _, _, hcost, _⟩ := hwit n c h hc
    rw [← hcost]
    exact costW_nonneg g hNN p

/-- Along parent chains, recorded distances do not increase. -/
theorem chain_dist_le {g : TrafficGraph W} (hNN : NonnegW g)
    {dist : List (Node × WithTop W)} {par : List (Node × Option Node)}
    (hparw : ∀ v u', parGet par v = some u' → ∃ w dv du',
      edgeWeight g u' v = some w ∧ dlookup dist v = some dv ∧
      dlookup dist u' = some du' ∧ du' + (w : WithTop W) ≤ dv ∧ dv ≠ ⊤) :
    ∀ {a b : Node}, Relation.TransGen (parStep par) a b →
      ∀ {da}, dlookup dist a = some da →
        ∃ db, dlookup dist b = some db ∧ db ≤ da := by
  intro a b h
  induction h with
  | single hstep =>
    intro da hda
    obtain ⟨w, dv, du', hedge, hdv, hdu', hle, _⟩ := hparw _ _ hstep
    rw [hda] at hdv
    injection hdv with hdv
    refine ⟨du', hdu', ?_⟩
    have hw : (0 : WithTop W) ≤ (w : WithTop W) := by
      exact_mod_cast hNN.edge_nonneg hedge
    calc du' = du' + 0 := (add_zero du').symm
      _ ≤ du' + (w : WithTop W) := add_le_add_left hw du'
      _ ≤ dv := hle
      _ = da := hdv.symm
  | tail hab hstep ih =>
    intro da hda
    obtain ⟨dc, hdc, hdcle⟩ := ih hda
    obtain ⟨w, dv, du', hedge, hdv, hdu', hle, _⟩ := hparw _ _ hstep
    rw [hdc] at hdv
    injection hdv with hdv
    refine ⟨du', hdu', ?_⟩
    have hw : (0 : WithTop W) ≤ (w : WithTop W) := by
      exact_mod_cast hNN.edge_nonneg hedge
    calc du' = du' + 0 := (add_zero du').symm
      _ ≤ du' + (w : WithTop W) := add_le_add_left hw du'
      _ ≤ dv := hle
      _ = dc := hdv.symm
      _ ≤ da := hdcle

/-- A chain in the updated parent map either already existed or passes
through the freshly written link. -/
theorem transGen_dset_cases {par : List (Node × Option Node)} {v u : Node} :
    (∀ a b, Relation.TransGen (parStep (dset par v (some u))) a b →
      Relation.ReflTransGen (parStep par) u b ∨
        Relation.TransGen (parStep par) a b) ∧
    (∀ a b, Relation.TransGen (parStep (dset par v (some u))) a b →
      Relation.TransGen (parStep par) a b ∨
        Relation.ReflTransGen (parStep par) a v) := by
  have hchar : ∀ a b, parStep (dset par v (some u)) a b ↔
      (a = v ∧ b = u) ∨ (a ≠ v ∧ parStep par a b) := by
    intro a b
    unfold parStep
    rw [parGet_dset]
    by_cases h : v = a
    · subst h
      simp [eq_comm]
    · have : a ≠ v := fun hh => h hh.symm
      simp [h, this]
  constructor
  · intro a b h
    induction h with
    | single hstep =>
      rcases (hchar _ _).mp hstep with ⟨_, hb⟩ | ⟨_, hs⟩
      · subst hb; exact Or.inl Relation.ReflTransGen.refl
      · exact Or.inr (Relation.TransGen.single hs)
    | tail hab hstep ih =>
      rcases (hchar _ _).mp hstep with ⟨_, hb⟩ | ⟨_, hs⟩
      · subst hb; exact Or.inl Relation.ReflTransGen.refl
      · rcases ih with ih | ih
        · exact Or.inl (ih.tail hs)
        · exact Or.inr (ih.tail hs)
  · intro a b h
    induction h with
    | single hstep =>
      rcases (hchar _ _).mp hstep with ⟨ha, _⟩ | ⟨_, hs⟩
      · subst ha; exact Or.inr Relation.ReflTransGen.refl
      · exact Or.inl (Relation.TransGen.single hs)
    | tail hab hstep ih =>
      rcases ih with ih | ih
      · rcases (hchar _ _).mp hstep with ⟨ha, _⟩ | ⟨_, hs⟩
        · -- the chain reaches `v` before using the new link
          right
          subst ha
          exact ih.to_reflTransGen
        · exact Or.inl (ih.tail hs)
      · exact Or.inr ih

/-- A successful relaxation of the edge `u → v` preserves the relaxation
invariant, keeps `u`'s distance, refines the distance map, and pays for its
queue push out of the distance potential. -/
theorem relax_step {g : TrafficGraph W} (hWF : WFgraph g) (hNN : NonnegW g)
    {s e u : Node} {pq : List (Entry W)} {dist : List (Node × WithTop W)}
    {par : List (Node × Option Node)}
    (hinv : DInvR g s e u pq dist par)
    {du : WithTop W} (hdu : dlookup dist u = some du) (hduT : du ≠ ⊤)
    {v : Node} {w : W} (hedge : edgeWeight g u v = some w)
    {dv : WithTop W} (hdv : dlookup dist v = some dv)
    (hlt : du + (w : WithTop W) < dv) :
    DInvR g s e u ((du + (w : WithTop W), v) :: pq)
        (dset dist v (du + (w : WithTop W))) (dset par v (some u)) ∧
      dlookup (dset dist v (du + (w : WithTop W))) u = some du ∧
      DistLe (dset dist v (du + (w : WithTop W))) dist ∧
      phiDist g s (dset dist v (du + (w : WithTop W))) + 1 ≤ phiDist g s dist := by
  set distance := du + (w : WithTop W) with hdistance
  have hw0 : (0 : WithTop W) ≤ (w : WithTop W) := by
    exact_mod_cast hNN.edge_nonneg hedge
  have hdunn : 0 ≤ du := dist_nonneg_of_wit hNN hinv.wit hdu
  have hduled : du ≤ distance := le_add_of_nonneg_right hw0
  have hdnn : 0 ≤ distance := le_trans hdunn hduled
  have hdT : distance ≠ ⊤ := by
    intro h
    rw [h] at hlt
    exact not_top_lt hlt
  have hvu : v ≠ u := by
    intro h
    subst h
    rw [hdu] at hdv
    injection hdv with hdv
    rw [← hdv] at hlt
    exact absurd hlt (not_lt_of_le hduled)
  have hvs : v ≠ s := by
    intro h
    subst h
    rw [hinv.starts] at hdv
    injection hdv with hdv
    rw [← hdv] at hlt
    exact absurd hlt (not_lt_of_le hdnn)
  have hdistle : DistLe (dset dist v distance) dist := DistLe.dset hdv (le_of_lt hlt)
  obtain ⟨pu, hwpu, hndpu, hcpu, hsuppu⟩ := hinv.wit u du hdu hduT
  have hvninpu : v ∉ pu := by
    intro hv
    obtain ⟨i, hi⟩ := List.mem_iff_get.mp hv
    obtain ⟨cx, hcx, hcxle⟩ := hsuppu i
    rw [hi, hdv] at hcx
    injection hcx with hcx
    subst hcx
    have h1 : dv ≤ costW g pu := le_trans hcxle (costW_take_le hNN pu _)
    rw [hcpu] at h1
    exact absurd hlt (not_lt_of_le (le_trans h1 hduled))
  have hpulast : pu.getLast? = some u := hwpu.2.1
  have hpucost : costW g (pu ++ [v]) = distance := by
    rw [costW_snoc g pu u v hpulast, hcpu]
    unfold ewTop
    rw [hedge]
  have hwalkv : IsWalk g s v (pu ++ [v]) := by
    refine ⟨?_, by simp, ?_⟩
    · cases pu with
      | nil => exact absurd hwpu.1 (by simp)
      | cons a pu' =>
        rw [← hwpu.1]
        rfl
    · rw [hpucost]
      exact hdT
  have hndv : (pu ++ [v]).Nodup := by
    rw [List.nodup_append]
    exact ⟨hndpu, List.nodup_singleton v,
      fun a ha hav => hvninpu (by rwa [List.mem_singleton.mp hav] at ha)⟩
  have hwitv : SupWitness g s (dset dist v distance) v distance := by
    refine ⟨pu ++ [v], hwalkv, hndv, hpucost, fun i => ?_⟩
    have hlen : (pu ++ [v]).length = pu.length + 1 := by simp
    by_cases hi : i.1 < pu.length
    · have hget : (pu ++ [v]).get i = pu.get ⟨i.1, hi⟩ := by
        rw [List.get_append i.1 hi]
      have hne : pu.get ⟨i.1, hi⟩ ≠ v := fun hh =>
        hvninpu (hh ▸ List.get_mem pu _ _)
      obtain ⟨cx, hcx, hcxle⟩ := hsuppu ⟨i.1, hi⟩
      refine ⟨cx, ?_, ?_⟩
      · rw [hget, dlookup_dset, if_neg (fun hh => hne hh.symm)]
        exact hcx
      · rw [List.take_append_of_le_length (by omega)]
        exact hcxle
    · have hieq : i.1 = pu.length := by
        have h2 : i.1 < pu.length + 1 := by
          have h3 := i.2
          simpa using h3
        omega
      have hget : (pu ++ [v]).get i = v := by
        rw [List.get_eq_getElem]
        exact List.getElem_concat_length pu v i.1 hieq i.2
      refine ⟨distance, ?_, ?_⟩
      · rw [hget, dlookup_dset_self]
      · have htk : (pu ++ [v]).take (i.1 + 1) = pu ++ [v] := by
          apply List.take_of_length_le
          simp only [List.length_append, List.length_singleton]
          omega
        rw [htk, hpucost]
  have hvmemkeys : v ∈ keysOf dist :=
    (dlookup_isSome_iff_mem_keys _ _).mp (by simp [hdv])
  have hnoanc : ¬ Relation.ReflTransGen (parStep par) u v := by
    intro hrt
    rcases Relation.reflTransGen_iff_eq_or_transGen.mp hrt with heq | htg
    · exact hvu heq
    · obtain ⟨db, hdb, hdble⟩ := chain_dist_le hNN hinv.parw htg hdu
      rw [hdv] at hdb
      injection hdb with hdb
      subst hdb
      exact absurd hlt (not_lt_of_le (le_trans hdble hduled))
  have hacyc : ∀ x, ¬ Relation.TransGen (parStep (dset par v (some u))) x x := by
    intro x hx
    rcases transGen_dset_cases.1 x x hx with h1 | h1
    · rcases transGen_dset_cases.2 x x hx with h2 | h2
      · exact hinv.acyc x h2
      · exact hnoanc (h1.trans h2)
    · exact hinv.acyc x h1
  refine ⟨⟨?_, ?_, ?_, ?_, ?_, ?_, ?_, ?_, ?_, ?_, ?_, hacyc⟩, ?_, hdistle, ?_⟩
  · intro n
    rw [show (dlookup (dset dist v distance) n).isSome =
      (dlookup dist n).isSome from hdistle.2 n]
    exact hinv.keys n
  · rw [keysOf_dset_mem hvmemkeys]
    exact hinv.keysnd
  · rw [dlookup_dset, if_neg hvs]
    exact hinv.starts
  · intro n c hn hcT
    by_cases hnv : n = v
    · subst hnv
      rw [dlookup_dset_self] at hn
      injection hn with hn
      rw [← hn]
      exact hwitv
    · rw [dlookup_dset, if_neg (fun hh => hnv hh.symm)] at hn
      exact (hinv.wit n c hn hcT).mono hdistle
  · intro en hen
    rcases List.mem_cons.mp hen with hen | hen
    · subst hen
      exact ⟨distance, dlookup_dset_self _ _ _, le_refl _⟩
    · obtain ⟨dn, hdn, hdnle⟩ := hinv.pqdist en hen
      obtain ⟨dn', hdn', hdn'le⟩ := hdistle.1 _ _ hdn
      exact ⟨dn', hdn', le_trans hdn'le hdnle⟩
  · intro en hen
    rcases List.mem_cons.mp hen with hen | hen
    · subst hen; exact hdT
    · exact hinv.pqfin en hen
  · intro n dn hnu hn hdnT
    by_cases hnv : n = v
    · subst hnv
      rw [dlookup_dset_self] at hn
      injection hn with hn
      exact Or.inl ⟨distance, List.mem_cons_self _ _, le_of_eq hn⟩
    · rw [dlookup_dset, if_neg (fun hh => hnv hh.symm)] at hn
      rcases hinv.doneq n dn hnu hn hdnT with ⟨c, hc, hcle⟩ | hdone
      · exact Or.inl ⟨c, List.mem_cons_of_mem _ hc, hcle⟩
      · refine Or.inr (fun pr hpr => ?_)
        obtain ⟨dx, hdx, hdxle⟩ := hdone pr hpr
        obtain ⟨dx', hdx', hdx'le⟩ := hdistle.1 _ _ hdx
        exact ⟨dx', hdx', le_trans hdx'le hdxle⟩
  · intro de hde hdeT
    by_cases hev : e = v
    · subst hev
      rw [dlookup_dset_self] at hde
      injection hde with hde
      exact ⟨distance, List.mem_cons_self _ _, hde⟩
    · rw [dlookup_dset, if_neg (fun hh => hev hh.symm)] at hde
      obtain ⟨c, hc, hceq⟩ := hinv.goalp de hde hdeT
      exact ⟨c, List.mem_cons_of_mem _ hc, hceq⟩
  · intro v' u' hpar
    rw [parGet_dset] at hpar
    by_cases hv' : v = v'
    · subst hv'
      rw [if_pos rfl] at hpar
      injection hpar with hpar
      subst hpar
      refine ⟨w, distance, du, hedge, dlookup_dset_self _ _ _, ?_, le_refl _, hdT⟩
      rw [dlookup_dset, if_neg hvu]
      exact hdu
    · rw [if_neg hv'] at hpar
      obtain ⟨w', dv', du', hedge', hdv', hdu', hle', hdv'T⟩ := hinv.parw v' u' hpar
      obtain ⟨du2, hdu2, hdu2le⟩ := hdistle.1 _ _ hdu'
      refine ⟨w', dv', du2, hedge', ?_, hdu2, ?_, hdv'T⟩
      · rw [dlookup_dset, if_neg hv']
        exact hdv'
      · exact le_trans (add_le_add_right hdu2le _) hle'
  · rw [parGet_dset, if_neg hvs]
    exact hinv.parS
  · intro n dn hns hn hdnT
    by_cases hnv : v = n
    · rw [parGet_dset, if_pos hnv]
      rfl
    · rw [parGet_dset, if_neg hnv]
      rw [dlookup_dset, if_neg hnv] at hn
      exact hinv.pardist n dn hns hn hdnT
  · rw [dlookup_dset, if_neg hvu]
    exact hdu
  · refine phiDist_dset hinv.keysnd hdv hlt ?_
    have := mem_spcFin hWF hwalkv hndv
    rwa [hpucost] at this

/-- Specification of the full neighbor loop of `dijkstra`: it never raises,
preserves the relaxation invariant, leaves `u`'s distance, relaxes every
listed edge, refines the distance map, keeps all queue entries, and does not
increase the potential. -/
theorem relaxD_spec {g : TrafficGraph W} (hWF : WFgraph g) (hNN : NonnegW g)
    {s e u : Node} {du : WithTop W} :
    ∀ (rest : List (Node × W)) (dist : List (Node × WithTop W))
      (par : List (Node × Option Node)) (pq : List (Entry W)),
      DInvR g s e u pq dist par →
      dlookup dist u = some du → du ≠ ⊤ →
      (∀ pr ∈ rest, edgeWeight g u pr.1 = some pr.2) →
      ∃ dist2 par2 pq2,
        relaxD u du rest dist par pq = some (dist2, par2, pq2) ∧
          DInvR g s e u pq2 dist2 par2 ∧
          dlookup dist2 u = some du ∧
          (∀ pr ∈ rest, ∃ dx, dlookup dist2 pr.1 = some dx ∧
            dx ≤ du + (pr.2 : WithTop W)) ∧
          DistLe dist2 dist ∧
          (∀ x ∈ pq, x ∈ pq2) ∧
          phiDist g s dist2 + pq2.length ≤ phiDist g s dist + pq.length := by
  intro rest
  induction rest with
  | nil =>
    intro dist par pq hinv hdu hduT hedges
    exact ⟨dist, par, pq, rfl, hinv, hdu, by simp, DistLe.refl dist,
      fun x hx => hx, le_refl _⟩
  | cons pr rest' ih =>
    intro dist par pq hinv hdu hduT hedges
    obtain ⟨v, w⟩ := pr
    have hedge : edgeWeight g u v = some w :=
      hedges (v, w) (List.mem_cons_self _ _)
    have hvnodes : v ∈ g.nodes := hWF.target_mem_nodes (by rw [hedge]; rfl)
    have hvsome : (dlookup dist v).isSome = true :=
      (hinv.keys v).mpr (List.mem_cons_of_mem _ hvnodes)
    obtain ⟨dv, hdv⟩ := Option.isSome_iff_exists.mp hvsome
    have hedges' : ∀ pr ∈ rest', edgeWeight g u pr.1 = some pr.2 :=
      fun pr hpr => hedges pr (List.mem_cons_of_mem _ hpr)
    by_cases hlt : du + (w : WithTop W) < dv
    · obtain ⟨hinv', hdu', hdistle', hphi'⟩ :=
        relax_step hWF hNN hinv hdu hduT hedge hdv hlt
      obtain ⟨dist2, par2, pq2, heq, hinv2, hdu2, hrel2, hdl2, hpq2, hphi2⟩ :=
        ih _ _ _ hinv' hdu' hduT hedges'
      refine ⟨dist2, par2, pq2, ?_, hinv2, hdu2, ?_, hdl2.trans hdistle', ?_, ?_⟩
      · show relaxD u du ((v, w) :: rest') dist par pq = some (dist2, par2, pq2)
        simp only [relaxD, hdv]
        rw [if_pos hlt]
        exact heq
      · intro pr hpr
        rcases List.mem_cons.mp hpr with hpr | hpr
        · subst hpr
          obtain ⟨dx, hdx, hdxle⟩ :=
            hdl2.1 _ _ (dlookup_dset_self dist v (du + (w : WithTop W)))
          exact ⟨dx, hdx, hdxle⟩
        · exact hrel2 pr hpr
      · intro x hx
        exact hpq2 x (List.mem_cons_of_mem _ hx)
      · simp only [List.length_cons] at hphi2
        omega
    · obtain ⟨dist2, par2, pq2, heq, hinv2, hdu2, hrel2, hdl2, hpq2, hphi2⟩ :=
        ih _ _ _ hinv hdu hduT hedges'
      refine ⟨dist2, par2, pq2, ?_, hinv2, hdu2, ?_, hdl2, hpq2, hphi2⟩
      · show relaxD u du ((v, w) :: rest') dist par pq = some (dist2, par2, pq2)
        simp only [relaxD, hdv]
        rw [if_neg hlt]
        exact heq
      · intro pr hpr
        rcases List.mem_cons.mp hpr with hpr | hpr
        · subst hpr
          obtain ⟨dx, hdx, hdxle⟩ := hdl2.1 _ _ hdv
          exact ⟨dx, hdx, le_trans hdxle (not_lt.mp hlt)⟩
        · exact hrel2 pr hpr

/-- A failed (fuel-exhausted) reconstruction exhibits a parent chain as long
as the fuel. -/
theorem reconstructAux_none_chain {par : List (Node × Option Node)} :
    ∀ (fuel : Nat) (c : Node), reconstructAux par fuel c = none →
      ∃ f : Nat → Node, f 0 = c ∧ ∀ i < fuel, parGet par (f i) = some (f (i + 1)) := by
  intro fuel
  induction fuel with
  | zero =>
    intro c _
    exact ⟨fun _ => c, rfl, fun i hi => absurd hi (Nat.not_lt_zero i)⟩
  | succ fuel ih =>
    intro c hc
    unfold reconstructAux at hc
    cases hp : parGet par c with
    | none => simp [hp] at hc
    | some p =>
      simp only [hp] at hc
      have hrec : reconstructAux par fuel p = none := by
        cases hr : reconstructAux par fuel p with
        | none => rfl
        | some pl => rw [hr] at hc; simp at hc
      obtain ⟨f', hf0, hfs⟩ := ih p hrec
      refine ⟨fun i => match i with | 0 => c | i + 1 => f' i, rfl, ?_⟩
      intro i hi
      match i with
      | 0 => simpa [hf0] using hp
      | i + 1 => exact hfs i (by omega)

theorem chain_transGen {par : List (Node × Option Node)} {f : Nat → Node}
    {fuel : Nat} (hf : ∀ i < fuel, parStep par (f i) (f (i + 1))) :
    ∀ i j, i < j → j ≤ fuel → Relation.TransGen (parStep par) (f i) (f j) := by
  intro i j
  induction j with
  | zero => intro hij _; omega
  | succ j ihj =>
    intro hij hj
    by_cases hji : i = j
    · subst hji
      exact Relation.TransGen.single (hf i (by omega))
    · exact (ihj (by omega) (by omega)).tail (hf j (by omega))

/-- On an acyclic parent map whose chain stays inside the node pool,
reconstruction succeeds with fuel `|nodes| + 1`. -/
theorem reconstructAux_some {g : TrafficGraph W} {s : Node}
    {dist : List (Node × WithTop W)} {par : List (Node × Option Node)}
    (hkeys : ∀ n, (dlookup dist n).isSome = true ↔ n ∈ s :: g.nodes)
    (hparw : ∀ v u', parGet par v = some u' → ∃ w dv du',
      edgeWeight g u' v = some w ∧ dlookup dist v = some dv ∧
      dlookup dist u' = some du' ∧ du' + (w : WithTop W) ≤ dv ∧ dv ≠ ⊤)
    (hacyc : ∀ v, ¬ Relation.TransGen (parStep par) v v)
    {c : Node} {dc : WithTop W} (hdc : dlookup dist c = some dc) :
    ∃ pl, reconstructAux par (g.nodes.length + 1) c = some pl := by
  cases hr : reconstructAux par (g.nodes.length + 1) c with
  | some pl => exact ⟨pl, rfl⟩
  | none =>
    exfalso
    obtain ⟨f, hf0, hfs⟩ := reconstructAux_none_chain _ c hr
    have hstep : ∀ i < g.nodes.length + 1, parStep par (f i) (f (i + 1)) :=
      fun i hi => hfs i hi
    have hmem : ∀ i ≤ g.nodes.length + 1, (dlookup dist (f i)).isSome = true := by
      intro i
      induction i with
      | zero =>
        intro _
        rw [hf0, hdc]
        rfl
      | succ i ihi =>
        intro hi
        obtain ⟨w, dv, du', _, _, hdu', _, _⟩ := hparw _ _ (hstep i (by omega))
        rw [hdu']
        rfl
    have hpool : ∀ i ≤ g.nodes.length + 1, f i ∈ (s :: g.nodes).toFinset := by
      intro i hi
      rw [List.mem_toFinset]
      exact (hkeys (f i)).mp (hmem i hi)
    have hcard : ((s :: g.nodes).toFinset).card < (Finset.univ : Finset (Fin (g.nodes.length + 2))).card := by
      have h1 : ((s :: g.nodes).toFinset).card ≤ (s :: g.nodes).length :=
        (s :: g.nodes).toFinset_card_le
      simp only [List.length_cons] at h1
      simp only [Finset.card_univ, Fintype.card_fin]
      omega
    obtain ⟨x, _, y, _, hxy, hfeq⟩ :=
      Finset.exists_ne_map_eq_of_card_lt_of_maps_to hcard
        (fun (k : Fin (g.nodes.length + 2)) _ =>
          hpool k.1 (by have := k.2; omega))
    rcases Nat.lt_or_ge x.1 y.1 with hlt | hge
    · have hch := chain_transGen hstep x.1 y.1 hlt (by have := y.2; omega)
      rw [hfeq] at hch
      exact hacyc _ hch
    · have hylt : y.1 < x.1 := by
        rcases Nat.lt_or_ge y.1 x.1 with h | h
        · exact h
        · exact absurd (Fin.ext (le_antisymm hge h)) hxy.symm
      have hch := chain_transGen hstep y.1 x.1 hylt (by have := x.2; omega)
      rw [← hfeq] at hch
      exact hacyc _ hch

/-- Properties of a successful reconstruction chase: it starts at the query
node, ends at a parentless node, and its reversal costs at most the query
node's recorded distance. -/
theorem reconstructAux_good {g : TrafficGraph W}
    {dist : List (Node × WithTop W)} {par : List (Node × Option Node)}
    (hparw : ∀ v u', parGet par v = some u' → ∃ w dv du',
      edgeWeight g u' v = some w ∧ dlookup dist v = some dv ∧
      dlookup dist u' = some du' ∧ du' + (w : WithTop W) ≤ dv ∧ dv ≠ ⊤)
    (hnonneg : ∀ n d, dlookup dist n = some d → 0 ≤ d) :
    ∀ (fuel : Nat) (c : Node) (dc : WithTop W) (pl : List Node),
      reconstructAux par fuel c = some pl → dlookup dist c = some dc →
      dc ≠ ⊤ →
      pl.head? = some c ∧
        (∃ t, pl.getLast? = some t ∧ parGet par t = none ∧
          ∃ dt, dlookup dist t = some dt ∧ dt ≠ ⊤) ∧
        costW g pl.reverse ≤ dc := by
  intro fuel
  induction fuel with
  | zero => intro c dc pl h; simp [reconstructAux] at h
  | succ fuel ih =>
    intro c dc pl h hdc hdcT
    unfold reconstructAux at h
    cases hp : parGet par c with
    | none =>
      simp only [hp] at h
      injection h with h
      subst h
      refine ⟨rfl, ⟨c, rfl, hp, dc, hdc, hdcT⟩, ?_⟩
      show costW g [c] ≤ dc
      show (0 : WithTop W) ≤ dc
      exact hnonneg c dc hdc
    | some p =>
      simp only [hp] at h
      cases hr : reconstructAux par fuel p with
      | none => rw [hr] at h; simp at h
      | some pl' =>
        rw [hr] at h
        have h2 : c :: pl' = pl := by simpa using h
        subst h2
        obtain ⟨w, dv, dp, hedge, hdv, hdp, hle, _⟩ := hparw _ _ hp
        rw [hdc] at hdv
        injection hdv with hdv
        subst hdv
        have hdpT : dp ≠ ⊤ := by
          intro htop
          apply hdcT
          rw [htop, top_add] at hle
          exact top_le_iff.mp hle
        obtain ⟨hhead', ⟨t, hlast', hpart, hdt⟩, hcost'⟩ := ih p dp pl' hr hdp hdpT
        refine ⟨rfl, ⟨t, ?_, hpart, hdt⟩, ?_⟩
        · cases pl' with
          | nil => exact absurd hhead' (by simp)
          | cons a pl'' =>
            rw [List.getLast?_cons_cons]
            exact hlast'
        · show costW g ((c :: pl').reverse) ≤ dc
          rw [List.reverse_cons]
          have hlastrev : pl'.reverse.getLast? = some p := by
            rw [List.getLast?_reverse]
            exact hhead'
          rw [costW_snoc g pl'.reverse p c hlastrev]
          have hew : ewTop g p c = (w : WithTop W) := by
            unfold ewTop
            rw [hedge]
          rw [hew]
          exact le_trans (add_le_add_right hcost' _) hle

/-- Recorded distances never undercut the true distance. -/
theorem dist_ge_spDist {g : TrafficGraph W} (hWF : WFgraph g) (hNN : NonnegW g)
    {s : Node} {dist : List (Node × WithTop W)}
    (hwit : ∀ n c, dlookup dist n = some c → c ≠ ⊤ → SupWitness g s dist n c)
    {n : Node} {dn : WithTop W} (h : dlookup dist n = some dn) :
    spDist g s n ≤ dn := by
  by_cases hT : dn = ⊤
  · rw [hT]; exact le_top
  · obtain ⟨p, hwp, _, hcost, _⟩ := hwit n dn h hT
    rw [← hcost]
    exact spDist_le_costW hWF hNN hwp

/-- While the goal's recorded distance is not yet optimal, the frontier
holds an entry whose priority is at most the true distance to the goal. -/
theorem frontier_bound_D {g : TrafficGraph W} (hWF : WFgraph g)
    (hNN : NonnegW g) {s e : Node} {pq : List (Entry W)}
    {dist : List (Node × WithTop W)} {par : List (Node × Option Node)}
    (hinv : DInv g s e pq dist par) (hreach : spDist g s e ≠ ⊤) :
    (∃ de, dlookup dist e = some de ∧ de = spDist g s e) ∨
      ∃ en ∈ pq, en.1 ≤ spDist g s e := by
  obtain ⟨P, hwP, hndP, hcP⟩ := spDist_attained hreach
  have hPne : P ≠ [] := by
    intro h
    rw [h] at hwP
    exact absurd hwP.1 (by simp)
  have hlenpos : 0 < P.length := List.length_pos.mpr hPne
  have hPmem : ∀ j (hj : j < P.length), P.get ⟨j, hj⟩ ∈ s :: g.nodes :=
    fun j hj => walk_elems hWF P s e hwP _ (List.get_mem P j hj)
  have hPent : ∀ j (hj : j < P.length), ∃ dj, dlookup dist (P.get ⟨j, hj⟩) = some dj := by
    intro j hj
    exact Option.isSome_iff_exists.mp ((hinv.keys _).mpr (hPmem j hj))
  have hprefC : ∀ j, costW g (P.take j) ≤ spDist g s e := by
    intro j
    rw [← hcP]
    exact costW_take_le hNN P j
  by_cases hall : ∀ j (hj : j < P.length), ∃ dj,
      dlookup dist (P.get ⟨j, hj⟩) = some dj ∧ dj ≤ costW g (P.take (j + 1))
  · left
    have hlast : P.get ⟨P.length - 1, by omega⟩ = e := by
      have h1 : P.getLast hPne = e := by
        have := hwP.2.1
        rwa [List.getLast?_eq_getLast P hPne, Option.some.injEq] at this
      rw [← h1]
      exact (List.getLast_eq_get P hPne).symm
    obtain ⟨de, hde, hdele⟩ := hall (P.length - 1) (by omega)
    rw [hlast] at hde
    have h2 : P.take (P.length - 1 + 1) = P := by
      apply List.take_of_length_le
      omega
    rw [h2, hcP] at hdele
    refine ⟨de, hde, le_antisymm hdele ?_⟩
    exact dist_ge_spDist hWF hNN hinv.wit hde
  · right
    push_neg at hall
    obtain ⟨j0, hj0, hbad0⟩ := hall
    classical
    have hex : ∃ j, (fun j => ∃ hj : j < P.length, ∀ dj,
        dlookup dist (P.get ⟨j, hj⟩) = some dj →
          costW g (P.take (j + 1)) < dj) j := by
      exact ⟨j0, hj0, hbad0⟩
    obtain ⟨hjm, hbadm⟩ := Nat.find_spec hex
    have hleast := fun k (hk : k < Nat.find hex) => Nat.find_min hex hk
    -- the least bad index is not the start
    have hjm0 : Nat.find hex ≠ 0 := by
      intro h0
      obtain ⟨hj0', hb0⟩ := (Nat.find_eq_zero hex).mp h0
      have hget0 : P.get ⟨0, hj0'⟩ = s := by
        cases P with
        | nil => exact absurd rfl hPne
        | cons a P' =>
          have hh := hwP.1
          simp only [List.head?_cons, Option.some.injEq] at hh
          simpa using hh
      have hlt0 := hb0 0 (by rw [hget0]; exact hinv.starts)
      have htake : P.take 1 = [s] := by
        cases P with
        | nil => exact absurd rfl hPne
        | cons a P' =>
          have ha : a = s := by
            have hh := hwP.1
            simpa using hh
          simp [ha]
      rw [htake] at hlt0
      have hcz : costW g [s] = 0 := rfl
      rw [hcz] at hlt0
      exact absurd hlt0 (by simp)
    obtain ⟨k, hkeq⟩ : ∃ k, Nat.find hex = k + 1 :=
      ⟨Nat.find hex - 1, by omega⟩
    have hk : k < P.length := by omega
    have hnotbad : ∃ dk, dlookup dist (P.get ⟨k, hk⟩) = some dk ∧
        dk ≤ costW g (P.take (k + 1)) := by
      have := hleast k (by omega)
      push_neg at this
      obtain ⟨dk, hdk, hdkle⟩ := this hk
      exact ⟨dk, hdk, hdkle⟩
    obtain ⟨dk, hdk, hdkle⟩ := hnotbad
    have hdkC : dk ≤ spDist g s e := le_trans hdkle (hprefC (k + 1))
    have hdkT : dk ≠ ⊤ := ne_top_of_le_ne_top hreach hdkC
    rcases hinv.doneq _ dk hdk hdkT with ⟨c, hc, hcle⟩ | hdone
    · exact ⟨(c, P.get ⟨k, hk⟩), hc, le_trans hcle hdkC⟩
    · exfalso
      -- the next node on the path contradicts minimality
      have hcont := (costW_ne_top_iff_contig g P).mp hwP.2.2
      have hkk : k < P.length - 1 := by omega
      have hedge : (edgeWeight g (P.get ⟨k, hk⟩)
          (P.get ⟨k + 1, by omega⟩)).isSome = true := by
        have := List.chain'_iff_get.mp hcont k hkk
        exact this
      obtain ⟨w, hw⟩ := Option.isSome_iff_exists.mp hedge
      have hnb : (P.get ⟨k + 1, by omega⟩, w) ∈ get_neighbors g (P.get ⟨k, hk⟩) :=
        (mem_get_neighbors_iff hWF).mpr hw
      obtain ⟨dx, hdx, hdxle⟩ := hdone _ hnb
      have hpref : costW g (P.take (k + 1 + 1)) =
          costW g (P.take (k + 1)) + ewTop g (P.get ⟨k, hk⟩) (P.get ⟨k + 1, by omega⟩) := by
        rw [take_succ_eq_snoc P (k + 1) (by omega)]
        refine costW_snoc g _ _ _ ?_
        rw [take_succ_eq_snoc P k hk, List.getLast?_concat]
      have hbadk1 : ∀ dj, dlookup dist (P.get ⟨k + 1, by omega⟩) = some dj →
          costW g (P.take (k + 1 + 1)) < dj := by
        intro dj hdj
        have hgeteq : P.get ⟨Nat.find hex, hjm⟩ = P.get ⟨k + 1, by omega⟩ := by
          congr 1
          exact Fin.ext hkeq
        have hres := hbadm dj (by rw [hgeteq]; exact hdj)
        rwa [hkeq] at hres
      have := hbadk1 dx hdx
      rw [hpref] at this
      have hew : ewTop g (P.get ⟨k, hk⟩) (P.get ⟨k + 1, by omega⟩) = (w : WithTop W) := by
        unfold ewTop
        rw [hw]
      rw [hew] at this
      exact absurd this (not_lt_of_le (le_trans hdxle (add_le_add_right hdkle _)))

theorem dlookup_initDist {W : Type} (ns : List Node) (n : Node) :
    dlookup (initDist ns : List (Node × WithTop W)) n =
      if n ∈ ns then some ⊤ else none := by
  induction ns with
  | nil => simp [initDist, dlookup]
  | cons a t ih =>
    simp only [initDist, List.map_cons, dlookup, List.mem_cons] at *
    by_cases h : a = n
    · subst h; simp
    · have hna : ¬ n = a := fun hh => h hh.symm
      simp [h, hna, ih]

theorem keysOf_initDist {W : Type} (ns : List Node) :
    keysOf (initDist ns : List (Node × WithTop W)) = ns := by
  induction ns with
  | nil => rfl
  | cons a t ih => simp only [initDist, List.map_cons, keysOf_cons] at *; rw [ih]

theorem parGet_initPar (ns : List Node) (n : Node) :
    parGet (initPar ns) n = none := by
  unfold parGet
  induction ns with
  | nil => simp [initPar, dlookup]
  | cons a t ih =>
    simp only [initPar, List.map_cons, dlookup] at *
    by_cases h : a = n
    · simp [h]
    · simp only [if_neg h]
      exact ih

theorem length_dset {β : Type} (m : List (Node × β)) (n : Node) (b : β) :
    (dset m n b).length ≤ m.length + 1 := by
  induction m with
  | nil => simp [dset]
  | cons e rest ih =>
    obtain ⟨k, c⟩ := e
    by_cases h : k = n
    · simp [dset, h]
    · simp only [dset, if_neg h, List.length_cons]
      omega

/-- The loop invariant holds in the initial state built by `dijkstra`. -/
theorem DInv_init {g : TrafficGraph W} (hWF : WFgraph g) (s e : Node) :
    DInv g s e [((0 : WithTop W), s)] (dset (initDist g.nodes) s 0)
      (initPar g.nodes) := by
  have hfin : ∀ n c, dlookup (dset (initDist g.nodes) s (0 : WithTop W)) n =
      some c → c ≠ ⊤ → s = n ∧ c = 0 := by
    intro n c hc hcT
    rw [dlookup_dset] at hc
    by_cases h : s = n
    · rw [if_pos h] at hc
      injection hc with hc
      exact ⟨h, hc.symm⟩
    · rw [if_neg h, dlookup_initDist] at hc
      by_cases hm : n ∈ g.nodes
      · rw [if_pos hm] at hc
        injection hc with hc
        exact absurd hc.symm hcT
      · rw [if_neg hm] at hc
        exact Option.noConfusion hc
  refine ⟨?_, ?_, ?_, ?_, ?_, ?_, ?_, ?_, ?_, ?_, ?_, ?_⟩
  · intro n
    rw [dlookup_dset]
    by_cases h : s = n
    · subst h
      simp
    · rw [if_neg h, dlookup_initDist]
      have hns : ¬ n = s := fun hh => h hh.symm
      by_cases hm : n ∈ g.nodes
      · simp [hm, hns]
      · simp [hm, hns]
  · rw [keysOf_dset, keysOf_initDist]
    by_cases h : s ∈ g.nodes
    · rw [if_pos h]
      exact hWF.1
    · rw [if_neg h]
      simp [List.nodup_append, hWF.1, h]
  · exact dlookup_dset_self _ _ _
  · intro n c hc hcT
    obtain ⟨hsn, hc0⟩ := hfin n c hc hcT
    subst hsn
    subst hc0
    refine ⟨[s], ⟨rfl, rfl, ?_⟩, by simp, ?_, ?_⟩
    · show (0 : WithTop W) ≠ ⊤
      exact WithTop.zero_ne_top
    · rfl
    · intro i
      obtain ⟨iv, hiv⟩ := i
      have hiv0 : iv = 0 := by
        simp only [List.length_cons, List.length_nil] at hiv
        omega
      subst hiv0
      refine ⟨0, ?_, ?_⟩
      · show dlookup (dset (initDist g.nodes) s (0 : WithTop W)) s = some 0
        exact dlookup_dset_self _ _ _
      · show (0 : WithTop W) ≤ costW g [s]
        exact le_refl 0
  · intro en hen
    rw [List.mem_singleton] at hen
    subst hen
    exact ⟨0, dlookup_dset_self _ _ _, le_refl 0⟩
  · intro en hen
    rw [List.mem_singleton] at hen
    subst hen
    exact WithTop.zero_ne_top
  · intro n dn hdn hdnT
    obtain ⟨hsn, hdn0⟩ := hfin n dn hdn hdnT
    subst hsn
    subst hdn0
    exact Or.inl ⟨0, List.mem_singleton.mpr rfl, le_refl 0⟩
  · intro de hde hdeT
    obtain ⟨hse, hde0⟩ := hfin e de hde hdeT
    subst hse
    subst hde0
    exact ⟨0, List.mem_singleton.mpr rfl, rfl⟩
  · intro v u hp
    rw [parGet_initPar] at hp
    exact Option.noConfusion hp
  · exact parGet_initPar _ _
  · intro n dn hns hdn hdnT
    exact absurd (hfin n dn hdn hdnT).1 (fun hh => hns hh.symm)
  · intro v hv
    cases hv with
    | single hstep =>
      unfold parStep at hstep
      rw [parGet_initPar] at hstep
      exact Option.noConfusion hstep
    | tail h hstep =>
      unfold parStep at hstep
      rw [parGet_initPar] at hstep
      exact Option.noConfusion hstep

theorem phiDist_le_bound (g : TrafficGraph W) (s : Node)
    (dist : List (Node × WithTop W)) :
    phiDist g s dist ≤ dist.length *
      (2 ^ (spPool g s).length * Nat.factorial (spPool g s).length) := by
  unfold phiDist
  have hb : ∀ x ∈ dist.map
      (fun en => ((spcFin g s en.1).filter (fun c => c < en.2)).card),
      x ≤ 2 ^ (spPool g s).length * Nat.factorial (spPool g s).length := by
    intro x hx
    rw [List.mem_map] at hx
    obtain ⟨en, _, hxeq⟩ := hx
    rw [← hxeq]
    exact le_trans (Finset.card_filter_le _ _) (spcFin_card_le g s en.1)
  have h := List.sum_le_card_nsmul _ _ hb
  rw [List.length_map] at h
  exact h

theorem spPool_length_le (g : TrafficGraph W) (s : Node) :
    (spPool g s).length ≤ g.nodes.dedup.length + 1 := by
  unfold spPool
  by_cases h : s ∈ g.nodes
  · rw [List.dedup_cons_of_mem h]
    omega
  · rw [List.dedup_cons_of_not_mem h]
    simp

/-- The fuel handed to the loop by `dijkstra` exceeds the initial potential. -/
theorem searchFuel_sufficient (g : TrafficGraph W) (s : Node) :
    phiDist g s (dset (initDist g.nodes) s 0) + 1 < searchFuel g := by
  have h1 := phiDist_le_bound g s (dset (initDist g.nodes) s 0)
  have h2 : (dset (initDist g.nodes) s (0 : WithTop W)).length ≤
      g.nodes.length + 1 := by
    have h := length_dset (initDist g.nodes) s (0 : WithTop W)
    have hl : (initDist g.nodes : List (Node × WithTop W)).length =
        g.nodes.length := by
      simp [initDist]
    omega
  have h4 := Nat.mul_le_mul
    (Nat.pow_le_pow_right (by omega : (0 : Nat) < 2) (spPool_length_le g s))
    (Nat.factorial_le (spPool_length_le g s))
  have h5 := le_trans h1 (Nat.mul_le_mul h2 h4)
  unfold searchFuel
  exact Nat.lt_of_le_of_lt (Nat.add_le_add_right h5 1) (Nat.lt_succ_self _)

/-- Master correctness lemma for the `dijkstra` loop: with the invariant and
enough fuel, an unreachable goal yields `(None, ∞)` and a reachable one
yields an optimal-cost walk from start to goal. -/
theorem dijkstraLoop_master {g : TrafficGraph W} (hWF : WFgraph g)
    (hNN : NonnegW g) {s e : Node} :
    ∀ (fuel : Nat) (pq : List (Entry W)) (dist : List (Node × WithTop W))
      (par : List (Node × Option Node)),
      DInv g s e pq dist par →
      phiDist g s dist + pq.length < fuel →
      (spDist g s e = ⊤ →
        dijkstraLoop g e fuel pq dist par = .done (none, ⊤)) ∧
      (spDist g s e ≠ ⊤ → ∃ p,
        dijkstraLoop g e fuel pq dist par = .done (some p, spDist g s e) ∧
          IsWalk g s e p ∧ costW g p = spDist g s e) := by
  intro fuel
  induction fuel with
  | zero => intro pq dist par _ hfuel; omega
  | succ fuel ih =>
    intro pq dist par hinv hfuel
    cases hpop : popMin pq with
    | none =>
      have hpq : pq = [] := (popMin_eq_none_iff pq).mp hpop
      constructor
      · intro _
        show dijkstraLoop g e (fuel + 1) pq dist par = .done (none, ⊤)
        simp only [dijkstraLoop, hpop]
      · intro hreach
        exfalso
        rcases frontier_bound_D hWF hNN hinv hreach with ⟨de, hde, hdeq⟩ | ⟨en, hen, _⟩
        · have hdeT : de ≠ ⊤ := by rw [hdeq]; exact hreach
          obtain ⟨c, hc, _⟩ := hinv.goalp de hde hdeT
          rw [hpq] at hc
          simp at hc
        · rw [hpq] at hen
          simp at hen
    | some pr =>
      obtain ⟨⟨d, u⟩, pq'⟩ := pr
      have hmem : ((d, u) : Entry W) ∈ pq := popMin_mem hpop
      obtain ⟨du, hdu, hdule⟩ := hinv.pqdist (d, u) hmem
      have hdT : d ≠ ⊤ := hinv.pqfin (d, u) hmem
      have hduT : du ≠ ⊤ := by
        intro h
        rw [h] at hdule
        exact hdT (top_le_iff.mp hdule)
      have hpq'sub : ∀ x ∈ pq', x ∈ pq := fun x hx =>
        (popMin_perm hpop).mem_iff.mpr (List.mem_cons_of_mem _ hx)
      have hlen' : pq'.length + 1 = pq.length := by
        have h := (popMin_perm hpop).length_eq
        simp only [List.length_cons] at h
        omega
      by_cases hstale : du < d
      · -- stale pop: discard and continue
        have hinv' : DInv g s e pq' dist par := by
          refine ⟨hinv.keys, hinv.keysnd, hinv.starts, hinv.wit,
            fun en hen => hinv.pqdist en (hpq'sub en hen),
            fun en hen => hinv.pqfin en (hpq'sub en hen),
            ?_, ?_, hinv.parw, hinv.parS, hinv.pardist, hinv.acyc⟩
          · intro n dn hdn hdnT
            rcases hinv.doneq n dn hdn hdnT with ⟨c, hc, hcle⟩ | hdone
            · refine Or.inl ⟨c, popMin_mem_rest hpop _ hc ?_, hcle⟩
              intro heq
              injection heq with h1 h2
              subst h1; subst h2
              rw [hdn] at hdu
              injection hdu with hdu
              rw [hdu] at hcle
              exact absurd hstale (not_lt_of_le hcle)
            · exact Or.inr hdone
          · intro de hde hdeT
            obtain ⟨c, hc, hceq⟩ := hinv.goalp de hde hdeT
            refine ⟨c, popMin_mem_rest hpop _ hc ?_, hceq⟩
            intro heq
            injection heq with h1 h2
            subst h1; subst h2
            rw [hde] at hdu
            injection hdu with hdu
            rw [← hdu, ← hceq] at hstale
            exact lt_irrefl _ hstale
        have hcomp : dijkstraLoop g e (fuel + 1) pq dist par =
            dijkstraLoop g e fuel pq' dist par := by
          simp only [dijkstraLoop, hpop, hdu, if_pos hstale]
        rw [hcomp]
        exact ih pq' dist par hinv' (by omega)
      · have hdeq : d = du := le_antisymm (not_lt.mp hstale) hdule
        by_cases hue : u = e
        · -- goal pop: return the reconstructed path and the goal's distance
          subst hue
          have hwalk : spDist g s u ≠ ⊤ := by
            obtain ⟨p, hwp, _, hcost, _⟩ := hinv.wit u du hdu hduT
            intro htop
            have := spDist_le_costW hWF hNN hwp
            rw [htop, hcost] at this
            exact hduT (top_le_iff.mp this)
          have hduopt : du = spDist g s u := by
            rcases frontier_bound_D hWF hNN hinv hwalk with ⟨de, hde, hdeq'⟩ | ⟨en, hen, henle⟩
            · rw [hde] at hdu
              injection hdu with hdu
              rw [← hdu]
              exact hdeq'
            · refine le_antisymm ?_ (dist_ge_spDist hWF hNN hinv.wit hdu)
              have h1 : d ≤ en.1 := popMin_le_prio hpop en hen
              rw [hdeq] at h1
              exact le_trans h1 henle
          obtain ⟨pl, hpl⟩ := reconstructAux_some hinv.keys hinv.parw hinv.acyc hdu
          obtain ⟨hhead, ⟨t, hlast, hpart, dt, hdt, hdtT⟩, hcost⟩ :=
            reconstructAux_good hinv.parw
              (fun n dn h => dist_nonneg_of_wit hNN hinv.wit h)
              _ _ du pl hpl hdu hduT
          have hts : t = s := by
            by_contra hts
            have := hinv.pardist t dt hts hdt hdtT
            rw [hpart] at this
            simp at this
          subst hts
          have hrevhead : pl.reverse.head? = some t := by
            rw [List.head?_reverse]
            exact hlast
          have hrevlast : pl.reverse.getLast? = some u := by
            rw [List.getLast?_reverse]
            exact hhead
          have hcostle : costW g pl.reverse ≤ spDist g t u := by
            rw [← hduopt]
            exact hcost
          have hcostT : costW g pl.reverse ≠ ⊤ :=
            ne_top_of_le_ne_top hwalk hcostle
          have hwp : IsWalk g t u pl.reverse := ⟨hrevhead, hrevlast, hcostT⟩
          have hcosteq : costW g pl.reverse = spDist g t u :=
            le_antisymm hcostle (spDist_le_costW hWF hNN hwp)
          have hcomp : dijkstraLoop g u (fuel + 1) pq dist par =
              .done (some pl.reverse, du) := by
            simp only [dijkstraLoop, hpop, hdu, if_neg hstale, reconstruct_path,
              hpl, eq_self_iff_true, if_true, Option.map_some']
          constructor
          · intro htop
            exact absurd htop hwalk
          · intro _
            exact ⟨pl.reverse, by rw [hcomp, hduopt], hwp, hcosteq⟩
        · -- expand u
          have hinvR : DInvR g s e u pq' dist par := by
            refine ⟨hinv.keys, hinv.keysnd, hinv.starts, hinv.wit,
              fun en hen => hinv.pqdist en (hpq'sub en hen),
              fun en hen => hinv.pqfin en (hpq'sub en hen),
              ?_, ?_, hinv.parw, hinv.parS, hinv.pardist, hinv.acyc⟩
            · intro n dn hnu hdn hdnT
              rcases hinv.doneq n dn hdn hdnT with ⟨c, hc, hcle⟩ | hdone
              · refine Or.inl ⟨c, popMin_mem_rest hpop _ hc ?_, hcle⟩
                intro heq
                injection heq with h1 h2
                exact hnu h2
              · exact Or.inr hdone
            · intro de hde hdeT
              obtain ⟨c, hc, hceq⟩ := hinv.goalp de hde hdeT
              refine ⟨c, popMin_mem_rest hpop _ hc ?_, hceq⟩
              intro heq
              injection heq with h1 h2
              exact hue h2.symm
          have hedges : ∀ pr ∈ get_neighbors g u, edgeWeight g u pr.1 = some pr.2 := by
            intro pr hpr
            obtain ⟨v, w⟩ := pr
            exact (mem_get_neighbors_iff hWF).mp hpr
          obtain ⟨dist2, par2, pq2, heq, hinvR2, hdu2, hrel2, hdl2, hpqm2, hphi2⟩ :=
            relaxD_spec hWF hNN (get_neighbors g u) dist par pq' hinvR hdu hduT hedges
          have hinv2 : DInv g s e pq2 dist2 par2 := by
            refine ⟨hinvR2.keys, hinvR2.keysnd, hinvR2.starts, hinvR2.wit,
              hinvR2.pqdist, hinvR2.pqfin, ?_, hinvR2.goalp, hinvR2.parw,
              hinvR2.parS, hinvR2.pardist, hinvR2.acyc⟩
            intro n dn hdn hdnT
            by_cases hnu : n = u
            · subst hnu
              rw [hdu2] at hdn
              injection hdn with hdn
              subst hdn
              exact Or.inr (fun pr hpr => hrel2 pr hpr)
            · exact hinvR2.doneq n dn hnu hdn hdnT
          have hcomp : dijkstraLoop g e (fuel + 1) pq dist par =
              dijkstraLoop g e fuel pq2 dist2 par2 := by
            simp only [dijkstraLoop, hpop, hdu, if_neg hstale, if_neg hue]
            rw [hdeq, heq]
          rw [hcomp]
          refine ih pq2 dist2 par2 hinv2 ?_
          omega

/-- Top-level correctness of `dijkstra` on well-formed graphs with
nonnegative weights: an unreachable goal yields `(None, ∞)`, a reachable
one yields a path of optimal cost together with that cost. -/
theorem dijkstra_spec {g : TrafficGraph W} (hWF : WFgraph g) (hNN : NonnegW g)
    (s e : Node) :
    (spDist g s e = ⊤ → dijkstra g s e = .done (none, ⊤)) ∧
    (spDist g s e ≠ ⊤ → ∃ p, dijkstra g s e = .done (some p, spDist g s e) ∧
      IsWalk g s e p ∧ costW g p = spDist g s e) := by
  unfold dijkstra
  refine dijkstraLoop_master hWF hNN (searchFuel g) _ _ _ (DInv_init hWF s e) ?_
  have h := searchFuel_sufficient g s
  simp only [List.length_cons, List.length_nil]
  omega

/-! ## A* verification -/

/-- Splitting a walk at position `k`: the suffix from `k` is a walk to the
same endpoint, and the cost splits accordingly. -/
theorem walk_suffix {g : TrafficGraph W} {s e : Node} {P : List Node}
    (hwP : IsWalk g s e P) (k : Nat) (hk : k < P.length) :
    IsWalk g (P.get ⟨k, hk⟩) e (P.get ⟨k, hk⟩ :: P.drop (k + 1)) ∧
      costW g P = costW g (P.take (k + 1)) +
        costW g (P.get ⟨k, hk⟩ :: P.drop (k + 1)) := by
  have hsplit := take_drop_split P k hk
  have hcost : costW g P = costW g (P.take (k + 1)) +
      costW g (P.get ⟨k, hk⟩ :: P.drop (k + 1)) := by
    conv_lhs => rw [hsplit]
    rw [costW_append_cons, ← take_succ_eq_snoc P k hk]
  refine ⟨⟨rfl, ?_, ?_⟩, hcost⟩
  · have hlast := hwP.2.1
    rw [hsplit] at hlast
    rwa [List.getLast?_append_cons] at hlast
  · intro htop
    apply hwP.2.2
    rw [hcost, htop, add_top]

/-- The loop invariant of `a_star` over the state `(pq, gs, par)` (the
`f_score` dict plays no role in the invariant), for start `s`, goal `e` and
heuristic `hr`. A queue entry's priority dominates the node's current
`g_score` plus its heuristic value. -/
structure DInvA (g : TrafficGraph W) (hr : Node → Node → W) (s e : Node)
    (pq : List (Entry W)) (gs : List (Node × WithTop W))
    (par : List (Node × Option Node)) : Prop where
  keys : ∀ n, (dlookup gs n).isSome = true ↔ n ∈ s :: g.nodes
  keysnd : (keysOf gs).Nodup
  starts : dlookup gs s = some 0
  wit : ∀ n c, dlookup gs n = some c → c ≠ ⊤ → SupWitness g s gs n c
  pqg : ∀ en ∈ pq, ∃ gn, dlookup gs en.2 = some gn ∧
    gn + ((hr en.2 e : W) : WithTop W) ≤ en.1
  pqfin : ∀ en ∈ pq, en.1 ≠ ⊤
  doneq : ∀ n gn, dlookup gs n = some gn → gn ≠ ⊤ →
    (∃ c, (c, n) ∈ pq ∧ c ≤ gn + ((hr n e : W) : WithTop W)) ∨ DoneAt g gs n gn
  goalp : ∀ ge, dlookup gs e = some ge → ge ≠ ⊤ →
    ∃ c, (c, e) ∈ pq ∧ c ≤ ge + ((hr e e : W) : WithTop W)
  parw : ∀ v u, parGet par v = some u → ∃ w dv du,
    edgeWeight g u v = some w ∧ dlookup gs v = some dv ∧
    dlookup gs u = some du ∧ du + (w : WithTop W) ≤ dv ∧ dv ≠ ⊤
  parS : parGet par s = none
  pardist : ∀ n dn, n ≠ s → dlookup gs n = some dn → dn ≠ ⊤ →
    (parGet par n).isSome = true
  acyc : ∀ v, ¬ Relation.TransGen (parStep par) v v

/-- The relaxation-phase invariant of `a_star`: as `DInvA`, except that the
expanded node `u` may lack both a queue entry and relaxed edges while its
neighbor list is being traversed. -/
structure DInvRA (g : TrafficGraph W) (hr : Node → Node → W) (s e u : Node)
    (pq : List (Entry W)) (gs : List (Node × WithTop W))
    (par : List (Node × Option Node)) : Prop where
  keys : ∀ n, (dlookup gs n).isSome = true ↔ n ∈ s :: g.nodes
  keysnd : (keysOf gs).Nodup
  starts : dlookup gs s = some 0
  wit : ∀ n c, dlookup gs n = some c → c ≠ ⊤ → SupWitness g s gs n c
  pqg : ∀ en ∈ pq, ∃ gn, dlookup gs en.2 = some gn ∧
    gn + ((hr en.2 e : W) : WithTop W) ≤ en.1
  pqfin : ∀ en ∈ pq, en.1 ≠ ⊤
  doneq : ∀ n gn, n ≠ u → dlookup gs n = some gn → gn ≠ ⊤ →
    (∃ c, (c, n) ∈ pq ∧ c ≤ gn + ((hr n e : W) : WithTop W)) ∨ DoneAt g gs n gn
  goalp : ∀ ge, dlookup gs e = some ge → ge ≠ ⊤ →
    ∃ c, (c, e) ∈ pq ∧ c ≤ ge + ((hr e e : W) : WithTop W)
  parw : ∀ v u', parGet par v = some u' → ∃ w dv du',
    edgeWeight g u' v = some w ∧ dlookup gs v = some dv ∧
    dlookup gs u' = some du' ∧ du' + (w : WithTop W) ≤ dv ∧ dv ≠ ⊤
  parS : parGet par s = none
  pardist : ∀ n dn, n ≠ s → dlookup gs n = some dn → dn ≠ ⊤ →
    (parGet par n).isSome = true
  acyc : ∀ v, ¬ Relation.TransGen (parStep par) v v

/-- One successful relaxation of `a_star` preserves the relaxation
invariant, keeps `u`'s `g_score`, refines the `g_score` map, and strictly
decreases the potential. -/
theorem relaxA_step {g : TrafficGraph W} (hWF : WFgraph g) (hNN : NonnegW g)
    {hr : Node → Node → W} {s e u : Node} {pq : List (Entry W)}
    {gs : List (Node × WithTop W)} {par : List (Node × Option Node)}
    (hinv : DInvRA g hr s e u pq gs par)
    {gu : WithTop W} (hdu : dlookup gs u = some gu) (hduT : gu ≠ ⊤)
    {v : Node} {w : W} (hedge : edgeWeight g u v = some w)
    {gv : WithTop W} (hdv : dlookup gs v = some gv)
    (hlt : gu + (w : WithTop W) < gv) :
    DInvRA g hr s e u
        ((gu + (w : WithTop W) + ((hr v e : W) : WithTop W), v) :: pq)
        (dset gs v (gu + (w : WithTop W))) (dset par v (some u)) ∧
      dlookup (dset gs v (gu + (w : WithTop W))) u = some gu ∧
      DistLe (dset gs v (gu + (w : WithTop W))) gs ∧
      phiDist g s (dset gs v (gu + (w : WithTop W))) + 1 ≤ phiDist g s gs := by
  set distance := gu + (w : WithTop W) with hdistance
  have hw0 : (0 : WithTop W) ≤ (w : WithTop W) := by
    exact_mod_cast hNN.edge_nonneg hedge
  have hdunn : 0 ≤ gu := dist_nonneg_of_wit hNN hinv.wit hdu
  have hduled : gu ≤ distance := le_add_of_nonneg_right hw0
  have hdnn : 0 ≤ distance := le_trans hdunn hduled
  have hdT : distance ≠ ⊤ := by
    intro h
    rw [h] at hlt
    exact not_top_lt hlt
  have hfvT : distance + ((hr v e : W) : WithTop W) ≠ ⊤ :=
    WithTop.add_ne_top.mpr ⟨hdT, WithTop.coe_ne_top⟩
  have hvu : v ≠ u := by
    intro h
    subst h
    rw [hdu] at hdv
    injection hdv with hdv
    rw [← hdv] at hlt
    exact absurd hlt (not_lt_of_le hduled)
  have hvs : v ≠ s := by
    intro h
    subst h
    rw [hinv.starts] at hdv
    injection hdv with hdv
    rw [← hdv] at hlt
    exact absurd hlt (not_lt_of_le hdnn)
  have hdistle : DistLe (dset gs v distance) gs := DistLe.dset hdv (le_of_lt hlt)
  obtain ⟨pu, hwpu, hndpu, hcpu, hsuppu⟩ := hinv.wit u gu hdu hduT
  have hvninpu : v ∉ pu := by
    intro hv
    obtain ⟨i, hi⟩ := List.mem_iff_get.mp hv
    obtain ⟨cx, hcx, hcxle⟩ := hsuppu i
    rw [hi, hdv] at hcx
    injection hcx with hcx
    subst hcx
    have h1 : gv ≤ costW g pu := le_trans hcxle (costW_take_le hNN pu _)
    rw [hcpu] at h1
    exact absurd hlt (not_lt_of_le (le_trans h1 hduled))
  have hpulast : pu.getLast? = some u := hwpu.2.1
  have hpucost : costW g (pu ++ [v]) = distance := by
    rw [costW_snoc g pu u v hpulast, hcpu]
    unfold ewTop
    rw [hedge]
  have hwalkv : IsWalk g s v (pu ++ [v]) := by
    refine ⟨?_, by simp, ?_⟩
    · cases pu with
      | nil => exact absurd hwpu.1 (by simp)
      | cons a pu' =>
        rw [← hwpu.1]
        rfl
    · rw [hpucost]
      exact hdT
  have hndv : (pu ++ [v]).Nodup := by
    rw [List.nodup_append]
    exact ⟨hndpu, List.nodup_singleton v,
      fun a ha hav => hvninpu (by rwa [List.mem_singleton.mp hav] at ha)⟩
  have hwitv : SupWitness g s (dset gs v distance) v distance := by
    refine ⟨pu ++ [v], hwalkv, hndv, hpucost, fun i => ?_⟩
    have hlen : (pu ++ [v]).length = pu.length + 1 := by simp
    by_cases hi : i.1 < pu.length
    · have hget : (pu ++ [v]).get i = pu.get ⟨i.1, hi⟩ := by
        rw [List.get_append i.1 hi]
      have hne : pu.get ⟨i.1, hi⟩ ≠ v := fun hh =>
        hvninpu (hh ▸ List.get_mem pu _ _)
      obtain ⟨cx, hcx, hcxle⟩ := hsuppu ⟨i.1, hi⟩
      refine ⟨cx, ?_, ?_⟩
      · rw [hget, dlookup_dset, if_neg (fun hh => hne hh.symm)]
        exact hcx
      · rw [List.take_append_of_le_length (by omega)]
        exact hcxle
    · have hieq : i.1 = pu.length := by
        have h2 : i.1 < pu.length + 1 := by
          have h3 := i.2
          simpa using h3
        omega
      have hget : (pu ++ [v]).get i = v := by
        rw [List.get_eq_getElem]
        exact List.getElem_concat_length pu v i.1 hieq i.2
      refine ⟨distance, ?_, ?_⟩
      · rw [hget, dlookup_dset_self]
      · have htk : (pu ++ [v]).take (i.1 + 1) = pu ++ [v] := by
          apply List.take_of_length_le
          simp only [List.length_append, List.length_singleton]
          omega
        rw [htk, hpucost]
  have hvmemkeys : v ∈ keysOf gs :=
    (dlookup_isSome_iff_mem_keys _ _).mp (by simp [hdv])
  have hnoanc : ¬ Relation.ReflTransGen (parStep par) u v := by
    intro hrt
    rcases Relation.reflTransGen_iff_eq_or_transGen.mp hrt with heq | htg
    · exact hvu heq
    · obtain ⟨db, hdb, hdble⟩ := chain_dist_le hNN hinv.parw htg hdu
      rw [hdv] at hdb
      injection hdb with hdb
      subst hdb
      exact absurd hlt (not_lt_of_le (le_trans hdble hduled))
  have hacyc : ∀ x, ¬ Relation.TransGen (parStep (dset par v (some u))) x x := by
    intro x hx
    rcases transGen_dset_cases.1 x x hx with h1 | h1
    · rcases transGen_dset_cases.2 x x hx with h2 | h2
      · exact hinv.acyc x h2
      · exact hnoanc (h1.trans h2)
    · exact hinv.acyc x h1
  refine ⟨⟨?_, ?_, ?_, ?_, ?_, ?_, ?_, ?_, ?_, ?_, ?_, hacyc⟩, ?_, hdistle, ?_⟩
  · intro n
    rw [show (dlookup (dset gs v distance) n).isSome =
      (dlookup gs n).isSome from hdistle.2 n]
    exact hinv.keys n
  · rw [keysOf_dset_mem hvmemkeys]
    exact hinv.keysnd
  · rw [dlookup_dset, if_neg hvs]
    exact hinv.starts
  · intro n c hn hcT
    by_cases hnv : n = v
    · subst hnv
      rw [dlookup_dset_self] at hn
      injection hn with hn
      rw [← hn]
      exact hwitv
    · rw [dlookup_dset, if_neg (fun hh => hnv hh.symm)] at hn
      exact (hinv.wit n c hn hcT).mono hdistle
  · intro en hen
    rcases List.mem_cons.mp hen with hen | hen
    · subst hen
      exact ⟨distance, dlookup_dset_self _ _ _, le_refl _⟩
    · obtain ⟨gn, hgn, hgnle⟩ := hinv.pqg en hen
      obtain ⟨gn', hgn', hgn'le⟩ := hdistle.1 _ _ hgn
      exact ⟨gn', hgn', le_trans (add_le_add_right hgn'le _) hgnle⟩
  · intro en hen
    rcases List.mem_cons.mp hen with hen | hen
    · subst hen; exact hfvT
    · exact hinv.pqfin en hen
  · intro n gn hnu hn hdnT
    by_cases hnv : n = v
    · subst hnv
      rw [dlookup_dset_self] at hn
      injection hn with hn
      refine Or.inl ⟨distance + ((hr n e : W) : WithTop W),
        List.mem_cons_self _ _, ?_⟩
      rw [hn]
    · rw [dlookup_dset, if_neg (fun hh => hnv hh.symm)] at hn
      rcases hinv.doneq n gn hnu hn hdnT with ⟨c, hc, hcle⟩ | hdone
      · exact Or.inl ⟨c, List.mem_cons_of_mem _ hc, hcle⟩
      · refine Or.inr (fun pr hpr => ?_)
        obtain ⟨dx, hdx, hdxle⟩ := hdone pr hpr
        obtain ⟨dx', hdx', hdx'le⟩ := hdistle.1 _ _ hdx
        exact ⟨dx', hdx', le_trans hdx'le hdxle⟩
  · intro ge hge hgeT
    by_cases hev : e = v
    · subst hev
      rw [dlookup_dset_self] at hge
      injection hge with hge
      refine ⟨distance + ((hr e e : W) : WithTop W),
        List.mem_cons_self _ _, ?_⟩
      rw [hge]
    · rw [dlookup_dset, if_neg (fun hh => hev hh.symm)] at hge
      obtain ⟨c, hc, hceq⟩ := hinv.goalp ge hge hgeT
      exact ⟨c, List.mem_cons_of_mem _ hc, hceq⟩
  · intro v' u' hpar
    rw [parGet_dset] at hpar
    by_cases hv' : v = v'
    · subst hv'
      rw [if_pos rfl] at hpar
      injection hpar with hpar
      subst hpar
      refine ⟨w, distance, gu, hedge, dlookup_dset_self _ _ _, ?_, le_refl _, hdT⟩
      rw [dlookup_dset, if_neg hvu]
      exact hdu
    · rw [if_neg hv'] at hpar
      obtain ⟨w', dv', du', hedge', hdv', hdu', hle', hdv'T⟩ := hinv.parw v' u' hpar
      obtain ⟨du2, hdu2, hdu2le⟩ := hdistle.1 _ _ hdu'
      refine ⟨w', dv', du2, hedge', ?_, hdu2, ?_, hdv'T⟩
      · rw [dlookup_dset, if_neg hv']
        exact hdv'
      · exact le_trans (add_le_add_right hdu2le _) hle'
  · rw [parGet_dset, if_neg hvs]
    exact hinv.parS
  · intro n dn hns hn hdnT
    by_cases hnv : v = n
    · rw [parGet_dset, if_pos hnv]
      rfl
    · rw [parGet_dset, if_neg hnv]
      rw [dlookup_dset, if_neg hnv] at hn
      exact hinv.pardist n dn hns hn hdnT
  · rw [dlookup_dset, if_neg hvu]
    exact hdu
  · refine phiDist_dset hinv.keysnd hdv hlt ?_
    have := mem_spcFin hWF hwalkv hndv
    rwa [hpucost] at this

/-- Specification of the full neighbor loop of `a_star`: it never raises,
preserves the relaxation invariant, leaves `u`'s `g_score`, relaxes every
listed edge, refines the `g_score` map, keeps all queue entries, and does
not increase the potential. -/
theorem relaxA_spec {g : TrafficGraph W} (hWF : WFgraph g) (hNN : NonnegW g)
    {hr : Node → Node → W} {s e u : Node} {gu : WithTop W} :
    ∀ (rest : List (Node × W)) (gs fs : List (Node × WithTop W))
      (par : List (Node × Option Node)) (pq : List (Entry W)),
      DInvRA g hr s e u pq gs par →
      dlookup gs u = some gu → gu ≠ ⊤ →
      (∀ pr ∈ rest, edgeWeight g u pr.1 = some pr.2) →
      ∃ gs2 fs2 par2 pq2,
        relaxA hr e u gu rest gs fs par pq = some (gs2, fs2, par2, pq2) ∧
          DInvRA g hr s e u pq2 gs2 par2 ∧
          dlookup gs2 u = some gu ∧
          (∀ pr ∈ rest, ∃ dx, dlookup gs2 pr.1 = some dx ∧
            dx ≤ gu + (pr.2 : WithTop W)) ∧
          DistLe gs2 gs ∧
          (∀ x ∈ pq, x ∈ pq2) ∧
          phiDist g s gs2 + pq2.length ≤ phiDist g s gs + pq.length := by
  intro rest
  induction rest with
  | nil =>
    intro gs fs par pq hinv hdu hduT hedges
    exact ⟨gs, fs, par, pq, rfl, hinv, hdu, by simp, DistLe.refl gs,
      fun x hx => hx, le_refl _⟩
  | cons pr rest' ih =>
    intro gs fs par pq hinv hdu hduT hedges
    obtain ⟨v, w⟩ := pr
    have hedge : edgeWeight g u v = some w :=
      hedges (v, w) (List.mem_cons_self _ _)
    have hvnodes : v ∈ g.nodes := hWF.target_mem_nodes (by rw [hedge]; rfl)
    have hvsome : (dlookup gs v).isSome = true :=
      (hinv.keys v).mpr (List.mem_cons_of_mem _ hvnodes)
    obtain ⟨gv, hdv⟩ := Option.isSome_iff_exists.mp hvsome
    have hedges' : ∀ pr ∈ rest', edgeWeight g u pr.1 = some pr.2 :=
      fun pr hpr => hedges pr (List.mem_cons_of_mem _ hpr)
    by_cases hlt : gu + (w : WithTop W) < gv
    · obtain ⟨hinv', hdu', hdistle', hphi'⟩ :=
        relaxA_step hWF hNN hinv hdu hduT hedge hdv hlt
      obtain ⟨gs2, fs2, par2, pq2, heq, hinv2, hdu2, hrel2, hdl2, hpq2, hphi2⟩ :=
        ih _ _ _ _ hinv' hdu' hduT hedges'
      refine ⟨gs2, fs2, par2, pq2, ?_, hinv2, hdu2, ?_, hdl2.trans hdistle',
        ?_, ?_⟩
      · show relaxA hr e u gu ((v, w) :: rest') gs fs par pq =
          some (gs2, fs2, par2, pq2)
        simp only [relaxA, hdv]
        rw [if_pos hlt]
        exact heq
      · intro pr hpr
        rcases List.mem_cons.mp hpr with hpr | hpr
        · subst hpr
          obtain ⟨dx, hdx, hdxle⟩ :=
            hdl2.1 _ _ (dlookup_dset_self gs v (gu + (w : WithTop W)))
          exact ⟨dx, hdx, hdxle⟩
        · exact hrel2 pr hpr
      · intro x hx
        exact hpq2 x (List.mem_cons_of_mem _ hx)
      · simp only [List.length_cons] at hphi2
        omega
    · obtain ⟨gs2, fs2, par2, pq2, heq, hinv2, hdu2, hrel2, hdl2, hpq2, hphi2⟩ :=
        ih _ _ _ _ hinv hdu hduT hedges'
      refine ⟨gs2, fs2, par2, pq2, ?_, hinv2, hdu2, ?_, hdl2, hpq2, hphi2⟩
      · show relaxA hr e u gu ((v, w) :: rest') gs fs par pq =
          some (gs2, fs2, par2, pq2)
        simp only [relaxA, hdv]
        rw [if_neg hlt]
        exact heq
      · intro pr hpr
        rcases List.mem_cons.mp hpr with hpr | hpr
        · subst hpr
          obtain ⟨dx, hdx, hdxle⟩ := hdl2.1 _ _ hdv
          exact ⟨dx, hdx, le_trans hdxle (not_lt.mp hlt)⟩
        · exact hrel2 pr hpr

/-- While the goal's `g_score` is not yet optimal, the A* frontier holds an
entry whose priority is at most the true distance to the goal (here the
admissibility of the heuristic enters). -/
theorem frontier_bound_A {g : TrafficGraph W} (hWF : WFgraph g)
    (hNN : NonnegW g) {hr : Node → Node → W} {s e : Node}
    {pq : List (Entry W)} {gs : List (Node × WithTop W)}
    {par : List (Node × Option Node)}
    (hadm : ∀ n, ((hr n e : W) : WithTop W) ≤ spDist g n e)
    (hinv : DInvA g hr s e pq gs par) (hreach : spDist g s e ≠ ⊤) :
    (∃ ge, dlookup gs e = some ge ∧ ge = spDist g s e) ∨
      ∃ en ∈ pq, en.1 ≤ spDist g s e := by
  obtain ⟨P, hwP, hndP, hcP⟩ := spDist_attained hreach
  have hPne : P ≠ [] := by
    intro h
    rw [h] at hwP
    exact absurd hwP.1 (by simp)
  have hlenpos : 0 < P.length := List.length_pos.mpr hPne
  have hPmem : ∀ j (hj : j < P.length), P.get ⟨j, hj⟩ ∈ s :: g.nodes :=
    fun j hj => walk_elems hWF P s e hwP _ (List.get_mem P j hj)
  have hPent : ∀ j (hj : j < P.length), ∃ dj, dlookup gs (P.get ⟨j, hj⟩) = some dj := by
    intro j hj
    exact Option.isSome_iff_exists.mp ((hinv.keys _).mpr (hPmem j hj))
  have hprefC : ∀ j, costW g (P.take j) ≤ spDist g s e := by
    intro j
    rw [← hcP]
    exact costW_take_le hNN P j
  by_cases hall : ∀ j (hj : j < P.length), ∃ dj,
      dlookup gs (P.get ⟨j, hj⟩) = some dj ∧ dj ≤ costW g (P.take (j + 1))
  · left
    have hlast : P.get ⟨P.length - 1, by omega⟩ = e := by
      have h1 : P.getLast hPne = e := by
        have := hwP.2.1
        rwa [List.getLast?_eq_getLast P hPne, Option.some.injEq] at this
      rw [← h1]
      exact (List.getLast_eq_get P hPne).symm
    obtain ⟨de, hde, hdele⟩ := hall (P.length - 1) (by omega)
    rw [hlast] at hde
    have h2 : P.take (P.length - 1 + 1) = P := by
      apply List.take_of_length_le
      omega
    rw [h2, hcP] at hdele
    refine ⟨de, hde, le_antisymm hdele ?_⟩
    exact dist_ge_spDist hWF hNN hinv.wit hde
  · right
    push_neg at hall
    obtain ⟨j0, hj0, hbad0⟩ := hall
    classical
    have hex : ∃ j, (fun j => ∃ hj : j < P.length, ∀ dj,
        dlookup gs (P.get ⟨j, hj⟩) = some dj →
          costW g (P.take (j + 1)) < dj) j := by
      exact ⟨j0, hj0, hbad0⟩
    obtain ⟨hjm, hbadm⟩ := Nat.find_spec hex
    have hleast := fun k (hk : k < Nat.find hex) => Nat.find_min hex hk
    have hjm0 : Nat.find hex ≠ 0 := by
      intro h0
      obtain ⟨hj0', hb0⟩ := (Nat.find_eq_zero hex).mp h0
      have hget0 : P.get ⟨0, hj0'⟩ = s := by
        cases P with
        | nil => exact absurd rfl hPne
        | cons a P' =>
          have hh := hwP.1
          simp only [List.head?_cons, Option.some.injEq] at hh
          simpa using hh
      have hlt0 := hb0 0 (by rw [hget0]; exact hinv.starts)
      have htake : P.take 1 = [s] := by
        cases P with
        | nil => exact absurd rfl hPne
        | cons a P' =>
          have ha : a = s := by
            have hh := hwP.1
            simpa using hh
          simp [ha]
      rw [htake] at hlt0
      have hcz : costW g [s] = 0 := rfl
      rw [hcz] at hlt0
      exact absurd hlt0 (by simp)
    obtain ⟨k, hkeq⟩ : ∃ k, Nat.find hex = k + 1 :=
      ⟨Nat.find hex - 1, by omega⟩
    have hk : k < P.length := by omega
    have hnotbad : ∃ dk, dlookup gs (P.get ⟨k, hk⟩) = some dk ∧
        dk ≤ costW g (P.take (k + 1)) := by
      have := hleast k (by omega)
      push_neg at this
      obtain ⟨dk, hdk, hdkle⟩ := this hk
      exact ⟨dk, hdk, hdkle⟩
    obtain ⟨dk, hdk, hdkle⟩ := hnotbad
    have hdkC : dk ≤ spDist g s e := le_trans hdkle (hprefC (k + 1))
    have hdkT : dk ≠ ⊤ := ne_top_of_le_ne_top hreach hdkC
    -- the priority bound specific to A*: g + h stays below the optimum
    have hkey : dk + ((hr (P.get ⟨k, hk⟩) e : W) : WithTop W) ≤ spDist g s e := by
      obtain ⟨hwsuf, hcsplit⟩ := walk_suffix hwP k hk
      have hsp : spDist g (P.get ⟨k, hk⟩) e ≤
          costW g (P.get ⟨k, hk⟩ :: P.drop (k + 1)) :=
        spDist_le_costW hWF hNN hwsuf
      calc dk + ((hr (P.get ⟨k, hk⟩) e : W) : WithTop W)
          ≤ costW g (P.take (k + 1)) + spDist g (P.get ⟨k, hk⟩) e :=
            add_le_add hdkle (hadm _)
        _ ≤ costW g (P.take (k + 1)) +
            costW g (P.get ⟨k, hk⟩ :: P.drop (k + 1)) := add_le_add_left hsp _
        _ = costW g P := hcsplit.symm
        _ = spDist g s e := hcP
    rcases hinv.doneq _ dk hdk hdkT with ⟨c, hc, hcle⟩ | hdone
    · exact ⟨(c, P.get ⟨k, hk⟩), hc, le_trans hcle hkey⟩
    · exfalso
      have hcont := (costW_ne_top_iff_contig g P).mp hwP.2.2
      have hkk : k < P.length - 1 := by omega
      have hedge : (edgeWeight g (P.get ⟨k, hk⟩)
          (P.get ⟨k + 1, by omega⟩)).isSome = true := by
        have := List.chain'_iff_get.mp hcont k hkk
        exact this
      obtain ⟨w, hw⟩ := Option.isSome_iff_exists.mp hedge
      have hnb : (P.get ⟨k + 1, by omega⟩, w) ∈ get_neighbors g (P.get ⟨k, hk⟩) :=
        (mem_get_neighbors_iff hWF).mpr hw
      obtain ⟨dx, hdx, hdxle⟩ := hdone _ hnb
      have hpref : costW g (P.take (k + 1 + 1)) =
          costW g (P.take (k + 1)) + ewTop g (P.get ⟨k, hk⟩) (P.get ⟨k + 1, by omega⟩) := by
        rw [take_succ_eq_snoc P (k + 1) (by omega)]
        refine costW_snoc g _ _ _ ?_
        rw [take_succ_eq_snoc P k hk, List.getLast?_concat]
      have hbadk1 : ∀ dj, dlookup gs (P.get ⟨k + 1, by omega⟩) = some dj →
          costW g (P.take (k + 1 + 1)) < dj := by
        intro dj hdj
        have hgeteq : P.get ⟨Nat.find hex, hjm⟩ = P.get ⟨k + 1, by omega⟩ := by
          congr 1
          exact Fin.ext hkeq
        have hres := hbadm dj (by rw [hgeteq]; exact hdj)
        rwa [hkeq] at hres
      have := hbadk1 dx hdx
      rw [hpref] at this
      have hew : ewTop g (P.get ⟨k, hk⟩) (P.get ⟨k + 1, by omega⟩) = (w : WithTop W) := by
        unfold ewTop
        rw [hw]
      rw [hew] at this
      exact absurd this (not_lt_of_le (le_trans hdxle (add_le_add_right hdkle _)))

/-- Master correctness lemma for the `a_star` loop, for a nonnegative
admissible heuristic: with the invariant and enough fuel, an unreachable
goal yields `(None, ∞)` and a reachable one yields an optimal-cost walk. -/
theorem aStarLoop_master {g : TrafficGraph W} (hWF : WFgraph g)
    (hNN : NonnegW g) {hr : Node → Node → W} {s e : Node}
    (hh0 : ∀ n m, 0 ≤ hr n m)
    (hadm : ∀ n, ((hr n e : W) : WithTop W) ≤ spDist g n e) :
    ∀ (fuel : Nat) (pq : List (Entry W)) (gs fs : List (Node × WithTop W))
      (par : List (Node × Option Node)),
      DInvA g hr s e pq gs par →
      phiDist g s gs + pq.length < fuel →
      (spDist g s e = ⊤ →
        aStarLoop g hr e fuel pq gs fs par = .done (none, ⊤)) ∧
      (spDist g s e ≠ ⊤ → ∃ p,
        aStarLoop g hr e fuel pq gs fs par = .done (some p, spDist g s e) ∧
          IsWalk g s e p ∧ costW g p = spDist g s e) := by
  have hhee : ((hr e e : W) : WithTop W) = 0 := by
    have h1 : ((hr e e : W) : WithTop W) ≤ 0 := by
      have := hadm e
      rwa [spDist_self hNN e] at this
    have h2 : (0 : WithTop W) ≤ ((hr e e : W) : WithTop W) := by
      exact_mod_cast hh0 e e
    exact le_antisymm h1 h2
  intro fuel
  induction fuel with
  | zero => intro pq gs fs par _ hfuel; omega
  | succ fuel ih =>
    intro pq gs fs par hinv hfuel
    cases hpop : popMin pq with
    | none =>
      have hpq : pq = [] := (popMin_eq_none_iff pq).mp hpop
      constructor
      · intro _
        show aStarLoop g hr e (fuel + 1) pq gs fs par = .done (none, ⊤)
        simp only [aStarLoop, hpop]
      · intro hreach
        exfalso
        rcases frontier_bound_A hWF hNN hadm hinv hreach with
          ⟨ge, hge, hgeq⟩ | ⟨en, hen, _⟩
        · have hgeT : ge ≠ ⊤ := by rw [hgeq]; exact hreach
          obtain ⟨c, hc, _⟩ := hinv.goalp ge hge hgeT
          rw [hpq] at hc
          simp at hc
        · rw [hpq] at hen
          simp at hen
    | some pr =>
      obtain ⟨⟨f, u⟩, pq'⟩ := pr
      have hmem : ((f, u) : Entry W) ∈ pq := popMin_mem hpop
      obtain ⟨gu, hgu, hgule⟩ := hinv.pqg (f, u) hmem
      have hfT : f ≠ ⊤ := hinv.pqfin (f, u) hmem
      have hguT : gu ≠ ⊤ := by
        intro h
        rw [h, top_add] at hgule
        exact hfT (top_le_iff.mp hgule)
      have hpq'sub : ∀ x ∈ pq', x ∈ pq := fun x hx =>
        (popMin_perm hpop).mem_iff.mpr (List.mem_cons_of_mem _ hx)
      have hlen' : pq'.length + 1 = pq.length := by
        have h := (popMin_perm hpop).length_eq
        simp only [List.length_cons] at h
        omega
      by_cases hue : u = e
      · -- goal pop: return the reconstructed path and the goal's `g_score`
        subst hue
        have hwalk : spDist g s u ≠ ⊤ := by
          obtain ⟨p, hwp, _, hcost, _⟩ := hinv.wit u gu hgu hguT
          intro htop
          have := spDist_le_costW hWF hNN hwp
          rw [htop, hcost] at this
          exact hguT (top_le_iff.mp this)
        have hguopt : gu = spDist g s u := by
          rcases frontier_bound_A hWF hNN hadm hinv hwalk with
            ⟨ge, hge, hgeq⟩ | ⟨en, hen, henle⟩
          · rw [hge] at hgu
            injection hgu with hgu
            rw [← hgu]
            exact hgeq
          · refine le_antisymm ?_ (dist_ge_spDist hWF hNN hinv.wit hgu)
            have h1 : f ≤ en.1 := popMin_le_prio hpop en hen
            have h2 : gu ≤ f := by
              have := hgule
              rwa [hhee, add_zero] at this
            exact le_trans h2 (le_trans h1 henle)
        obtain ⟨pl, hpl⟩ := reconstructAux_some hinv.keys hinv.parw hinv.acyc hgu
        obtain ⟨hhead, ⟨t, hlast, hpart, dt, hdt, hdtT⟩, hcost⟩ :=
          reconstructAux_good hinv.parw
            (fun n dn h => dist_nonneg_of_wit hNN hinv.wit h)
            _ _ gu pl hpl hgu hguT
        have hts : t = s := by
          by_contra hts
          have := hinv.pardist t dt hts hdt hdtT
          rw [hpart] at this
          simp at this
        subst hts
        have hrevhead : pl.reverse.head? = some t := by
          rw [List.head?_reverse]
          exact hlast
        have hrevlast : pl.reverse.getLast? = some u := by
          rw [List.getLast?_reverse]
          exact hhead
        have hcostle : costW g pl.reverse ≤ spDist g t u := by
          rw [← hguopt]
          exact hcost
        have hcostT : costW g pl.reverse ≠ ⊤ :=
          ne_top_of_le_ne_top hwalk hcostle
        have hwp : IsWalk g t u pl.reverse := ⟨hrevhead, hrevlast, hcostT⟩
        have hcosteq : costW g pl.reverse = spDist g t u :=
          le_antisymm hcostle (spDist_le_costW hWF hNN hwp)
        have hcomp : aStarLoop g hr u (fuel + 1) pq gs fs par =
            .done (some pl.reverse, gu) := by
          simp only [aStarLoop, hpop, eq_self_iff_true, if_true, hgu,
            reconstruct_path, hpl, Option.map_some']
        constructor
        · intro htop
          exact absurd htop hwalk
        · intro _
          exact ⟨pl.reverse, by rw [hcomp, hguopt], hwp, hcosteq⟩
      · -- expand u
        have hinvR : DInvRA g hr s e u pq' gs par := by
          refine ⟨hinv.keys, hinv.keysnd, hinv.starts, hinv.wit,
            fun en hen => hinv.pqg en (hpq'sub en hen),
            fun en hen => hinv.pqfin en (hpq'sub en hen),
            ?_, ?_, hinv.parw, hinv.parS, hinv.pardist, hinv.acyc⟩
          · intro n gn hnu hgn hgnT
            rcases hinv.doneq n gn hgn hgnT with ⟨c, hc, hcle⟩ | hdone
            · refine Or.inl ⟨c, popMin_mem_rest hpop _ hc ?_, hcle⟩
              intro heq
              injection heq with h1 h2
              exact hnu h2
            · exact Or.inr hdone
          · intro ge hge hgeT
            obtain ⟨c, hc, hceq⟩ := hinv.goalp ge hge hgeT
            refine ⟨c, popMin_mem_rest hpop _ hc ?_, hceq⟩
            intro heq
            injection heq with h1 h2
            exact hue h2.symm
        have hedges : ∀ pr ∈ get_neighbors g u, edgeWeight g u pr.1 = some pr.2 := by
          intro pr hpr
          obtain ⟨v, w⟩ := pr
          exact (mem_get_neighbors_iff hWF).mp hpr
        obtain ⟨gs2, fs2, par2, pq2, heq, hinvR2, hgu2, hrel2, hdl2, hpqm2, hphi2⟩ :=
          relaxA_spec hWF hNN (get_neighbors g u) gs fs par pq' hinvR hgu hguT hedges
        have hinv2 : DInvA g hr s e pq2 gs2 par2 := by
          refine ⟨hinvR2.keys, hinvR2.keysnd, hinvR2.starts, hinvR2.wit,
            hinvR2.pqg, hinvR2.pqfin, ?_, hinvR2.goalp, hinvR2.parw,
            hinvR2.parS, hinvR2.pardist, hinvR2.acyc⟩
          intro n gn hgn hgnT
          by_cases hnu : n = u
          · subst hnu
            rw [hgu2] at hgn
            injection hgn with hgn
            subst hgn
            exact Or.inr (fun pr hpr => hrel2 pr hpr)
          · exact hinvR2.doneq n gn hnu hgn hgnT
        have hcomp : aStarLoop g hr e (fuel + 1) pq gs fs par =
            aStarLoop g hr e fuel pq2 gs2 fs2 par2 := by
          simp only [aStarLoop, hpop, if_neg hue, hgu, heq]
        rw [hcomp]
        refine ih pq2 gs2 fs2 par2 hinv2 ?_
        omega

/-- The A* loop invariant holds in the initial state built by `a_star`. -/
theorem DInvA_init {g : TrafficGraph W} (hWF : WFgraph g)
    (hr : Node → Node → W) (s e : Node) :
    DInvA g hr s e [(((hr s e : W) : WithTop W), s)]
      (dset (initDist g.nodes) s 0) (initPar g.nodes) := by
  have hfin : ∀ n c, dlookup (dset (initDist g.nodes) s (0 : WithTop W)) n =
      some c → c ≠ ⊤ → s = n ∧ c = 0 := by
    intro n c hc hcT
    rw [dlookup_dset] at hc
    by_cases h : s = n
    · rw [if_pos h] at hc
      injection hc with hc
      exact ⟨h, hc.symm⟩
    · rw [if_neg h, dlookup_initDist] at hc
      by_cases hm : n ∈ g.nodes
      · rw [if_pos hm] at hc
        injection hc with hc
        exact absurd hc.symm hcT
      · rw [if_neg hm] at hc
        exact Option.noConfusion hc
  refine ⟨?_, ?_, ?_, ?_, ?_, ?_, ?_, ?_, ?_, ?_, ?_, ?_⟩
  · intro n
    rw [dlookup_dset]
    by_cases h : s = n
    · subst h
      simp
    · rw [if_neg h, dlookup_initDist]
      have hns : ¬ n = s := fun hh => h hh.symm
      by_cases hm : n ∈ g.nodes
      · simp [hm, hns]
      · simp [hm, hns]
  · rw [keysOf_dset, keysOf_initDist]
    by_cases h : s ∈ g.nodes
    · rw [if_pos h]
      exact hWF.1
    · rw [if_neg h]
      simp [List.nodup_append, hWF.1, h]
  · exact dlookup_dset_self _ _ _
  · intro n c hc hcT
    obtain ⟨hsn, hc0⟩ := hfin n c hc hcT
    subst hsn
    subst hc0
    refine ⟨[s], ⟨rfl, rfl, ?_⟩, by simp, ?_, ?_⟩
    · show (0 : WithTop W) ≠ ⊤
      exact WithTop.zero_ne_top
    · rfl
    · intro i
      obtain ⟨iv, hiv⟩ := i
      have hiv0 : iv = 0 := by
        simp only [List.length_cons, List.length_nil] at hiv
        omega
      subst hiv0
      refine ⟨0, ?_, ?_⟩
      · show dlookup (dset (initDist g.nodes) s (0 : WithTop W)) s = some 0
        exact dlookup_dset_self _ _ _
      · show (0 : WithTop W) ≤ costW g [s]
        exact le_refl 0
  · intro en hen
    rw [List.mem_singleton] at hen
    subst hen
    refine ⟨0, dlookup_dset_self _ _ _, ?_⟩
    rw [zero_add]
  · intro en hen
    rw [List.mem_singleton] at hen
    subst hen
    exact WithTop.coe_ne_top
  · intro n gn hgn hgnT
    obtain ⟨hsn, hgn0⟩ := hfin n gn hgn hgnT
    subst hsn
    subst hgn0
    refine Or.inl ⟨((hr s e : W) : WithTop W), List.mem_singleton.mpr rfl, ?_⟩
    rw [zero_add]
  · intro ge hge hgeT
    obtain ⟨hse, hge0⟩ := hfin e ge hge hgeT
    subst hge0
    refine ⟨((hr s e : W) : WithTop W), List.mem_singleton.mpr ?_, ?_⟩
    · rw [hse]
    · rw [zero_add, hse]
  · intro v u hp
    rw [parGet_initPar] at hp
    exact Option.noConfusion hp
  · exact parGet_initPar _ _
  · intro n dn hns hdn hdnT
    exact absurd (hfin n dn hdn hdnT).1 (fun hh => hns hh.symm)
  · intro v hv
    cases hv with
    | single hstep =>
      unfold parStep at hstep
      rw [parGet_initPar] at hstep
      exact Option.noConfusion hstep
    | tail h hstep =>
      unfold parStep at hstep
      rw [parGet_initPar] at hstep
      exact Option.noConfusion hstep

/-- Top-level correctness of `a_star` for a nonnegative admissible
heuristic: an unreachable goal yields `(None, ∞)`, a reachable one yields a
path of optimal cost together with that cost. -/
theorem a_star_spec {g : TrafficGraph W} (hWF : WFgraph g) (hNN : NonnegW g)
    (hr : Node → Node → W) (s e : Node)
    (hh0 : ∀ n m, 0 ≤ hr n m)
    (hadm : ∀ n, ((hr n e : W) : WithTop W) ≤ spDist g n e) :
    (spDist g s e = ⊤ → a_star g hr s e = .done (none, ⊤)) ∧
    (spDist g s e ≠ ⊤ → ∃ p, a_star g hr s e = .done (some p, spDist g s e) ∧
      IsWalk g s e p ∧ costW g p = spDist g s e) := by
  unfold a_star
  refine aStarLoop_master hWF hNN hh0 hadm (searchFuel g) _ _ _ _
    (DInvA_init hWF hr s e) ?_
  have h := searchFuel_sufficient g s
  simp only [List.length_cons, List.length_nil]
  omega

/-- A node outside the node set of a well-formed graph is unreachable from
every other node: no edge can end there. -/
theorem spDist_absent_goal {g : TrafficGraph W} (hWF : WFgraph g) {s e : Node}
    (he : e ∉ g.nodes) (hes : e ≠ s) : spDist g s e = ⊤ := by
  by_contra h
  obtain ⟨P, hwP, _, _⟩ := spDist_attained h
  have hPne : P ≠ [] := by
    intro hn
    rw [hn] at hwP
    exact absurd hwP.1 (by simp)
  have hmem : e ∈ P := by
    have hlast := hwP.2.1
    rw [List.getLast?_eq_getLast P hPne, Option.some.injEq] at hlast
    rw [← hlast]
    exact List.getLast_mem hPne
  rcases List.mem_cons.mp (walk_elems hWF P s e hwP e hmem) with h1 | h1
  · exact hes h1
  · exact he h1

/-- Properties of the A* loop that hold for an arbitrary heuristic: an
unreachable goal yields `(None, ∞)`, and every returned path is contiguous. -/
theorem aStarLoop_basic {g : TrafficGraph W} (hWF : WFgraph g)
    (hNN : NonnegW g) {hr : Node → Node → W} {s e : Node} :
    ∀ (fuel : Nat) (pq : List (Entry W)) (gs fs : List (Node × WithTop W))
      (par : List (Node × Option Node)),
      DInvA g hr s e pq gs par →
      phiDist g s gs + pq.length < fuel →
      (spDist g s e = ⊤ →
        aStarLoop g hr e fuel pq gs fs par = .done (none, ⊤)) ∧
      (∀ p c, aStarLoop g hr e fuel pq gs fs par = .done (some p, c) →
        Contig g p) := by
  intro fuel
  induction fuel with
  | zero => intro pq gs fs par _ hfuel; omega
  | succ fuel ih =>
    intro pq gs fs par hinv hfuel
    cases hpop : popMin pq with
    | none =>
      constructor
      · intro _
        show aStarLoop g hr e (fuel + 1) pq gs fs par = .done (none, ⊤)
        simp only [aStarLoop, hpop]
      · intro p c hres
        rw [show aStarLoop g hr e (fuel + 1) pq gs fs par = .done (none, ⊤) by
          simp only [aStarLoop, hpop]] at hres
        injection hres with hres
        simp at hres
    | some pr =>
      obtain ⟨⟨f, u⟩, pq'⟩ := pr
      have hmem : ((f, u) : Entry W) ∈ pq := popMin_mem hpop
      obtain ⟨gu, hgu, hgule⟩ := hinv.pqg (f, u) hmem
      have hfT : f ≠ ⊤ := hinv.pqfin (f, u) hmem
      have hguT : gu ≠ ⊤ := by
        intro h
        rw [h, top_add] at hgule
        exact hfT (top_le_iff.mp hgule)
      have hpq'sub : ∀ x ∈ pq', x ∈ pq := fun x hx =>
        (popMin_perm hpop).mem_iff.mpr (List.mem_cons_of_mem _ hx)
      have hlen' : pq'.length + 1 = pq.length := by
        have h := (popMin_perm hpop).length_eq
        simp only [List.length_cons] at h
        omega
      have hwalkable : spDist g s u ≠ ⊤ := by
        obtain ⟨p, hwp, _, hcost, _⟩ := hinv.wit u gu hgu hguT
        intro htop
        have := spDist_le_costW hWF hNN hwp
        rw [htop, hcost] at this
        exact hguT (top_le_iff.mp this)
      by_cases hue : u = e
      · subst hue
        obtain ⟨pl, hpl⟩ := reconstructAux_some hinv.keys hinv.parw hinv.acyc hgu
        obtain ⟨_, _, hcost⟩ :=
          reconstructAux_good hinv.parw
            (fun n dn hh => dist_nonneg_of_wit hNN hinv.wit hh)
            _ _ gu pl hpl hgu hguT
        have hcomp : aStarLoop g hr u (fuel + 1) pq gs fs par =
            .done (some pl.reverse, gu) := by
          simp only [aStarLoop, hpop, eq_self_iff_true, if_true, hgu,
            reconstruct_path, hpl, Option.map_some']
        constructor
        · intro htop
          exact absurd htop hwalkable
        · intro p c hres
          rw [hcomp] at hres
          injection hres with hres
          have hp : pl.reverse = p := (Prod.mk.injEq _ _ _ _).mp hres |>.1 |>
            fun hh => Option.some.inj hh
          rw [← hp]
          refine (costW_ne_top_iff_contig g pl.reverse).mp ?_
          exact ne_top_of_le_ne_top hguT hcost
      · have hinvR : DInvRA g hr s e u pq' gs par := by
          refine ⟨hinv.keys, hinv.keysnd, hinv.starts, hinv.wit,
            fun en hen => hinv.pqg en (hpq'sub en hen),
            fun en hen => hinv.pqfin en (hpq'sub en hen),
            ?_, ?_, hinv.parw, hinv.parS, hinv.pardist, hinv.acyc⟩
          · intro n gn hnu hgn hgnT
            rcases hinv.doneq n gn hgn hgnT with ⟨c, hc, hcle⟩ | hdone
            · refine Or.inl ⟨c, popMin_mem_rest hpop _ hc ?_, hcle⟩
              intro heq
              injection heq with h1 h2
              exact hnu h2
            · exact Or.inr hdone
          · intro ge hge hgeT
            obtain ⟨c, hc, hceq⟩ := hinv.goalp ge hge hgeT
            refine ⟨c, popMin_mem_rest hpop _ hc ?_, hceq⟩
            intro heq
            injection heq with h1 h2
            exact hue h2.symm
        have hedges : ∀ pr ∈ get_neighbors g u, edgeWeight g u pr.1 = some pr.2 := by
          intro pr hpr
          obtain ⟨v, w⟩ := pr
          exact (mem_get_neighbors_iff hWF).mp hpr
        obtain ⟨gs2, fs2, par2, pq2, heq, hinvR2, hgu2, hrel2, hdl2, hpqm2, hphi2⟩ :=
          relaxA_spec hWF hNN (get_neighbors g u) gs fs par pq' hinvR hgu hguT hedges
        have hinv2 : DInvA g hr s e pq2 gs2 par2 := by
          refine ⟨hinvR2.keys, hinvR2.keysnd, hinvR2.starts, hinvR2.wit,
            hinvR2.pqg, hinvR2.pqfin, ?_, hinvR2.goalp, hinvR2.parw,
            hinvR2.parS, hinvR2.pardist, hinvR2.acyc⟩
          intro n gn hgn hgnT
          by_cases hnu : n = u
          · subst hnu
            rw [hgu2] at hgn
            injection hgn with hgn
            subst hgn
            exact Or.inr (fun pr hpr => hrel2 pr hpr)
          · exact hinvR2.doneq n gn hnu hgn hgnT
        have hcomp : aStarLoop g hr e (fuel + 1) pq gs fs par =
            aStarLoop g hr e fuel pq2 gs2 fs2 par2 := by
          simp only [aStarLoop, hpop, if_neg hue, hgu, heq]
        rw [hcomp]
        exact ih pq2 gs2 fs2 par2 hinv2 (by omega)

/-- `a_star` facts that hold for an arbitrary heuristic: an unreachable goal
yields `(None, ∞)`, and every returned path is contiguous. -/
theorem a_star_basic {g : TrafficGraph W} (hWF : WFgraph g) (hNN : NonnegW g)
    (hr : Node → Node → W) (s e : Node) :
    (spDist g s e = ⊤ → a_star g hr s e = .done (none, ⊤)) ∧
    (∀ p c, a_star g hr s e = .done (some p, c) → Contig g p) := by
  unfold a_star
  refine aStarLoop_basic hWF hNN (searchFuel g) _ _ _ _
    (DInvA_init hWF hr s e) ?_
  have h := searchFuel_sufficient g s
  simp only [List.length_cons, List.length_nil]
  omega

end Paths

/-- `updateDir` preserves weight nonnegativity when the new weight is
nonnegative. -/
theorem NonnegW.updateDir_nonneg [Preorder W] [Zero W] {g : TrafficGraph W}
    (hNN : NonnegW g) (x y : Node) {w : W} (hw : 0 ≤ w) :
    NonnegW (Traffic.updateDir g x y w) := by
  unfold Traffic.updateDir
  cases hx : dlookup g.graph x with
  | none => exact hNN
  | some adj =>
    by_cases hy : (dlookup adj y).isSome
    · simp only [hy, if_pos]
      intro en hen p hp
      rcases mem_dset hen with hen | hen
      · subst hen
        rcases mem_dset hp with hp | hp
        · subst hp
          exact hw
        · exact hNN _ (dlookup_mem hx) _ hp
      · exact hNN _ hen _ hp
    · simp only [hy]
      simpa using hNN

/-- `update_traffic` preserves weight nonnegativity when the new weight is
nonnegative. -/
theorem NonnegW.update_traffic_nonneg [Preorder W] [Zero W] {g : TrafficGraph W}
    (hNN : NonnegW g) (u v : Node) {w : W} (hw : 0 ≤ w) (d : String) :
    NonnegW (Traffic.update_traffic g u v w d).1 := by
  unfold Traffic.update_traffic
  simp only []
  by_cases hd : d = "both"
  · rw [if_pos hd]
    exact (hNN.updateDir_nonneg u v hw).updateDir_nonneg v u hw
  · rw [if_neg hd]
    exact hNN.updateDir_nonneg u v hw

/-! ## The claims -/

/-- C1: on the 8-node demonstration graph, `dijkstra(graph, A, H)` returns
cost 10 with path `[A, C, E, G, H]`; after `update_traffic(C, E, 20, both)`
it returns cost 16 with path `[A, C, F, E, G, H]` (not, as the spec's text
and the source's hardcoded analysis claim, cost 18 via `[A, B, E, G, H]`:
the detour through F costs 1+7+2+1+5 = 16 < 18). -/
theorem C1_demo_routes :
    dijkstra demoGraph "A" "H" =
      .done (some ["A", "C", "E", "G", "H"], (10 : WithTop Int)) ∧
    dijkstra demoGraph2 "A" "H" =
      .done (some ["A", "C", "F", "E", "G", "H"], (16 : WithTop Int)) := by
  decide

/-- C1, counterexample: after the traffic update the engine does not return
cost 18 via `[A, B, E, G, H]`; it returns cost 16 via `[A, C, F, E, G, H]`. -/
theorem C1_counterexample :
    dijkstra demoGraph2 "A" "H" ≠
      .done (some ["A", "B", "E", "G", "H"], (18 : WithTop Int)) ∧
    dijkstra demoGraph2 "A" "H" =
      .done (some ["A", "C", "F", "E", "G", "H"], (16 : WithTop Int)) := by
  decide

/-- C2: on every well-formed graph with nonnegative edge weights, for every
start/goal pair with the goal reachable, `dijkstra` and `a_star` return the
same cost (both return the true shortest-path distance), whenever the
heuristic is admissible (never overestimates the true remaining cost; its
values are nonnegative, as the source's Euclidean `heuristic` always is). -/
theorem C2_dijkstra_a_star_same_cost {W : Type} [LinearOrderedAddCommMonoid W]
    {g : TrafficGraph W} (hWF : WFgraph g) (hNN : NonnegW g)
    (hr : Node → Node → W) (s e : Node)
    (hh0 : ∀ n m, 0 ≤ hr n m)
    (hadm : ∀ n, ((hr n e : W) : WithTop W) ≤ spDist g n e)
    (hreach : spDist g s e ≠ ⊤) :
    ∃ p q c, dijkstra g s e = .done (some p, c) ∧
      a_star g hr s e = .done (some q, c) := by
  obtain ⟨p, hp, _, _⟩ := (dijkstra_spec hWF hNN s e).2 hreach
  obtain ⟨q, hq, _, _⟩ := (a_star_spec hWF hNN hr s e hh0 hadm).2 hreach
  exact ⟨p, q, spDist g s e, hp, hq⟩

/-- C2, instantiated on a concrete two-node graph with the zero heuristic. -/
theorem C2_witness :
    ∃ p q c, dijkstra pairGraph "A" "B" = .done (some p, c) ∧
      a_star pairGraph (fun _ _ => (0 : Int)) "A" "B" = .done (some q, c) :=
  C2_dijkstra_a_star_same_cost (by decide) (by decide) (fun _ _ => 0) "A" "B"
    (fun n m => le_refl 0)
    (fun n => by rw [WithTop.coe_zero]; exact spDist_nonneg (by decide) n "B")
    (by decide)

/-- C3: `update_traffic(u, v, w, direction)` overwrites the weight of the
edge `u → v` only if that edge exists, with direction `both` also of the
existing reverse edge `v → u`, and changes nothing else: in particular it
never creates an edge that was not already present. -/
theorem C3_update_touches_only_existing {W : Type} (g : TrafficGraph W)
    (u v : Node) (w : W) (d : String) (a b : Node) :
    edgeWeight (update_traffic g u v w d).1 a b =
      (if a = u ∧ b = v ∧ (edgeWeight g u v).isSome = true then some w
       else if d = "both" ∧ a = v ∧ b = u ∧ (edgeWeight g v u).isSome = true
         then some w
       else edgeWeight g a b) ∧
    (edgeWeight g a b = none →
      edgeWeight (update_traffic g u v w d).1 a b = none) := by
  refine ⟨update_traffic_edgeWeight g u v w d a b, fun hnone => ?_⟩
  rw [update_traffic_edgeWeight g u v w d a b]
  by_cases h1 : a = u ∧ b = v ∧ (edgeWeight g u v).isSome = true
  · exfalso
    obtain ⟨ha, hb, hs⟩ := h1
    subst ha
    subst hb
    rw [hnone] at hs
    simp at hs
  · rw [if_neg h1]
    by_cases h2 : d = "both" ∧ a = v ∧ b = u ∧ (edgeWeight g v u).isSome = true
    · exfalso
      obtain ⟨hd, ha, hb, hs⟩ := h2
      subst ha
      subst hb
      rw [hnone] at hs
      simp at hs
    · rw [if_neg h2]
      exact hnone

/-- C3, instantiated: updating the absent edge `A → B` of the one-way graph
does not create it. -/
theorem C3_witness :
    edgeWeight (update_traffic asymGraph "A" "B" (7 : Int) "both").1 "A" "B" =
      none :=
  (C3_update_touches_only_existing asymGraph "A" "B" 7 "both" "A" "B").2
    (by decide)

/-- C4 (amended): a query whose goal is absent from a well-formed graph's
node set reports unreachable — provided the start differs from the goal.
The claim's final clause is false: for `start = goal` both absent from the
graph, the solver returns the one-node path `[goal]` with cost 0 (see the
counterexample), because `distances[start_node] = 0` inserts the unknown
start into the distance dict and the goal check fires on the first pop. -/
theorem C4_unknown_goal {W : Type} [LinearOrderedAddCommMonoid W]
    {g : TrafficGraph W} (hWF : WFgraph g) (hNN : NonnegW g)
    (hr : Node → Node → W) (s e : Node)
    (he : e ∉ g.nodes) (hes : e ≠ s) :
    dijkstra g s e = .done (none, ⊤) ∧ a_star g hr s e = .done (none, ⊤) := by
  have htop := spDist_absent_goal hWF he hes
  exact ⟨(dijkstra_spec hWF hNN s e).1 htop,
    (a_star_basic hWF hNN hr s e).1 htop⟩

/-- C4, counterexample: on the demo graph, a query from the unknown node X
to itself returns the path `[X]` with cost 0, not the unreachable result. -/
theorem C4_counterexample :
    ("X" : Node) ∉ demoGraph.nodes ∧
    dijkstra demoGraph "X" "X" = .done (some ["X"], (0 : WithTop Int)) ∧
    dijkstra demoGraph "X" "X" ≠ .done (none, ⊤) := by
  decide

/-- C4, instantiated on a concrete graph and unknown goal. -/
theorem C4_witness :
    dijkstra isoGraph "A" "C" = .done (none, ⊤) ∧
    a_star isoGraph (fun _ _ => (0 : Int)) "A" "C" = .done (none, ⊤) :=
  C4_unknown_goal (by decide) (by decide) (fun _ _ => 0) "A" "C"
    (by decide) (by decide)

/-- C5: on a well-formed graph with nonnegative weights, a query whose goal
is unreachable from the start returns `(None, ∞)` as an ordinary value (the
constructor `RunRes.done`, not the exception outcome `RunRes.exn`), for
`dijkstra` and for `a_star` with an arbitrary heuristic. -/
theorem C5_unreachable_is_value {W : Type} [LinearOrderedAddCommMonoid W]
    {g : TrafficGraph W} (hWF : WFgraph g) (hNN : NonnegW g)
    (hr : Node → Node → W) (s e : Node) (hnr : spDist g s e = ⊤) :
    dijkstra g s e = .done (none, ⊤) ∧ a_star g hr s e = .done (none, ⊤) :=
  ⟨(dijkstra_spec hWF hNN s e).1 hnr, (a_star_basic hWF hNN hr s e).1 hnr⟩

/-- C5, instantiated on the edgeless two-node graph. -/
theorem C5_witness :
    dijkstra isoGraph "A" "B" = .done (none, ⊤) ∧
    a_star isoGraph (fun _ _ => (0 : Int)) "A" "B" = .done (none, ⊤) :=
  C5_unreachable_is_value (by decide) (by decide) (fun _ _ => 0) "A" "B"
    (by decide)

/-- C6 (amended): `update_traffic` never surfaces a failure — its only
output is the unconditional informational banner, identical on success and
failure — and it is not atomic: each direction is updated independently, so
when only the reverse edge `v → u` exists, a `both` update silently rewrites
that direction alone while the absent forward edge stays absent. -/
theorem C6_update_never_fails_not_atomic {W : Type} (g : TrafficGraph W)
    (u v : Node) (w : W) (d : String) :
    (update_traffic g u v w d).2 = [updateBanner u v] ∧
    (edgeWeight g u v = none → d = "both" →
      (edgeWeight g v u).isSome = true →
      edgeWeight (update_traffic g u v w d).1 v u = some w) := by
  refine ⟨rfl, fun hfwd hd hrev => ?_⟩
  rw [update_traffic_edgeWeight]
  have h1 : ¬ (v = u ∧ u = v ∧ (edgeWeight g u v).isSome = true) := by
    intro h
    rw [hfwd] at h
    simp at h
  rw [if_neg h1, if_pos ⟨hd, rfl, rfl, hrev⟩]

/-- C6, counterexample: on the one-way graph holding only `B → A`, updating
`A <-> B` with direction `both` prints only the ordinary banner (no failure
indication) yet mutates the graph: the reverse edge `B → A` is rewritten
while the absent forward edge `A → B` stays absent — a partial, silent
mutation. -/
theorem C6_counterexample :
    edgeWeight asymGraph "A" "B" = none ∧
    edgeWeight asymGraph "B" "A" = some (5 : Int) ∧
    (update_traffic asymGraph "A" "B" 7 "both").2 = [updateBanner "A" "B"] ∧
    edgeWeight (update_traffic asymGraph "A" "B" 7 "both").1 "B" "A" = some 7 ∧
    (update_traffic asymGraph "A" "B" 7 "both").1 ≠ asymGraph := by
  decide

/-- C6, instantiated: the banner and the partial update on the one-way
graph. -/
theorem C6_witness :
    edgeWeight (update_traffic asymGraph "A" "B" (7 : Int) "both").1 "B" "A" =
      some 7 :=
  (C6_update_never_fails_not_atomic asymGraph "A" "B" 7 "both").2
    (by decide) rfl (by decide)

/-- C7: adjacency keys and targets always lie in the node set: the
invariant (as part of `WFgraph`) holds after construction and is preserved
by `add_edge` and `update_traffic`; an `add_edge` whose endpoint is missing
from the node set rejects the edge, prints the warning, and leaves the
graph unchanged. -/
theorem C7_adjacency_nodes_invariant {W : Type} (ns : List Node)
    (es : List (Node × Node × W)) (cs : List (Node × (Int × Int)))
    (g : TrafficGraph W) (hg : WFgraph g) (u v : Node) (w : W) (d : String) :
    WFgraph (mkGraph ns es cs).1 ∧
    WFgraph (add_edge g u v w).1 ∧
    WFgraph (update_traffic g u v w d).1 ∧
    (u ∉ g.nodes ∨ v ∉ g.nodes →
      add_edge g u v w = (g, [warningMsg u v])) := by
  refine ⟨WFgraph.mkGraph ns es cs, hg.add_edge u v w,
    hg.update_traffic u v w d, fun habs => ?_⟩
  refine add_edge_fail g u v w ?_
  intro hsome
  obtain ⟨hu, hv⟩ := hsome
  rcases habs with h | h
  · exact h (hg.key_mem_nodes hu)
  · exact h (hg.key_mem_nodes hv)

/-- C7, instantiated on the demo graph with the unknown endpoint X. -/
theorem C7_witness :
    WFgraph (mkGraph demoNodes demoEdges demoCoords).1 ∧
    WFgraph (add_edge demoGraph "X" "B" (3 : Int)).1 ∧
    WFgraph (update_traffic demoGraph "X" "B" (3 : Int) "both").1 ∧
    ("X" ∉ demoGraph.nodes ∨ "B" ∉ demoGraph.nodes →
      add_edge demoGraph "X" "B" (3 : Int) = (demoGraph, [warningMsg "X" "B"])) :=
  C7_adjacency_nodes_invariant demoNodes demoEdges demoCoords demoGraph
    (by decide) "X" "B" 3 "both"

/-- C8: on a well-formed graph with nonnegative weights, every path either
solver returns is contiguous: consecutive nodes are joined by a stored edge
(`a_star` with an arbitrary heuristic). -/
theorem C8_returned_paths_contiguous {W : Type} [LinearOrderedAddCommMonoid W]
    {g : TrafficGraph W} (hWF : WFgraph g) (hNN : NonnegW g)
    (hr : Node → Node → W) (s e : Node) (p q : List Node) (c c' : WithTop W) :
    (dijkstra g s e = .done (some p, c) → Contig g p) ∧
    (a_star g hr s e = .done (some q, c') → Contig g q) := by
  constructor
  · intro hres
    by_cases hreach : spDist g s e = ⊤
    · rw [(dijkstra_spec hWF hNN s e).1 hreach] at hres
      injection hres with hres
      simp at hres
    · obtain ⟨p', hp', hw', _⟩ := (dijkstra_spec hWF hNN s e).2 hreach
      rw [hp'] at hres
      injection hres with hres
      have hpp : p' = p :=
        Option.some.inj ((Prod.mk.injEq _ _ _ _).mp hres).1
      rw [← hpp]
      exact (costW_ne_top_iff_contig g p').mp hw'.2.2
  · intro hres
    exact (a_star_basic hWF hNN hr s e).2 q c' hres

/-- C8, instantiated on a concrete run. -/
theorem C8_witness : Contig pairGraph ["A", "B"] :=
  (C8_returned_paths_contiguous (by decide) (by decide)
    (fun _ _ => (0 : Int)) "A" "B" ["A", "B"] ["A", "B"] 2 2).1 (by decide)

/-- C9 (amended): mutation visibility holds in the sense that a query after
`update_traffic(u, v, w2)` computes with the updated weights: it returns
exactly the shortest-path cost of the updated graph, realised by the
returned path. The claim's stronger clause — that the cost difference
equals the weight delta when the changed edge lay on the optimal path — is
false, because the solver may reroute around the changed edge (see the
counterexample: 16 − 10 = 6 ≠ 20 − 3). -/
theorem C9_update_visible {W : Type} [LinearOrderedAddCommMonoid W]
    {g : TrafficGraph W} (hWF : WFgraph g) (hNN : NonnegW g)
    (u v : Node) (w2 : W) (hw2 : 0 ≤ w2) (d : String) (s e : Node)
    (hreach : spDist (update_traffic g u v w2 d).1 s e ≠ ⊤) :
    ∃ p, dijkstra (update_traffic g u v w2 d).1 s e =
        .done (some p, spDist (update_traffic g u v w2 d).1 s e) ∧
      IsWalk (update_traffic g u v w2 d).1 s e p ∧
      costW (update_traffic g u v w2 d).1 p =
        spDist (update_traffic g u v w2 d).1 s e :=
  (dijkstra_spec (hWF.update_traffic u v w2 d)
    (hNN.update_traffic_nonneg u v hw2 d) s e).2 hreach

/-- C9, counterexample: on the demo graph the edge `C → E` (weight 3) lies
on the returned optimal path `A, C, E, G, H` of cost 10; after
`update_traffic(C, E, 20, both)` the query returns cost 16, and
16 ≠ 10 + (20 − 3). -/
theorem C9_counterexample :
    dijkstra demoGraph "A" "H" =
      .done (some ["A", "C", "E", "G", "H"], (10 : WithTop Int)) ∧
    edgeWeight demoGraph "C" "E" = some (3 : Int) ∧
    dijkstra demoGraph2 "A" "H" =
      .done (some ["A", "C", "F", "E", "G", "H"], (16 : WithTop Int)) ∧
    (16 : WithTop Int) ≠ 10 + (20 - 3) := by
  decide

/-- C9, instantiated: updating the two-node graph and re-querying. -/
theorem C9_witness :
    ∃ p, dijkstra (update_traffic pairGraph "A" "B" (5 : Int) "both").1 "A" "B" =
        .done (some p,
          spDist (update_traffic pairGraph "A" "B" (5 : Int) "both").1 "A" "B") ∧
      IsWalk (update_traffic pairGraph "A" "B" (5 : Int) "both").1 "A" "B" p ∧
      costW (update_traffic pairGraph "A" "B" (5 : Int) "both").1 p =
        spDist (update_traffic pairGraph "A" "B" (5 : Int) "both").1 "A" "B" :=
  C9_update_visible (by decide) (by decide) "A" "B" 5 (by decide) "both"
    "A" "B" (by decide)

/-- C10: the read-only operations mutate nothing: threading the graph store
through `get_neighbors`, `dijkstra` and `a_star` exactly where the source
consults it returns the store unchanged (nodes, adjacency and coordinates
identical), along with the plain result. -/
theorem C10_queries_do_not_mutate {W : Type} [LinearOrderedAddCommMonoid W]
    (g : TrafficGraph W) (hr : Node → Node → W) (n s e : Node) :
    get_neighborsS g n = (get_neighbors g n, g) ∧
    dijkstraS g s e = (dijkstra g s e, g) ∧
    aStarS g hr s e = (a_star g hr s e, g) :=
  ⟨rfl, dijkstraLoopS_eq e (searchFuel g) g _ _ _,
    aStarLoopS_eq hr e (searchFuel g) g _ _ _ _⟩

end Traffic

